import Mathlib

/-!
Verification development for the DB2-for-i Django schema editor
(`iseries/schemaEditor.py`).  The Python class `DB2SchemaEditor` is shallowly
embedded: each method becomes a Lean function over an explicit environment
(the engine connection, the constraint catalog, the introspection answers),
and every executed DDL/DML statement is recorded in a trace.  Engine
failures are modelled by an oracle `Stmt → Bool` (`true` = the engine
rejects the statement); Python exceptions become `Except`/`Option` errors.
Identifier quoting (`quote_name`) is a collaborator that is modelled as the
identity, and identifier shortening (`truncate_name`) and constraint-name
generation (`_create_index_name`) are modelled as abstract functions in the
environment, as the spec describes them as external pure collaborators.
-/

/-- Column, table and constraint identifiers are modelled as lists of
characters, mirroring Python strings (so that `str.replace` can be modelled
faithfully, character by character). -/
abbrev Name := List Char

/-- Fuel-bounded model of Python `str.replace` (all non-overlapping
occurrences, scanned left to right).  Python's behaviour for an empty
pattern (inserting the replacement at every boundary) is not needed by the
program - column names are never empty - so the empty pattern is modelled
as the identity; all theorems about substitution assume a non-empty
pattern.  The fuel argument makes the definition structurally recursive so
that concrete instances compute by `decide`. -/
def pyReplaceF : Nat → Name → Name → Name → Name
  | _, s, [], _ => s
  | _, [], _, _ => []
  | 0, s, _, _ => s
  | fuel+1, c :: rest, o, n =>
    if List.isPrefixOf o (c :: rest) then
      n ++ pyReplaceF fuel (rest.drop (o.length - 1)) o n
    else
      c :: pyReplaceF fuel rest o n

/-- Python `s.replace(o, n)` (see `pyReplaceF`); `s.length` fuel always
suffices because each step consumes at least one character. -/
def pyReplace (s o n : Name) : Name := pyReplaceF s.length s o n

/-- Whether `o` occurs as a contiguous substring of `s` (Python `o in s`). -/
def containsSub (s o : Name) : Bool :=
  match s with
  | [] => List.isPrefixOf o ([] : Name)
  | c :: rest => List.isPrefixOf o (c :: rest) || containsSub rest o

/-- Decimal rendering of an integer (Python `str`/`repr` on `int`). -/
def intRepr (i : Int) : Name :=
  if i < 0 then '-' :: Nat.toDigits 10 i.natAbs else Nat.toDigits 10 i.natAbs

/-- Lower-case hexadecimal digit. -/
def hexDigit (n : Nat) : Char :=
  if n < 10 then Char.ofNat (48 + n) else Char.ofNat (87 + n)

/-- Two lower-case hex digits for one byte (one step of Python
`bytes.hex()`). -/
def byteHex (b : Nat) : Name :=
  [hexDigit ((b % 256) / 16), hexDigit (b % 16)]

/-- Python `bytes.hex()`: the bytes rendered as lower-case hex pairs. -/
def bytesHex (bs : List Nat) : Name :=
  bs.foldr (fun b acc => byteHex b ++ acc) []

/-- The single-quote character used by the SQL dialect. -/
def qc : Char := '\''

/-- Typed literal values accepted by `quote_value`.  The `isinstance`
chain of the source distinguishes exactly these shapes; `datetime`,
`date`, `time` and `str` values share one branch and are carried as their
textual form.  A `timedelta` is carried as a whole number of seconds: the
source serialises `value / datetime.timedelta(seconds=1)` - a Python
float - and whole-second durations (the only ones the claims mention)
print as the integer followed by `.0`. -/
inductive Value
  | vtext (s : Name)
  | vdatetime (s : Name)
  | vdate (s : Name)
  | vtime (s : Name)
  | vbool (b : Bool)
  | vuuid (s : Name)
  | vbytes (bs : List Nat)
  | vtimedelta (secs : Int)
  | vother (s : Name)
deriving DecidableEq

/-- Model of `DB2SchemaEditor.quote_value` (source lines 660-673): the
engine-literal rendering of a typed value. -/
def quote_value : Value → Name
  | .vtext s => qc :: pyReplace s [qc] [qc, qc] ++ [qc]
  | .vdatetime s => qc :: pyReplace s [qc] [qc, qc] ++ [qc]
  | .vdate s => qc :: pyReplace s [qc] [qc, qc] ++ [qc]
  | .vtime s => qc :: pyReplace s [qc] [qc, qc] ++ [qc]
  | .vbool b => if b then ['1'] else ['0']
  | .vuuid s => qc :: s ++ [qc]
  | .vbytes bs => (("BLOB(X").data ++ [qc]) ++ bytesHex bs ++ [qc, ')']
  | .vtimedelta secs => intRepr secs ++ ['.', '0']
  | .vother s => s

/-- The primitive DDL/DML statements the schema editor can issue, one
constructor per parametrized template of the source (the `sql_alter_column`
wrapper is folded into each inner change, since the pair always renders one
statement).  `sql_delete_pk` and `sql_delete_unique` happen to render the
same text (`ALTER TABLE _ DROP CONSTRAINT _`) but are distinct class
attributes and are kept as distinct constructors; no theorem relies on
cross-template textual equality.  `deleteIndex` carries only the index name
because the inherited template consumes only the name.  `addColumn` records
the nullability/primary-key/uniqueness flags of the definition handed to
the base editor's column creation. -/
inductive Stmt
  | renameColumn (table oldCol newCol : Name)
  | addColumn (table column : Name) (null pk uniq : Bool)
  | deleteColumn (table column : Name)
  | alterType (table column ty : Name)
  | alterToIdentity (table column : Name) (start : Int)
  | setNotNull (table column : Name)
  | setNull (table column : Name)
  | setDefault (table column val : Name)
  | dropDefault (table column : Name)
  | dropPK (table : Name)
  | deletePK (table name : Name)
  | deleteUnique (table name : Name)
  | deleteIndex (name : Name)
  | deleteCheck (table name : Name)
  | deleteFK (table name : Name)
  | createPK (table name : Name) (columns : List Name)
  | createUnique (table name : Name) (columns : List Name)
  | createIndex (table name : Name) (columns : List Name)
  | createCheck (table name column check : Name)
  | createFK (table name column toTable toColumn : Name)
  | updateCopy (table toCol fromCol : Name)
  | reorgTable (schema table : Name)
deriving DecidableEq

/-- The constraint name a statement drops or creates, when it has one. -/
def Stmt.nameOf : Stmt → Option Name
  | .deletePK _ n => some n
  | .deleteUnique _ n => some n
  | .deleteIndex n => some n
  | .deleteCheck _ n => some n
  | .deleteFK _ n => some n
  | .createPK _ n _ => some n
  | .createUnique _ n _ => some n
  | .createIndex _ n _ => some n
  | .createCheck _ n _ _ => some n
  | .createFK _ n _ _ _ => some n
  | _ => none

/-- Errors: `dbError` models a `Database.Error` raised by the engine for a
statement, `valueError` the `ValueError`s the editor raises itself (strict
count mismatches, incompatible alteration). -/
inductive Err
  | dbError
  | valueError
deriving DecidableEq

/-- A statement trace. -/
abbrev Trace := List Stmt

/-- A computation step: the statements issued (including a finally failing
one) together with the result. -/
abbrev Res (α : Type) := Trace × Except Err α

/-- Engine oracle: `ex s = true` means the engine rejects statement `s`. -/
abbrev Oracle := Stmt → Bool

/-- The always-succeeding engine. -/
def noFail : Oracle := fun _ => false

/-- Model of `self.execute(s)`: the statement is issued, and the engine
either accepts it or raises. -/
def execS (ex : Oracle) (s : Stmt) : Res Unit :=
  ([s], if ex s then .error .dbError else .ok ())

/-- Sequencing with exception propagation (Python control flow: a raise
aborts the rest of the statement sequence; the trace so far is kept). -/
def bindR (r : Res α) (k : α → Res β) : Res β :=
  match r with
  | (t, .error e) => (t, .error e)
  | (t, .ok a) =>
    let r2 := k a
    (t ++ r2.1, r2.2)

/-- A pure result issuing no statement. -/
def pureR (a : α) : Res α := ([], .ok a)

/-- Execute a list of statements in order, stopping at the first failure
(a Python `for` loop of `self.execute` calls). -/
def execAll (ex : Oracle) : List Stmt → Res Unit
  | [] => pureR ()
  | s :: rest => bindR (execS ex s) (fun _ => execAll ex rest)

/-- A bare Python `except: pass` around a computation: failures are
swallowed, the statements issued so far are kept. -/
def tryIgnore (r : Res Unit) : Res Unit := (r.1, .ok ())

/-- Model of `_reorg_tables` (source lines 580-594): the engine metadata
query returns the reorg-pending `(schema, table)` pairs - carried in the
environment - and one administrative reorganize command is issued per
pair, in returned order.  The metadata query itself is introspection, not
DDL, and is not traced. -/
def reorgTables (ex : Oracle) (pending : List (Name × Name)) : Res Unit :=
  execAll ex (pending.map fun p => .reorgTable p.1 p.2)

/-- One introspected constraint record, as returned by
`connection.introspection.get_constraints`: kind flags and the ordered
column list. -/
structure ConstraintInfo where
  primaryKey : Bool
  uniqueC : Bool
  indexC : Bool
  checkC : Bool
  foreignKeyC : Bool
  columns : List Name
deriving DecidableEq

/-- A constraint catalog snapshot: the `get_constraints` dictionary,
modelled as an association list in iteration (insertion) order. -/
abbrev Snapshot := List (Name × ConstraintInfo)

/-- The `deferred_constraints` dictionary: four kind-keyed maps from
constraint name to the recorded column list, each in insertion order. -/
structure DeferredSet where
  pk : List (Name × List Name)
  uniqueD : List (Name × List Name)
  indexD : List (Name × List Name)
  checkD : List (Name × List Name)
deriving DecidableEq

/-- The empty deferred set, as initialised by the callers. -/
def emptyDC : DeferredSet := ⟨[], [], [], []⟩

/-- The primary-key branch guard of the deferral loop. -/
def pkTrig (dpk : Bool) (oldCol : Name) (ci : ConstraintInfo) : Bool :=
  dpk && ci.primaryKey && decide (oldCol ∈ ci.columns)

/-- The unique branch guard of the deferral loop. -/
def uniqTrig (dun : Bool) (oldCol : Name) (ci : ConstraintInfo) : Bool :=
  dun && ci.uniqueC && decide (oldCol ∈ ci.columns)

/-- The index branch guard of the deferral loop. -/
def idxTrig (didx : Bool) (oldCol : Name) (ci : ConstraintInfo) : Bool :=
  didx && ci.indexC && decide (oldCol ∈ ci.columns)

/-- The check branch guard of the deferral loop. -/
def chkTrig (dchk : Bool) (oldCol : Name) (ci : ConstraintInfo) : Bool :=
  dchk && ci.checkC && decide (oldCol ∈ ci.columns)

/-- One iteration of the `_defer_constraints_check` loop (source lines
598-634) for the constraint `nm`/`ci`.  Mirrors the Python control flow:
the primary-key branch records and `continue`s (its drop failure
propagates); the unique branch ends the iteration whether the drop worked
(record) or raised (swallow, no record); the index branch records on
success, swallows failure with `pass`, and in both cases falls through to
the check branch; the check branch's drop failure propagates. -/
def deferStep (ex : Oracle) (tbl oldCol : Name)
    (dpk dun didx dchk : Bool) (dc : DeferredSet) (nm : Name)
    (ci : ConstraintInfo) : DeferredSet × Trace × Option Err :=
  if pkTrig dpk oldCol ci then
    if ex (.deletePK tbl nm) then (dc, [.deletePK tbl nm], some .dbError)
    else ({dc with pk := dc.pk ++ [(nm, ci.columns)]}, [.deletePK tbl nm], none)
  else if uniqTrig dun oldCol ci then
    if ex (.deleteUnique tbl nm) then (dc, [.deleteUnique tbl nm], none)
    else ({dc with uniqueD := dc.uniqueD ++ [(nm, ci.columns)]},
          [.deleteUnique tbl nm], none)
  else
    let p1 : DeferredSet × Trace :=
      if idxTrig didx oldCol ci then
        if ex (.deleteIndex nm) then (dc, [.deleteIndex nm])
        else ({dc with indexD := dc.indexD ++ [(nm, ci.columns)]},
              [.deleteIndex nm])
      else (dc, [])
    if chkTrig dchk oldCol ci then
      if ex (.deleteCheck tbl nm) then
        (p1.1, p1.2 ++ [.deleteCheck tbl nm], some .dbError)
      else ({p1.1 with checkD := p1.1.checkD ++ [(nm, ci.columns)]},
            p1.2 ++ [.deleteCheck tbl nm], none)
    else (p1.1, p1.2, none)

/-- The `_defer_constraints_check` loop over the snapshot, threading the
deferred set and stopping when an iteration propagates a failure. -/
def deferList (ex : Oracle) (tbl oldCol : Name)
    (dpk dun didx dchk : Bool) :
    Snapshot → DeferredSet → DeferredSet × Trace × Option Err
  | [], dc => (dc, [], none)
  | (nm, ci) :: rest, dc =>
    match deferStep ex tbl oldCol dpk dun didx dchk dc nm ci with
    | (dc1, t1, some e) => (dc1, t1, some e)
    | (dc1, t1, none) =>
      let r := deferList ex tbl oldCol dpk dun didx dchk rest dc1
      (r.1, t1 ++ r.2.1, r.2.2)

/-- Model of `_defer_constraints_check` (source lines 596-636): drops every
constraint of a requested kind touching the old column, recording name and
column list by kind.  `newF` is accepted and unused, as in the source. -/
def defer_constraints_check (ex : Oracle) (constraints : Snapshot)
    (dc : DeferredSet) (oldCol _newF : Name) (tbl : Name)
    (dpk dun didx dchk : Bool) : DeferredSet × Trace × Option Err :=
  deferList ex tbl oldCol dpk dun didx dchk constraints dc

/-- The column list of a restored constraint: every recorded column name
run through Python `str.replace(old, new)` independently (the source joins
them with `', '` into the template's column-list slot; the join is
rendering only and the list is kept structured). -/
def substCols (cols : List Name) (oldCol newCol : Name) : List Name :=
  cols.map fun c => pyReplace c oldCol newCol

/-- The primary-key restoration loop of `_restore_constraints_check`
(source lines 640-645).  Each recreation first runs the reorganization
pass, because `sql_create_pk` is a property whose access triggers
`_reorg_tables`. -/
def restorePKs (ex : Oracle) (pending : List (Name × Name))
    (tbl oldCol newCol : Name) : List (Name × List Name) → Res Unit
  | [] => pureR ()
  | e :: rest =>
    bindR (reorgTables ex pending) fun _ =>
    bindR (execS ex (.createPK tbl e.1 (substCols e.2 oldCol newCol))) fun _ =>
    restorePKs ex pending tbl oldCol newCol rest

/-- Model of `_restore_constraints_check` (source lines 638-658): replay
the recorded primary-key, unique and index constraints under their
original names with the old column name substituted; the recorded check
constraints are not replayed. -/
def restore_constraints_check (ex : Oracle) (pending : List (Name × Name))
    (dc : DeferredSet) (oldCol newCol : Name) (tbl : Name) : Res Unit :=
  bindR (restorePKs ex pending tbl oldCol newCol dc.pk) fun _ =>
  bindR
    (execAll ex (dc.uniqueD.map fun e =>
      .createUnique tbl e.1 (substCols e.2 oldCol newCol))) fun _ =>
  execAll ex (dc.indexD.map fun e =>
    .createIndex tbl e.1 (substCols e.2 oldCol newCol))

/-- Constraint kinds as queried through `_constraint_names`. -/
inductive CKind
  | pk
  | uniq
  | idx
  | chk
  | fk
deriving DecidableEq

/-- The remote-relation information of a field: `through` is `some b` when
the relation object has a `through` attribute holding a link table with
`auto_created = b` (absent or null `through` is `none` - both make the
Python truthiness test fail), and `targetTable`/`targetColumn` are the
table and column of `remote_field.model` / `get_related_field()`. -/
structure Remote where
  through : Option Bool
  targetTable : Name
  targetColumn : Name
deriving DecidableEq

/-- An incoming relation as produced by `get_all_related_objects`: the
referencing table, its foreign-key column and that column's engine type. -/
structure RelObj where
  table : Name
  column : Name
  dbType : Name
deriving DecidableEq

/-- A Django field as the schema editor consumes it: the column name, the
engine type and check expression from `db_parameters` (`none` models Python
`None`), the structural flags, the `isinstance` capabilities (`AutoField`,
`IntegerField`, `TextField`, `ManyToManyField` - kept independent because
the class hierarchy differs across Django versions), the default
information (`hasDefault` is `has_default()`, `rawDefaultIsNone` is
`default is None`, `effDefault` is `effective_default(field)`), and the
remote relation. -/
structure DjField where
  column : Name
  dbType : Option Name
  dbCheck : Option Name
  null : Bool
  primaryKey : Bool
  unique : Bool
  dbIndex : Bool
  isAuto : Bool
  isInteger : Bool
  isText : Bool
  isM2M : Bool
  hasDefault : Bool
  rawDefaultIsNone : Bool
  effDefault : Option Value
  remote : Option Remote
deriving DecidableEq

/-- The execution environment: the schema editor's collaborators.
`constraintNames` models `_constraint_names(model, [column], kind=True)`
per table; `constraints` the `get_constraints` snapshot of the target
table; `maxVal` the `SELECT MAX(column)` answer (`none` for an empty
table); `incomingFields` the `(table, column)` pairs of the
`_meta.get_fields()` loop; `relatedObjects` the `get_all_related_objects`
answer; `existingPKs` the `cursor.connection.primary_keys` names;
`reorgPending` the reorg-pending `(schema, table)` pairs;
`createIndexName` and `truncName` the pure naming collaborators
(`_create_index_name` on columns and suffix, `truncate_name` at
`max_name_length`). -/
structure Env where
  table : Name
  constraintNames : Name → Name → CKind → List Name
  constraints : Snapshot
  maxVal : Option Int
  incomingFields : List (Name × Name)
  relatedObjects : List RelObj
  existingPKs : List Name
  reorgPending : List (Name × Name)
  createIndexName : List Name → Name → Name
  truncName : Name → Name

/-- Generated-name suffix for primary keys. -/
def pkSuffix : Name := ("_pk").data

/-- Generated-name suffix for unique constraints. -/
def uniqSuffix : Name := ("_uniq").data

/-- Generated-name suffix for indexes. -/
def indexSuffix : Name := ("_index").data

/-- Generated-name suffix for check constraints. -/
def checkSuffix : Name := ("_check").data

/-- Generated-name suffix for foreign keys. -/
def fkSuffix : Name := ("_fk").data

/-- The pseudo-column name prefix used by the remake strategy
(`psudo_column_prefix` in the source, renamed for the Lean development). -/
def psudoColumnPref : Name := ("psudo_").data

/-- Modelled from the spec: the base editor's column creation (Django's
`BaseDatabaseSchemaEditor.add_field`, which is not part of this
repository's source).  Per §4.6 it issues the ADD COLUMN statement with
the - temporarily weakened - column definition it is handed; the
statement records the definition's nullability/primary-key/uniqueness. -/
def baseAddColumn (env : Env) (f : DjField) : Stmt :=
  .addColumn env.table f.column f.null f.primaryKey f.unique

/-- Modelled from the spec: `remove_field` is inherited from Django's base
schema editor (not part of this repository's source); per the remake
description in §4.1 it drops the old column from the table. -/
def remove_field (ex : Oracle) (env : Env) (f : DjField) : Res Unit :=
  execS ex (.deleteColumn env.table f.column)

/-- Run a statement, then the reorganization pass, compensating a database
failure of either by dropping the column `del` and re-raising (the
`try/except Error` blocks of `add_field`; if the compensating drop itself
fails, its error propagates instead, as in Python). -/
def tryStep (ex : Oracle) (pending : List (Name × Name)) (del s : Stmt) :
    Res Unit :=
  match bindR (execS ex s) (fun _ => reorgTables ex pending) with
  | (t, .ok _) => (t, .ok ())
  | (t, .error e) =>
    match execS ex del with
    | (t2, .error e2) => (t ++ t2, .error e2)
    | (t2, .ok _) => (t ++ t2, .error e)

/-- Model of `DB2SchemaEditor.add_field` (source lines 473-542).  The
field is first weakened to nullable with primary-key and uniqueness
cleared and handed to the base editor; the follow-up steps then restore
NOT NULL, then primary key (dropping pre-existing primary keys first) or
uniqueness, each wrapped in a compensating drop of the new column.  The
returned `DjField` is the final state of the mutated field object.  Note
that the pre-existing-primary-key drops and the reorganization triggered
by accessing the `sql_create_pk` property sit outside the `try` blocks. -/
def add_field (ex : Oracle) (env : Env) (f0 : DjField) : DjField × Res Unit :=
  let notnull := !f0.null
  let pkey := f0.primaryKey
  let uniq := f0.unique
  let f1 : DjField := {f0 with null := true, primaryKey := false, unique := false}
  let addStmt := baseAddColumn env f1
  if ex addStmt then (f1, ([addStmt], .error .dbError)) else
  let relCond : Bool :=
    match f1.remote with
    | some r => r.through.getD false
    | none => false
  if f1.isM2M && relCond then (f1, ([addStmt], .ok ())) else
  match reorgTables ex env.reorgPending with
  | (tR, .error e) => (f1, (addStmt :: tR, .error e))
  | (tR, .ok _) =>
    if notnull || uniq || pkey then
      let del := Stmt.deleteColumn env.table f1.column
      let f2 := if notnull then {f1 with null := false} else f1
      let rNN : Res Unit :=
        if notnull then
          tryStep ex env.reorgPending del (.setNotNull env.table f1.column)
        else pureR ()
      match rNN with
      | (tN, .error e) => (f2, (addStmt :: (tR ++ tN), .error e))
      | (tN, .ok _) =>
        if pkey then
          let f3 := {f2 with primaryKey := true}
          match execAll ex (env.existingPKs.map fun n => .deletePK env.table n) with
          | (tD, .error e) => (f3, (addStmt :: (tR ++ tN ++ tD), .error e))
          | (tD, .ok _) =>
            match reorgTables ex env.reorgPending with
            | (tP, .error e) => (f3, (addStmt :: (tR ++ tN ++ tD ++ tP), .error e))
            | (tP, .ok _) =>
              let r := tryStep ex env.reorgPending del
                (.createPK env.table (env.createIndexName [f1.column] pkSuffix)
                  [f1.column])
              (f3, (addStmt :: (tR ++ tN ++ tD ++ tP ++ r.1), r.2))
        else if uniq then
          let f3 := {f2 with unique := true}
          let r := tryStep ex env.reorgPending del
            (.createUnique env.table (env.createIndexName [f1.column] uniqSuffix)
              [f1.column])
          (f3, (addStmt :: (tR ++ tN ++ r.1), r.2))
        else (f2, (addStmt :: (tR ++ tN), .ok ()))
    else (f1, (addStmt :: tR, .ok ()))

/-- Model of `alterFieldDataTypeByRemaking` (source lines 457-471): add a
pseudo-named copy of the new column, copy all rows across with one bulk
UPDATE, drop the old column, and return the pseudo column (in its
post-`add_field` state) as the old field for the rest of the plan,
alongside the untouched new field. -/
def alterFieldDataTypeByRemaking (ex : Oracle) (env : Env)
    (old new : DjField) : Res (DjField × DjField) :=
  let tmp : DjField := {new with column := env.truncName (psudoColumnPref ++ new.column)}
  let ar := add_field ex env tmp
  match ar.2 with
  | (t1, .error e) => (t1, .error e)
  | (t1, .ok _) =>
    bindR (⟨t1, .ok ()⟩ : Res Unit) fun _ =>
    bindR (execS ex (.updateCopy env.table ar.1.column old.column)) fun _ =>
    bindR (remove_field ex env old) fun _ =>
    pureR (ar.1, new)

/-- The primary-key drop step of `alter_field` (source lines 132-142):
when the primary-key flag changed and the old definition was the primary
key, strict mode first requires at least one catalog primary-key
constraint on the column, then the bare DROP PRIMARY KEY statement is
issued. -/
def dropPKStep (ex : Oracle) (env : Env) (strict fPK : Bool)
    (old : DjField) : Res Unit :=
  if fPK && old.primaryKey then
    if strict && decide ((env.constraintNames env.table old.column .pk).length = 0) then
      ([], .error .valueError)
    else execS ex (.dropPK env.table)
  else pureR ()

/-- The unique-constraint drop step of `alter_field` (source lines
144-159): triggered when the uniqueness flag changed and the old
definition was unique, or when the old definition was unique and the
primary-key flag changed with the old definition not the primary key
(Python `and`/`or` precedence); strict mode requires exactly one matching
constraint; every match is dropped. -/
def dropUniqueStep (ex : Oracle) (env : Env) (strict fUniq fPK : Bool)
    (old : DjField) : Res Unit :=
  if (fUniq && old.unique) || (old.unique && fPK && !old.primaryKey) then
    let names := env.constraintNames env.table old.column .uniq
    if strict && decide (names.length ≠ 1) then ([], .error .valueError)
    else execAll ex (names.map fun n => .deleteUnique env.table n)
  else pureR ()

/-- The index drop step of `alter_field` (source lines 161-173). -/
def dropIndexStep (ex : Oracle) (env : Env) (strict fIdx : Bool)
    (old : DjField) : Res Unit :=
  if fIdx && old.dbIndex then
    let names := env.constraintNames env.table old.column .idx
    if strict && decide (names.length ≠ 1) then ([], .error .valueError)
    else execAll ex (names.map fun n => .deleteIndex n)
  else pureR ()

/-- The check-constraint drop step of `alter_field` (source lines
175-188). -/
def dropCheckStep (ex : Oracle) (env : Env) (strict fChk : Bool)
    (old : DjField) : Res Unit :=
  if fChk && old.dbCheck.isSome then
    let names := env.constraintNames env.table old.column .chk
    if strict && decide (names.length ≠ 1) then ([], .error .valueError)
    else execAll ex (names.map fun n => .deleteCheck env.table n)
  else pureR ()

/-- The nullability-removal step of `alter_field` (source lines 190-198):
when nullability changed and the old definition was nullable, a SET NOT
NULL statement on the old column name is issued. -/
def dropNotNullStep (ex : Oracle) (env : Env) (fNull : Bool)
    (old : DjField) : Res Unit :=
  if fNull && old.null then execS ex (.setNotNull env.table old.column)
  else pureR ()

/-- The ordered drop phase of `alter_field` (source lines 132-198):
primary key, then unique constraint, then index, then check constraint,
then NOT NULL. -/
def dropPhase (ex : Oracle) (env : Env) (strict : Bool)
    (fPK fUniq fIdx fChk fNull : Bool) (old : DjField) : Res Unit :=
  bindR (dropPKStep ex env strict fPK old) fun _ =>
  bindR (dropUniqueStep ex env strict fUniq fPK old) fun _ =>
  bindR (dropIndexStep ex env strict fIdx old) fun _ =>
  bindR (dropCheckStep ex env strict fChk old) fun _ =>
  dropNotNullStep ex env fNull old

/-- The unconditional foreign-key drop of `alter_field` (source lines
200-210): every foreign-key constraint declared on the old column is
dropped when the old field has a remote relation. -/
def dropFKStep (ex : Oracle) (env : Env) (old : DjField) : Res Unit :=
  if old.remote.isSome then
    execAll ex ((env.constraintNames env.table old.column .fk).map fun n =>
      .deleteFK env.table n)
  else pureR ()

/-- The incoming foreign-key drops of `alter_field` (source lines
214-225): for every incoming relation, every foreign-key constraint on
its column is dropped. -/
def incomingFKDrops (ex : Oracle) (env : Env) : Res Unit :=
  execAll ex (env.incomingFields.flatMap fun tc =>
    (env.constraintNames tc.1 tc.2 .fk).map fun n => .deleteFK tc.1 n)

/-- Adapter running `_defer_constraints_check` inside the plan (source
lines 227-231): the full snapshot is deferred with all four kinds
requested, starting from the empty deferred set. -/
def deferR (ex : Oracle) (env : Env) (old new : DjField) : Res DeferredSet :=
  let r := defer_constraints_check ex env.constraints emptyDC old.column
    new.column env.table true true true true
  match r.2.2 with
  | some e => (r.2.1, .error e)
  | none => (r.2.1, .ok r.1)

/-- The datatype-change step of `alter_field` (source lines 244-301),
run when the datatype flag is set: computes the incoming-foreign-key
retype flag (set when both sides are primary keys except for the plain
integer-to-auto-increment case), drops the old default if the old field
carries one, and either converts to identity (querying the current
maximum, widening to a plain integer type first when the old field is not
integer-typed, then converting with start value max + 1, where an empty
table contributes 0) or issues the direct type alteration.  Returns the
incoming-foreign-key retype flag. -/
def retypeStep (ex : Oracle) (env : Env) (old new : DjField)
    (fDT : Bool) : Res Bool :=
  if fDT then
    let inc := old.primaryKey && new.primaryKey && !(new.isAuto && old.isInteger)
    bindR
      (if (!old.rawDefaultIsNone) && old.hasDefault && old.effDefault.isSome then
        execS ex (.dropDefault env.table new.column)
      else pureR ()) fun _ =>
    if new.isAuto then
      let m : Int := (env.maxVal).getD 0
      bindR
        (if !old.isInteger then
          execS ex (.alterType env.table new.column (("Integer").data))
        else pureR ()) fun _ =>
      bindR (execS ex (.alterToIdentity env.table new.column (m + 1))) fun _ =>
      pureR inc
    else
      bindR (execS ex (.alterType env.table new.column (new.dbType.getD []))) fun _ =>
      pureR inc
  else pureR false

/-- The rename-and-retype block of `alter_field` (source lines 212-304),
entered when the name or the datatype changed: sets the
rebuild-incoming-foreign-keys flag and drops incoming foreign keys when
both sides are primary keys, snapshots and defers the constraints touching
the old column, renames, retypes, and finally restores the deferred
constraints with the new column name.  Returns the updated
(rebuild-incoming, retype-incoming) flags. -/
def renameRetypePhase (ex : Oracle) (env : Env) (old new : DjField)
    (fName fDT rebuild0 inc0 : Bool) : Res (Bool × Bool) :=
  if fName || fDT then
    let rebuild1 := rebuild0 || (old.primaryKey && new.primaryKey)
    bindR (if old.primaryKey && new.primaryKey then incomingFKDrops ex env
      else pureR ()) fun _ =>
    bindR (deferR ex env old new) fun dc =>
    bindR (if fName then
        execS ex (.renameColumn env.table old.column new.column)
      else pureR ()) fun _ =>
    bindR (retypeStep ex env old new fDT) fun inc1 =>
    bindR (restore_constraints_check ex env.reorgPending dc old.column
      new.column env.table) fun _ =>
    pureR (rebuild1, inc0 || inc1)
  else pureR (rebuild0, inc0)

/-- The default-change step of `alter_field` (source lines 306-327): when
the default flag is set, an absent new default drops the default unless a
datatype or nullability change is also being applied, and a present new
default is set, formatted through `quote_value` (`prepare_default`). -/
def defaultPhase (ex : Oracle) (env : Env) (new : DjField)
    (fDef fDT fNull : Bool) : Res Unit :=
  if fDef then
    match new.effDefault with
    | none =>
      if fDT || fNull then pureR ()
      else execS ex (.dropDefault env.table new.column)
    | some v => execS ex (.setDefault env.table new.column (quote_value v))
  else pureR ()

/-- The nullability step of `alter_field` (source lines 329-345). -/
def nullabilityPhase (ex : Oracle) (env : Env) (new : DjField)
    (fNull : Bool) : Res Unit :=
  if fNull then
    if new.null then execS ex (.setNull env.table new.column)
    else execS ex (.setNotNull env.table new.column)
  else pureR ()

/-- The check-constraint creation step of `alter_field` (source lines
347-356). -/
def checkPhase (ex : Oracle) (env : Env) (new : DjField)
    (fChk : Bool) : Res Unit :=
  if fChk && new.dbCheck.isSome then
    execS ex (.createCheck env.table
      (env.createIndexName [new.column] checkSuffix) new.column
      (new.dbCheck.getD []))
  else pureR ()

/-- The constraint-creation block of `alter_field` (source lines 357-419):
collects the incoming relations to retype (when the incoming-retype flag
is set), creates the new primary key (tolerating a failing drop of the old
one, and running the reorganization pass triggered by the `sql_create_pk`
property) - extending the incoming relations - or else the new unique
constraint or index, then retypes every collected incoming relation's
column and reorganizes when any was touched.  The source passes the table
name instead of the model to `_create_index_name` for the unique case;
the naming collaborator is abstract here, so the two calls coincide. -/
def constraintCreatePhase (ex : Oracle) (env : Env) (new : DjField)
    (fPK fUniq fIdx incFlag : Bool) : Res Unit :=
  let rels0 : List RelObj := if incFlag then env.relatedObjects else []
  bindR
    (if fPK && new.primaryKey then
      bindR (tryIgnore (execS ex (.dropPK env.table))) fun _ =>
      bindR (reorgTables ex env.reorgPending) fun _ =>
      execS ex (.createPK env.table
        (env.createIndexName [new.column] pkSuffix) [new.column])
    else if fUniq && new.unique then
      execS ex (.createUnique env.table
        (env.createIndexName [new.column] uniqSuffix) [new.column])
    else if fIdx && new.dbIndex then
      execS ex (.createIndex env.table
        (env.createIndexName [new.column] indexSuffix) [new.column])
    else pureR ()) fun _ =>
  let rels := rels0 ++ (if fPK && new.primaryKey then env.relatedObjects else [])
  bindR (execAll ex (rels.map fun r => .alterType r.table r.column r.dbType)) fun _ =>
  if rels.length > 0 then reorgTables ex env.reorgPending else pureR ()

/-- The foreign-key recreation step of `alter_field` (source lines
421-443): when the new field has a remote relation, one foreign key is
created towards the remote table and column.  The two Django-version
branches of the source emit the same modelled statement. -/
def fkPhase (ex : Oracle) (env : Env) (new : DjField) : Res Unit :=
  match new.remote with
  | some r =>
    execS ex (.createFK env.table (env.createIndexName [new.column] fkSuffix)
      new.column r.targetTable r.targetColumn)
  | none => pureR ()

/-- The incoming foreign-key rebuild of `alter_field` (source lines
445-455). -/
def rebuildIncomingPhase (ex : Oracle) (env : Env) (new : DjField)
    (rebuild : Bool) : Res Unit :=
  if rebuild then
    execAll ex (env.relatedObjects.map fun ro =>
      .createFK ro.table (env.createIndexName [ro.column] fkSuffix) ro.column
        env.table new.column)
  else pureR ()

/-- The body of `alter_field` after the remake decision (source lines
110-455): the change flags are computed by field-by-field comparison of
the current old/new pair (which is the pseudo/new pair after a remake),
then the drop phase, foreign-key drops, the rename-and-retype block, the
default, nullability and check steps, the constraint-creation block, the
foreign-key recreation and the incoming rebuild run in source order. -/
def alterFieldCore (ex : Oracle) (env : Env) (strict : Bool)
    (old new : DjField) (rebuild0 inc0 : Bool) : Res Unit :=
  let fDT := decide (old.dbType ≠ new.dbType)
  let fName := decide (old.column ≠ new.column)
  let fIdx := decide (old.dbIndex ≠ new.dbIndex)
  let fUniq := decide (old.unique ≠ new.unique)
  let fPK := decide (old.primaryKey ≠ new.primaryKey)
  let fChk := decide (old.dbCheck ≠ new.dbCheck)
  let fNull := decide (old.null ≠ new.null)
  let fDef := (!old.rawDefaultIsNone) && old.hasDefault &&
    decide (old.effDefault ≠ new.effDefault)
  bindR (dropPhase ex env strict fPK fUniq fIdx fChk fNull old) fun _ =>
  bindR (dropFKStep ex env old) fun _ =>
  bindR (renameRetypePhase ex env old new fName fDT rebuild0 inc0) fun fl =>
  bindR (defaultPhase ex env new fDef fDT fNull) fun _ =>
  bindR (nullabilityPhase ex env new fNull) fun _ =>
  bindR (checkPhase ex env new fChk) fun _ =>
  bindR (constraintCreatePhase ex env new fPK fUniq fIdx fl.2) fun _ =>
  bindR (fkPhase ex env new) fun _ =>
  rebuildIncomingPhase ex env new fl.1

/-- Truthiness of `remote_field.through` together with its
`_meta.auto_created` flag, guarded by the `hasattr` test of the source. -/
def relThroughAuto : Option Remote → Bool
  | some r => r.through.getD false
  | none => false

/-- Model of `DB2SchemaEditor.alter_field` (source lines 58-455).  When
both sides resolve to no storage type and both describe auto-created link
tables the call is redirected to the many-to-many adapter (out of scope
here, modelled as an empty successful plan); when exactly one side has no
storage type a `ValueError` is raised.  When the storage types differ and
the old field is an auto-increment or large-text field or the new field is
a large-text field, the plan is rerouted through
`alterFieldDataTypeByRemaking` and continues with the pseudo column as
the old field; the incoming-foreign-key flags are pre-set when both sides
are primary keys, with the retype flag suppressed exactly for the
auto-increment-to-plain-integer pair. -/
def alter_field (ex : Oracle) (env : Env) (old new : DjField)
    (strict : Bool) : Res Unit :=
  let relCond := relThroughAuto old.remote && relThroughAuto new.remote
  if old.dbType = none ∧ new.dbType = none ∧ relCond then ([], .ok ())
  else if old.dbType = none ∨ new.dbType = none then ([], .error .valueError)
  else if decide (old.dbType ≠ new.dbType) &&
      (old.isAuto || old.isText || new.isText) then
    let rb := old.primaryKey && new.primaryKey
    let ifk := old.primaryKey && new.primaryKey && !(old.isAuto && new.isInteger)
    bindR (alterFieldDataTypeByRemaking ex env old new) fun p =>
    alterFieldCore ex env strict p.1 p.2 rb ifk
  else alterFieldCore ex env strict old new false false

/-- A successful `List.isPrefixOf` test means the candidate is no longer
than the scanned list. -/
theorem isPrefixOf_length : ∀ o s : Name, List.isPrefixOf o s = true →
    o.length ≤ s.length := by
  intro o
  induction o with
  | nil => intro s _; simp
  | cons a as ih =>
    intro s hp
    cases s with
    | nil => simp [List.isPrefixOf] at hp
    | cons b bs =>
      simp only [List.isPrefixOf, Bool.and_eq_true] at hp
      have := ih bs hp.2
      simp [List.length_cons]
      omega

/-- A successful `List.isPrefixOf` test decomposes the scanned list as the
candidate followed by the remainder. -/
theorem isPrefixOf_decomp : ∀ o s : Name, List.isPrefixOf o s = true →
    s = o ++ s.drop o.length := by
  intro o
  induction o with
  | nil => intro s _; simp
  | cons a as ih =>
    intro s hp
    cases s with
    | nil => simp [List.isPrefixOf] at hp
    | cons b bs =>
      simp only [List.isPrefixOf, Bool.and_eq_true, beq_iff_eq] at hp
      have := ih bs hp.2
      simp [List.length_cons, hp.1]
      exact this

/-- Replacement never shortens the text when the new fragment is at least
as long as the pattern. -/
theorem pyReplaceF_len_ge (o n : Name) (h : o.length ≤ n.length) :
    ∀ fuel s, s.length ≤ fuel →
      s.length ≤ (pyReplaceF fuel s o n).length := by
  intro fuel
  induction fuel with
  | zero =>
    intro s hs
    have : s = [] := List.eq_nil_of_length_eq_zero (Nat.le_zero.mp hs)
    subst this
    cases o <;> simp [pyReplaceF]
  | succ f ih =>
    intro s hs
    cases s with
    | nil => cases o <;> simp [pyReplaceF]
    | cons c rest =>
      cases o with
      | nil => simp [pyReplaceF]
      | cons oh ot =>
        by_cases hp : List.isPrefixOf (oh :: ot) (c :: rest) = true
        · have hol := isPrefixOf_length _ _ hp
          simp only [pyReplaceF, hp, if_true]
          have hdrop : (rest.drop ((oh :: ot).length - 1)).length ≤ f := by
            simp only [List.length_drop]
            simp only [List.length_cons] at hs
            omega
          have hrec := ih (rest.drop ((oh :: ot).length - 1)) hdrop
          simp only [List.length_append, List.length_drop, List.length_cons] at *
          omega
        · simp only [pyReplaceF, hp, if_false, Bool.false_eq_true]
          have hrec := ih rest (by simp only [List.length_cons] at hs; omega)
          simp only [List.length_cons]
          omega

/-- Replacement never lengthens the text when the new fragment is at most
as long as the pattern. -/
theorem pyReplaceF_len_le (o n : Name) (h : n.length ≤ o.length) :
    ∀ fuel s, s.length ≤ fuel →
      (pyReplaceF fuel s o n).length ≤ s.length := by
  intro fuel
  induction fuel with
  | zero =>
    intro s hs
    have : s = [] := List.eq_nil_of_length_eq_zero (Nat.le_zero.mp hs)
    subst this
    cases o <;> simp [pyReplaceF]
  | succ f ih =>
    intro s hs
    cases s with
    | nil => cases o <;> simp [pyReplaceF]
    | cons c rest =>
      cases o with
      | nil => simp [pyReplaceF]
      | cons oh ot =>
        by_cases hp : List.isPrefixOf (oh :: ot) (c :: rest) = true
        · have hol := isPrefixOf_length _ _ hp
          simp only [pyReplaceF, hp, if_true]
          have hdrop : (rest.drop ((oh :: ot).length - 1)).length ≤ f := by
            simp only [List.length_drop]
            simp only [List.length_cons] at hs
            omega
          have hrec := ih (rest.drop ((oh :: ot).length - 1)) hdrop
          simp only [List.length_append, List.length_drop, List.length_cons] at *
          omega
        · simp only [pyReplaceF, hp, if_false, Bool.false_eq_true]
          have hrec := ih rest (by simp only [List.length_cons] at hs; omega)
          simp only [List.length_cons]
          omega

/-- Replacement strictly lengthens the text when the new fragment is
strictly longer than the (occurring, non-empty) pattern. -/
theorem pyReplaceF_len_gt (o n : Name) (h : o.length < n.length)
    (ho : o ≠ []) :
    ∀ fuel s, s.length ≤ fuel → containsSub s o = true →
      s.length < (pyReplaceF fuel s o n).length := by
  intro fuel
  induction fuel with
  | zero =>
    intro s hs hc
    have : s = [] := List.eq_nil_of_length_eq_zero (Nat.le_zero.mp hs)
    subst this
    cases o with
    | nil => exact absurd rfl ho
    | cons oh ot => simp [containsSub, List.isPrefixOf] at hc
  | succ f ih =>
    intro s hs hc
    cases s with
    | nil =>
      cases o with
      | nil => exact absurd rfl ho
      | cons oh ot => simp [containsSub, List.isPrefixOf] at hc
    | cons c rest =>
      cases o with
      | nil => exact absurd rfl ho
      | cons oh ot =>
        by_cases hp : List.isPrefixOf (oh :: ot) (c :: rest) = true
        · have hol := isPrefixOf_length _ _ hp
          simp only [pyReplaceF, hp, if_true]
          have hdrop : (rest.drop ((oh :: ot).length - 1)).length ≤ f := by
            simp only [List.length_drop]
            simp only [List.length_cons] at hs
            omega
          have hrec := pyReplaceF_len_ge (oh :: ot) n (Nat.le_of_lt h) f
            (rest.drop ((oh :: ot).length - 1)) hdrop
          simp only [List.length_append, List.length_drop, List.length_cons] at *
          omega
        · have hc' : containsSub rest (oh :: ot) = true := by
            simp only [containsSub, hp, Bool.false_or] at hc
            exact hc
          simp only [pyReplaceF, hp, if_false, Bool.false_eq_true]
          have hrec := ih rest (by simp only [List.length_cons] at hs; omega) hc'
          simp only [List.length_cons]
          omega

/-- Replacement strictly shortens the text when the new fragment is
strictly shorter than the (occurring, non-empty) pattern. -/
theorem pyReplaceF_len_lt (o n : Name) (h : n.length < o.length)
    (ho : o ≠ []) :
    ∀ fuel s, s.length ≤ fuel → containsSub s o = true →
      (pyReplaceF fuel s o n).length < s.length := by
  intro fuel
  induction fuel with
  | zero =>
    intro s hs hc
    have : s = [] := List.eq_nil_of_length_eq_zero (Nat.le_zero.mp hs)
    subst this
    cases o with
    | nil => exact absurd rfl ho
    | cons oh ot => simp [containsSub, List.isPrefixOf] at hc
  | succ f ih =>
    intro s hs hc
    cases s with
    | nil =>
      cases o with
      | nil => exact absurd rfl ho
      | cons oh ot => simp [containsSub, List.isPrefixOf] at hc
    | cons c rest =>
      cases o with
      | nil => exact absurd rfl ho
      | cons oh ot =>
        by_cases hp : List.isPrefixOf (oh :: ot) (c :: rest) = true
        · have hol := isPrefixOf_length _ _ hp
          simp only [pyReplaceF, hp, if_true]
          have hdrop : (rest.drop ((oh :: ot).length - 1)).length ≤ f := by
            simp only [List.length_drop]
            simp only [List.length_cons] at hs
            omega
          have hrec := pyReplaceF_len_le (oh :: ot) n (Nat.le_of_lt h) f
            (rest.drop ((oh :: ot).length - 1)) hdrop
          simp only [List.length_append, List.length_drop, List.length_cons] at *
          omega
        · have hc' : containsSub rest (oh :: ot) = true := by
            simp only [containsSub, hp, Bool.false_or] at hc
            exact hc
          simp only [pyReplaceF, hp, if_false, Bool.false_eq_true]
          have hrec := ih rest (by simp only [List.length_cons] at hs; omega) hc'
          simp only [List.length_cons]
          omega

/-- Replacement with an equal-length, different fragment changes the text
whenever the (non-empty) pattern occurs. -/
theorem pyReplaceF_ne_of_eq_len (o n : Name) (h : o.length = n.length)
    (ho : o ≠ []) (hon : o ≠ n) :
    ∀ fuel s, s.length ≤ fuel → containsSub s o = true →
      pyReplaceF fuel s o n ≠ s := by
  intro fuel
  induction fuel with
  | zero =>
    intro s hs hc
    have : s = [] := List.eq_nil_of_length_eq_zero (Nat.le_zero.mp hs)
    subst this
    cases o with
    | nil => exact absurd rfl ho
    | cons oh ot => simp [containsSub, List.isPrefixOf] at hc
  | succ f ih =>
    intro s hs hc
    cases s with
    | nil =>
      cases o with
      | nil => exact absurd rfl ho
      | cons oh ot => simp [containsSub, List.isPrefixOf] at hc
    | cons c rest =>
      cases o with
      | nil => exact absurd rfl ho
      | cons oh ot =>
        by_cases hp : List.isPrefixOf (oh :: ot) (c :: rest) = true
        · simp only [pyReplaceF, hp, if_true]
          intro heq
          have hdec := isPrefixOf_decomp _ _ hp
          rw [hdec] at heq
          have h1 := congrArg (List.take (List.length n)) heq
          rw [List.take_left] at h1
          have h2 : List.take (List.length n)
              (oh :: ot ++ (c :: rest).drop ((oh :: ot).length)) = oh :: ot := by
            rw [← h]
            exact List.take_left _ _
          rw [h2] at h1
          exact hon h1.symm
        · have hc' : containsSub rest (oh :: ot) = true := by
            simp only [containsSub, hp, Bool.false_or] at hc
            exact hc
          simp only [pyReplaceF, hp, if_false, Bool.false_eq_true]
          intro heq
          injection heq with hhd htl
          exact ih rest (by simp only [List.length_cons] at hs; omega) hc' htl

/-- Python `str.replace` changes any string in which a non-empty pattern
different from its replacement occurs. -/
theorem pyReplace_ne (s o n : Name) (ho : o ≠ []) (hon : o ≠ n)
    (hc : containsSub s o = true) : pyReplace s o n ≠ s := by
  rcases Nat.lt_trichotomy o.length n.length with hlt | heq | hgt
  · intro heqs
    have := pyReplaceF_len_gt o n hlt ho s.length s (Nat.le_refl _) hc
    rw [pyReplace] at heqs
    rw [heqs] at this
    omega
  · exact pyReplaceF_ne_of_eq_len o n heq ho hon s.length s (Nat.le_refl _) hc
  · intro heqs
    have := pyReplaceF_len_lt o n hgt ho s.length s (Nat.le_refl _) hc
    rw [pyReplace] at heqs
    rw [heqs] at this
    omega

/-- Single-character replacement processes the head and recurses. -/
theorem pyReplace_cons_single (c q : Char) (rest n : Name) :
    pyReplace (c :: rest) [q] n =
      if c = q then n ++ pyReplace rest [q] n
      else c :: pyReplace rest [q] n := by
  by_cases hcq : c = q
  · subst hcq
    simp [pyReplace, pyReplaceF, List.isPrefixOf]
  · have : (q == c) = false := by
      simp [beq_eq_false_iff_ne]
      exact fun hqc => hcq hqc.symm
    simp [pyReplace, pyReplaceF, List.isPrefixOf, this, hcq]

/-- Every quote character in the list is immediately completed by a second
quote character: no stray (unescaped) quote occurs. -/
def noStrayQuote : Name → Bool
  | [] => true
  | c :: rest =>
    if c = qc then
      match rest with
      | c2 :: rest2 => decide (c2 = qc) && noStrayQuote rest2
      | [] => false
    else noStrayQuote rest

/-- A non-quote head does not affect stray-quote freedom. -/
theorem noStray_cons_ne (c : Char) (t : Name) (h : ¬c = qc) :
    noStrayQuote (c :: t) = noStrayQuote t := by
  unfold noStrayQuote
  rw [if_neg h]
  exact noStrayQuote.eq_def t

/-- An adjacent quote pair does not affect stray-quote freedom. -/
theorem noStray_two (t : Name) :
    noStrayQuote (qc :: qc :: t) = noStrayQuote t := by
  unfold noStrayQuote
  simp
  exact noStrayQuote.eq_def t

/-- The quote-doubling escape leaves no stray quote. -/
theorem noStray_escape : ∀ s : Name,
    noStrayQuote (pyReplace s [qc] [qc, qc]) = true := by
  intro s
  induction s with
  | nil => simp [pyReplace, pyReplaceF, noStrayQuote]
  | cons c rest ih =>
    rw [pyReplace_cons_single]
    by_cases hcq : c = qc
    · subst hcq
      simpa [noStray_two] using ih
    · rw [if_neg hcq, noStray_cons_ne c _ hcq]
      exact ih

/-- The quote-doubling escape exactly doubles the number of quote
characters. -/
theorem count_escape : ∀ s : Name,
    (pyReplace s [qc] [qc, qc]).count qc = 2 * s.count qc := by
  intro s
  induction s with
  | nil => simp [pyReplace, pyReplaceF]
  | cons c rest ih =>
    rw [pyReplace_cons_single]
    by_cases hcq : c = qc
    · simp [hcq, List.count_cons, ih]
      omega
    · simp [List.count_cons, ih, hcq]

/-- Unfolding for a successful first component. -/
theorem bindR_ok_eq {α β : Type} (t : Trace) (a : α) (k : α → Res β) :
    bindR (t, Except.ok a) k = (t ++ (k a).1, (k a).2) := rfl

/-- Unfolding for a failing first component. -/
theorem bindR_err_eq {α β : Type} (t : Trace) (e : Err) (k : α → Res β) :
    bindR (t, Except.error e) k = (t, Except.error e) := rfl

/-- Statement execution always succeeds under the no-failure engine. -/
theorem execS_noFail (s : Stmt) : execS noFail s = ([s], Except.ok ()) := rfl

/-- Executing a statement list under the no-failure engine issues exactly
the list. -/
theorem execAll_noFail : ∀ l : List Stmt,
    execAll noFail l = (l, Except.ok ()) := by
  intro l
  induction l with
  | nil => rfl
  | cons s rest ih => simp [execAll, execS_noFail, bindR_ok_eq, ih]

/-- The reorganization pass under the no-failure engine issues one
reorganize command per pending pair. -/
theorem reorgTables_noFail (p : List (Name × Name)) :
    reorgTables noFail p =
      (p.map fun x => Stmt.reorgTable x.1 x.2, Except.ok ()) := by
  rw [reorgTables, execAll_noFail]

/-- C8: `quote_value` is total over the supported literal kinds and
returns: for text/date/time/datetime values the quoted text with every
embedded quote doubled (the escaped body has twice the quotes of the input
and contains no stray quote); `1`/`0` for booleans; the quoted textual
form for UUIDs; the hex-encoded binary literal for byte sequences (with
`0xAB` rendering as `BLOB(X'ab')`); the floating-point second count for
durations (90 seconds rendering as `90.0`); and the default textual form
otherwise. -/
theorem claim_C8_quote_value :
    (∀ s, quote_value (.vtext s) = qc :: pyReplace s [qc] [qc, qc] ++ [qc] ∧
      quote_value (.vdatetime s) = qc :: pyReplace s [qc] [qc, qc] ++ [qc] ∧
      quote_value (.vdate s) = qc :: pyReplace s [qc] [qc, qc] ++ [qc] ∧
      quote_value (.vtime s) = qc :: pyReplace s [qc] [qc, qc] ++ [qc] ∧
      noStrayQuote (pyReplace s [qc] [qc, qc]) = true ∧
      (pyReplace s [qc] [qc, qc]).count qc = 2 * s.count qc) ∧
    (∀ b, quote_value (.vbool b) = if b then ['1'] else ['0']) ∧
    (∀ s, quote_value (.vuuid s) = qc :: s ++ [qc]) ∧
    (∀ bs, quote_value (.vbytes bs) =
      (("BLOB(X").data ++ [qc]) ++ bytesHex bs ++ [qc, ')']) ∧
    (∀ k, quote_value (.vtimedelta k) = intRepr k ++ ['.', '0']) ∧
    (∀ s, quote_value (.vother s) = s) ∧
    quote_value (.vtimedelta 90) = ("90.0").data ∧
    quote_value (.vbytes [171]) = ("BLOB(X'ab')").data ∧
    quote_value (.vbool true) = ("1").data := by
  refine ⟨fun s => ⟨rfl, rfl, rfl, rfl, noStray_escape s, count_escape s⟩,
    fun b => rfl, fun s => rfl, fun bs => rfl, fun k => rfl, fun s => rfl,
    ?_, ?_, ?_⟩
  · decide
  · decide
  · decide

/-- The primary-key restoration loop under the no-failure engine:
a reorganization pass followed by one create statement per entry. -/
theorem restorePKs_noFail (pending : List (Name × Name))
    (tbl oldCol newCol : Name) : ∀ l,
    restorePKs noFail pending tbl oldCol newCol l =
      (l.flatMap fun e =>
        (pending.map fun x => Stmt.reorgTable x.1 x.2) ++
          [Stmt.createPK tbl e.1 (substCols e.2 oldCol newCol)],
       Except.ok ()) := by
  intro l
  induction l with
  | nil => rfl
  | cons e rest ih =>
    simp [restorePKs, reorgTables_noFail, bindR_ok_eq, execS_noFail, ih]

/-- The full restoration trace under the no-failure engine. -/
theorem restore_noFail (pending : List (Name × Name)) (dc : DeferredSet)
    (oldCol newCol tbl : Name) :
    restore_constraints_check noFail pending dc oldCol newCol tbl =
      ((dc.pk.flatMap fun e =>
          (pending.map fun x => Stmt.reorgTable x.1 x.2) ++
            [Stmt.createPK tbl e.1 (substCols e.2 oldCol newCol)]) ++
        ((dc.uniqueD.map fun e =>
          Stmt.createUnique tbl e.1 (substCols e.2 oldCol newCol)) ++
         (dc.indexD.map fun e =>
          Stmt.createIndex tbl e.1 (substCols e.2 oldCol newCol))),
       Except.ok ()) := by
  simp [restore_constraints_check, restorePKs_noFail, execAll_noFail,
    bindR_ok_eq]

/-- C10: the restoration step's column-name substitution is a per-string
substring replacement applied independently to every column name recorded
for a deferred constraint - each recorded primary-key, unique and index
entry is recreated with every column run through `str.replace(old, new)` -
and consequently, in a multi-column constraint, any participating column
whose name contains the old column's name as a proper substring is
rewritten as well (with a non-empty old name and an actual rename, the
replacement provably changes such a column name). -/
theorem claim_C10_substitution_per_column
    (pending : List (Name × Name)) (dc : DeferredSet)
    (oldCol newCol tbl : Name) :
    (∀ nm cols, (nm, cols) ∈ dc.pk →
      Stmt.createPK tbl nm (cols.map fun c => pyReplace c oldCol newCol) ∈
        (restore_constraints_check noFail pending dc oldCol newCol tbl).1) ∧
    (∀ nm cols, (nm, cols) ∈ dc.uniqueD →
      Stmt.createUnique tbl nm (cols.map fun c => pyReplace c oldCol newCol) ∈
        (restore_constraints_check noFail pending dc oldCol newCol tbl).1) ∧
    (∀ nm cols, (nm, cols) ∈ dc.indexD →
      Stmt.createIndex tbl nm (cols.map fun c => pyReplace c oldCol newCol) ∈
        (restore_constraints_check noFail pending dc oldCol newCol tbl).1) ∧
    (∀ c, containsSub c oldCol = true → c ≠ oldCol → oldCol ≠ [] →
      oldCol ≠ newCol → pyReplace c oldCol newCol ≠ c) := by
  refine ⟨?_, ?_, ?_, fun c hc _ hno hon => pyReplace_ne c oldCol newCol hno hon hc⟩
  · intro nm cols hmem
    rw [restore_noFail]
    simp only [List.mem_append, List.mem_flatMap]
    exact Or.inl ⟨(nm, cols), hmem, by simp [substCols]⟩
  · intro nm cols hmem
    rw [restore_noFail]
    simp only [List.mem_append, List.mem_map]
    exact Or.inr (Or.inl ⟨(nm, cols), hmem, by simp [substCols]⟩)
  · intro nm cols hmem
    rw [restore_noFail]
    simp only [List.mem_append, List.mem_map]
    exact Or.inr (Or.inr ⟨(nm, cols), hmem, by simp [substCols]⟩)

/-- Witness for C10: a deferred two-column primary key on
`(order_id, id)` restored across the rename `id → key` has its unrelated
column rewritten to `order_key` in the recreated constraint. -/
theorem claim_C10_substitution_per_column_witness :
    Stmt.createPK (("T").data) (("p0").data)
        [("order_key").data, ("key").data] ∈
      (restore_constraints_check noFail []
        ⟨[((("p0").data), [("order_id").data, ("id").data])], [], [], []⟩
        (("id").data) (("key").data) (("T").data)).1 ∧
    pyReplace (("order_id").data) (("id").data) (("key").data) ≠
      ("order_id").data := by
  have h := claim_C10_substitution_per_column []
    ⟨[((("p0").data), [("order_id").data, ("id").data])], [], [], []⟩
    (("id").data) (("key").data) (("T").data)
  refine ⟨?_, h.2.2.2 (("order_id").data) (by decide) (by decide) (by decide)
    (by decide)⟩
  have hm := h.1 (("p0").data) [("order_id").data, ("id").data]
    (by decide)
  have hcols : ([("order_id").data, ("id").data].map fun c =>
      pyReplace c (("id").data) (("key").data)) =
      [("order_key").data, ("key").data] := by decide
  rw [hcols] at hm
  exact hm

/-- How one deferral iteration changes the primary-key map: unchanged, or
appended with this constraint when the primary-key branch fired and its
drop succeeded. -/
theorem deferStep_pk_eq (ex : Oracle) (tbl oldCol : Name)
    (dpk dun didx dchk : Bool) (dc : DeferredSet) (nm : Name)
    (ci : ConstraintInfo) :
    (deferStep ex tbl oldCol dpk dun didx dchk dc nm ci).1.pk = dc.pk ∨
    ((deferStep ex tbl oldCol dpk dun didx dchk dc nm ci).1.pk =
        dc.pk ++ [(nm, ci.columns)] ∧
      pkTrig dpk oldCol ci = true ∧ ex (.deletePK tbl nm) = false) := by
  unfold deferStep
  split_ifs <;> simp_all

/-- How one deferral iteration changes the unique map: unchanged, or
appended when the primary-key branch did not fire, the unique branch
fired, and its drop succeeded. -/
theorem deferStep_unique_eq (ex : Oracle) (tbl oldCol : Name)
    (dpk dun didx dchk : Bool) (dc : DeferredSet) (nm : Name)
    (ci : ConstraintInfo) :
    (deferStep ex tbl oldCol dpk dun didx dchk dc nm ci).1.uniqueD = dc.uniqueD ∨
    ((deferStep ex tbl oldCol dpk dun didx dchk dc nm ci).1.uniqueD =
        dc.uniqueD ++ [(nm, ci.columns)] ∧
      pkTrig dpk oldCol ci = false ∧ uniqTrig dun oldCol ci = true ∧
      ex (.deleteUnique tbl nm) = false) := by
  unfold deferStep
  split_ifs <;> simp_all

/-- How one deferral iteration changes the index map. -/
theorem deferStep_index_eq (ex : Oracle) (tbl oldCol : Name)
    (dpk dun didx dchk : Bool) (dc : DeferredSet) (nm : Name)
    (ci : ConstraintInfo) :
    (deferStep ex tbl oldCol dpk dun didx dchk dc nm ci).1.indexD = dc.indexD ∨
    ((deferStep ex tbl oldCol dpk dun didx dchk dc nm ci).1.indexD =
        dc.indexD ++ [(nm, ci.columns)] ∧
      pkTrig dpk oldCol ci = false ∧ uniqTrig dun oldCol ci = false ∧
      idxTrig didx oldCol ci = true ∧ ex (.deleteIndex nm) = false) := by
  unfold deferStep
  split_ifs <;> simp_all

/-- How one deferral iteration changes the check map. -/
theorem deferStep_check_eq (ex : Oracle) (tbl oldCol : Name)
    (dpk dun didx dchk : Bool) (dc : DeferredSet) (nm : Name)
    (ci : ConstraintInfo) :
    (deferStep ex tbl oldCol dpk dun didx dchk dc nm ci).1.checkD = dc.checkD ∨
    ((deferStep ex tbl oldCol dpk dun didx dchk dc nm ci).1.checkD =
        dc.checkD ++ [(nm, ci.columns)] ∧
      pkTrig dpk oldCol ci = false ∧ uniqTrig dun oldCol ci = false ∧
      chkTrig dchk oldCol ci = true ∧ ex (.deleteCheck tbl nm) = false) := by
  unfold deferStep
  split_ifs <;> simp_all

/-- Every statement issued by one deferral iteration carries this
constraint's name. -/
theorem deferStep_trace_names (ex : Oracle) (tbl oldCol : Name)
    (dpk dun didx dchk : Bool) (dc : DeferredSet) (nm : Name)
    (ci : ConstraintInfo) :
    ∀ s ∈ (deferStep ex tbl oldCol dpk dun didx dchk dc nm ci).2.1,
      s.nameOf = some nm := by
  unfold deferStep
  split_ifs <;> intro s hs <;> simp_all [Stmt.nameOf] <;>
    rcases hs with h | h <;> simp [h, Stmt.nameOf]

/-- A fired primary-key branch whose drop fails propagates the failure. -/
theorem deferStep_pk_fail (ex : Oracle) (tbl oldCol : Name)
    (dpk dun didx dchk : Bool) (dc : DeferredSet) (nm : Name)
    (ci : ConstraintInfo) (h : pkTrig dpk oldCol ci = true)
    (hex : ex (.deletePK tbl nm) = true) :
    (deferStep ex tbl oldCol dpk dun didx dchk dc nm ci).2.2 =
      some .dbError := by
  unfold deferStep
  simp [h, hex]

/-- A reached check branch whose drop fails propagates the failure. -/
theorem deferStep_check_fail (ex : Oracle) (tbl oldCol : Name)
    (dpk dun didx dchk : Bool) (dc : DeferredSet) (nm : Name)
    (ci : ConstraintInfo) (h1 : pkTrig dpk oldCol ci = false)
    (h2 : uniqTrig dun oldCol ci = false)
    (h3 : chkTrig dchk oldCol ci = true)
    (hex : ex (.deleteCheck tbl nm) = true) :
    (deferStep ex tbl oldCol dpk dun didx dchk dc nm ci).2.2 =
      some .dbError := by
  unfold deferStep
  split_ifs <;> simp_all

/-- An iteration only propagates a failure via a fired primary-key branch
or a reached check branch whose drop the engine rejected; in particular a
failing unique or index drop is swallowed. -/
theorem deferStep_ok (ex : Oracle) (tbl oldCol : Name)
    (dpk dun didx dchk : Bool) (dc : DeferredSet) (nm : Name)
    (ci : ConstraintInfo)
    (hpk : pkTrig dpk oldCol ci = true → ex (.deletePK tbl nm) = false)
    (hchk : pkTrig dpk oldCol ci = false → uniqTrig dun oldCol ci = false →
      chkTrig dchk oldCol ci = true → ex (.deleteCheck tbl nm) = false) :
    (deferStep ex tbl oldCol dpk dun didx dchk dc nm ci).2.2 = none := by
  unfold deferStep
  split_ifs <;> simp_all

/-- The unique drop statement appears in an iteration's trace exactly when
the unique branch fired (whether or not the drop then failed). -/
theorem deferStep_trace_unique (ex : Oracle) (tbl oldCol : Name)
    (dpk dun didx dchk : Bool) (dc : DeferredSet) (nm : Name)
    (ci : ConstraintInfo) :
    (Stmt.deleteUnique tbl nm ∈
        (deferStep ex tbl oldCol dpk dun didx dchk dc nm ci).2.1) ↔
      (pkTrig dpk oldCol ci = false ∧ uniqTrig dun oldCol ci = true) := by
  unfold deferStep
  split_ifs <;> simp_all

/-- The primary-key drop statement appears in an iteration's trace exactly
when the primary-key branch fired. -/
theorem deferStep_trace_pk (ex : Oracle) (tbl oldCol : Name)
    (dpk dun didx dchk : Bool) (dc : DeferredSet) (nm : Name)
    (ci : ConstraintInfo) :
    (Stmt.deletePK tbl nm ∈
        (deferStep ex tbl oldCol dpk dun didx dchk dc nm ci).2.1) ↔
      pkTrig dpk oldCol ci = true := by
  unfold deferStep
  split_ifs <;> simp_all

/-- The index drop statement appears in an iteration's trace exactly when
the index branch was reached and fired. -/
theorem deferStep_trace_index (ex : Oracle) (tbl oldCol : Name)
    (dpk dun didx dchk : Bool) (dc : DeferredSet) (nm : Name)
    (ci : ConstraintInfo) :
    (Stmt.deleteIndex nm ∈
        (deferStep ex tbl oldCol dpk dun didx dchk dc nm ci).2.1) ↔
      (pkTrig dpk oldCol ci = false ∧ uniqTrig dun oldCol ci = false ∧
        idxTrig didx oldCol ci = true) := by
  unfold deferStep
  split_ifs <;> simp_all

/-- The check drop statement appears in an iteration's trace exactly when
the check branch was reached and fired. -/
theorem deferStep_trace_check (ex : Oracle) (tbl oldCol : Name)
    (dpk dun didx dchk : Bool) (dc : DeferredSet) (nm : Name)
    (ci : ConstraintInfo) :
    (Stmt.deleteCheck tbl nm ∈
        (deferStep ex tbl oldCol dpk dun didx dchk dc nm ci).2.1) ↔
      (pkTrig dpk oldCol ci = false ∧ uniqTrig dun oldCol ci = false ∧
        chkTrig dchk oldCol ci = true) := by
  unfold deferStep
  split_ifs <;> simp_all

/-- A fired primary-key branch with a successful drop records the
constraint. -/
theorem deferStep_pk_rec (ex : Oracle) (tbl oldCol : Name)
    (dpk dun didx dchk : Bool) (dc : DeferredSet) (nm : Name)
    (ci : ConstraintInfo) (h : pkTrig dpk oldCol ci = true)
    (hex : ex (.deletePK tbl nm) = false) :
    (deferStep ex tbl oldCol dpk dun didx dchk dc nm ci).1.pk =
      dc.pk ++ [(nm, ci.columns)] := by
  unfold deferStep
  simp [h, hex]

/-- A reached and fired unique branch with a successful drop records the
constraint. -/
theorem deferStep_unique_rec (ex : Oracle) (tbl oldCol : Name)
    (dpk dun didx dchk : Bool) (dc : DeferredSet) (nm : Name)
    (ci : ConstraintInfo) (h0 : pkTrig dpk oldCol ci = false)
    (h : uniqTrig dun oldCol ci = true)
    (hex : ex (.deleteUnique tbl nm) = false) :
    (deferStep ex tbl oldCol dpk dun didx dchk dc nm ci).1.uniqueD =
      dc.uniqueD ++ [(nm, ci.columns)] := by
  unfold deferStep
  simp [h0, h, hex]

/-- A reached and fired index branch with a successful drop records the
constraint. -/
theorem deferStep_index_rec (ex : Oracle) (tbl oldCol : Name)
    (dpk dun didx dchk : Bool) (dc : DeferredSet) (nm : Name)
    (ci : ConstraintInfo) (h0 : pkTrig dpk oldCol ci = false)
    (h1 : uniqTrig dun oldCol ci = false)
    (h : idxTrig didx oldCol ci = true)
    (hex : ex (.deleteIndex nm) = false) :
    (deferStep ex tbl oldCol dpk dun didx dchk dc nm ci).1.indexD =
      dc.indexD ++ [(nm, ci.columns)] := by
  unfold deferStep
  split_ifs <;> simp_all

/-- A reached and fired check branch with a successful drop records the
constraint. -/
theorem deferStep_check_rec (ex : Oracle) (tbl oldCol : Name)
    (dpk dun didx dchk : Bool) (dc : DeferredSet) (nm : Name)
    (ci : ConstraintInfo) (h0 : pkTrig dpk oldCol ci = false)
    (h1 : uniqTrig dun oldCol ci = false)
    (h : chkTrig dchk oldCol ci = true)
    (hex : ex (.deleteCheck tbl nm) = false) :
    (deferStep ex tbl oldCol dpk dun didx dchk dc nm ci).1.checkD =
      dc.checkD ++ [(nm, ci.columns)] := by
  unfold deferStep
  split_ifs <;> simp_all

/-- One iteration only errs with a database error. -/
theorem deferStep_err_db (ex : Oracle) (tbl oldCol : Name)
    (dpk dun didx dchk : Bool) (dc : DeferredSet) (nm : Name)
    (ci : ConstraintInfo) :
    (deferStep ex tbl oldCol dpk dun didx dchk dc nm ci).2.2 = none ∨
    (deferStep ex tbl oldCol dpk dun didx dchk dc nm ci).2.2 =
      some .dbError := by
  unfold deferStep
  split_ifs <;> simp_all

/-- One deferral iteration extends each map by at most this constraint's
entry. -/
theorem deferStep_extends (ex : Oracle) (tbl oldCol : Name)
    (dpk dun didx dchk : Bool) (dc : DeferredSet) (nm : Name)
    (ci : ConstraintInfo) :
    ∃ p1 u1 i1 c1 : List (Name × List Name),
      (deferStep ex tbl oldCol dpk dun didx dchk dc nm ci).1 =
        ⟨dc.pk ++ p1, dc.uniqueD ++ u1, dc.indexD ++ i1, dc.checkD ++ c1⟩ ∧
      (p1 = [] ∨ p1 = [(nm, ci.columns)]) ∧
      (u1 = [] ∨ u1 = [(nm, ci.columns)]) ∧
      (i1 = [] ∨ i1 = [(nm, ci.columns)]) ∧
      (c1 = [] ∨ c1 = [(nm, ci.columns)]) := by
  unfold deferStep
  split_ifs <;>
    first
      | (refine ⟨[(nm, ci.columns)], [], [], [], ?_,
            Or.inr rfl, Or.inl rfl, Or.inl rfl, Or.inl rfl⟩
         (cases dc; simp; done))
      | (refine ⟨[], [(nm, ci.columns)], [], [], ?_,
            Or.inl rfl, Or.inr rfl, Or.inl rfl, Or.inl rfl⟩
         (cases dc; simp; done))
      | (refine ⟨[], [], [(nm, ci.columns)], [], ?_,
            Or.inl rfl, Or.inl rfl, Or.inr rfl, Or.inl rfl⟩
         (cases dc; simp; done))
      | (refine ⟨[], [], [], [(nm, ci.columns)], ?_,
            Or.inl rfl, Or.inl rfl, Or.inl rfl, Or.inr rfl⟩
         (cases dc; simp; done))
      | (refine ⟨[], [], [(nm, ci.columns)], [(nm, ci.columns)], ?_,
            Or.inl rfl, Or.inl rfl, Or.inr rfl, Or.inr rfl⟩
         (cases dc; simp; done))
      | (refine ⟨[], [], [], [], ?_,
            Or.inl rfl, Or.inl rfl, Or.inl rfl, Or.inl rfl⟩
         (cases dc; simp))

/-- The deferral loop only extends the four maps, with keys drawn from the
snapshot (in order). -/
theorem deferList_extends (ex : Oracle) (tbl oldCol : Name)
    (dpk dun didx dchk : Bool) : ∀ (ss : Snapshot) (dc0 : DeferredSet),
    ∃ p u i c : List (Name × List Name),
      (deferList ex tbl oldCol dpk dun didx dchk ss dc0).1 =
        ⟨dc0.pk ++ p, dc0.uniqueD ++ u, dc0.indexD ++ i, dc0.checkD ++ c⟩ ∧
      (p.map Prod.fst).Sublist (ss.map Prod.fst) ∧
      (u.map Prod.fst).Sublist (ss.map Prod.fst) ∧
      (i.map Prod.fst).Sublist (ss.map Prod.fst) ∧
      (c.map Prod.fst).Sublist (ss.map Prod.fst) := by
  intro ss
  induction ss with
  | nil =>
    intro dc0
    exact ⟨[], [], [], [], by simp [deferList], by simp, by simp, by simp,
      by simp⟩
  | cons hd rest ih =>
    intro dc0
    obtain ⟨q, ci⟩ := hd
    obtain ⟨p1, u1, i1, c1, hdc1, hp1, hu1, hi1, hc1⟩ :=
      deferStep_extends ex tbl oldCol dpk dun didx dchk dc0 q ci
    rcases hstep : deferStep ex tbl oldCol dpk dun didx dchk dc0 q ci with
      ⟨dc1, t1, e⟩
    rw [hstep] at hdc1
    simp only at hdc1
    cases e with
    | some err =>
      refine ⟨p1, u1, i1, c1, by simp [deferList, hstep, hdc1], ?_, ?_, ?_, ?_⟩
      · rcases hp1 with h | h
        · simp [h]
        · subst h
          simp only [List.map_cons, List.map_nil]
          exact List.Sublist.cons₂ q (List.nil_sublist (rest.map Prod.fst))
      · rcases hu1 with h | h
        · simp [h]
        · subst h
          simp only [List.map_cons, List.map_nil]
          exact List.Sublist.cons₂ q (List.nil_sublist (rest.map Prod.fst))
      · rcases hi1 with h | h
        · simp [h]
        · subst h
          simp only [List.map_cons, List.map_nil]
          exact List.Sublist.cons₂ q (List.nil_sublist (rest.map Prod.fst))
      · rcases hc1 with h | h
        · simp [h]
        · subst h
          simp only [List.map_cons, List.map_nil]
          exact List.Sublist.cons₂ q (List.nil_sublist (rest.map Prod.fst))
    | none =>
      obtain ⟨p2, u2, i2, c2, hrec, hp2, hu2, hi2, hc2⟩ := ih dc1
      refine ⟨p1 ++ p2, u1 ++ u2, i1 ++ i2, c1 ++ c2, ?_, ?_, ?_, ?_, ?_⟩
      · simp only [deferList, hstep]
        rw [hrec, hdc1]
        simp
      · rcases hp1 with h | h
        · simpa [h] using hp2.cons q
        · simpa [h] using hp2.cons₂ q
      · rcases hu1 with h | h
        · simpa [h] using hu2.cons q
        · simpa [h] using hu2.cons₂ q
      · rcases hi1 with h | h
        · simpa [h] using hi2.cons q
        · simpa [h] using hi2.cons₂ q
      · rcases hc1 with h | h
        · simpa [h] using hc2.cons q
        · simpa [h] using hc2.cons₂ q

/-- Provenance of a recorded primary-key entry: it was already recorded, or
its constraint is in the snapshot, fired the primary-key branch and its
drop succeeded. -/
theorem deferList_pk_mem (ex : Oracle) (tbl oldCol : Name)
    (dpk dun didx dchk : Bool) : ∀ (ss : Snapshot) (dc0 : DeferredSet)
    (nm : Name) (cols : List Name),
    (nm, cols) ∈ (deferList ex tbl oldCol dpk dun didx dchk ss dc0).1.pk →
    (nm, cols) ∈ dc0.pk ∨ ∃ ci, (nm, ci) ∈ ss ∧ cols = ci.columns ∧
      pkTrig dpk oldCol ci = true ∧ ex (.deletePK tbl nm) = false := by
  intro ss
  induction ss with
  | nil =>
    intro dc0 nm cols h
    simp only [deferList] at h
    exact Or.inl h
  | cons hd rest ih =>
    intro dc0 nm cols h
    obtain ⟨q, ci⟩ := hd
    rcases hstep : deferStep ex tbl oldCol dpk dun didx dchk dc0 q ci with
      ⟨dc1, t1, e⟩
    have hpk := deferStep_pk_eq ex tbl oldCol dpk dun didx dchk dc0 q ci
    rw [hstep] at hpk
    simp only at hpk
    have resolve : (nm, cols) ∈ dc1.pk →
        (nm, cols) ∈ dc0.pk ∨ ∃ ci', (nm, ci') ∈ (q, ci) :: rest ∧
          cols = ci'.columns ∧ pkTrig dpk oldCol ci' = true ∧
          ex (.deletePK tbl nm) = false := by
      intro h1
      rcases hpk with he | ⟨he, htrig, hex⟩
      · rw [he] at h1
        exact Or.inl h1
      · rw [he] at h1
        rcases List.mem_append.mp h1 with h2 | h2
        · exact Or.inl h2
        · simp only [List.mem_singleton, Prod.mk.injEq] at h2
          exact Or.inr ⟨ci, by simp [h2.1], h2.2, htrig, by rw [h2.1]; exact hex⟩
    cases e with
    | some err =>
      simp only [deferList, hstep] at h
      exact resolve h
    | none =>
      simp only [deferList, hstep] at h
      rcases ih dc1 nm cols h with h1 | ⟨ci', hm, hc, ht, he⟩
      · exact resolve h1
      · exact Or.inr ⟨ci', List.mem_cons_of_mem _ hm, hc, ht, he⟩

/-- Provenance of a recorded unique entry. -/
theorem deferList_unique_mem (ex : Oracle) (tbl oldCol : Name)
    (dpk dun didx dchk : Bool) : ∀ (ss : Snapshot) (dc0 : DeferredSet)
    (nm : Name) (cols : List Name),
    (nm, cols) ∈ (deferList ex tbl oldCol dpk dun didx dchk ss dc0).1.uniqueD →
    (nm, cols) ∈ dc0.uniqueD ∨ ∃ ci, (nm, ci) ∈ ss ∧ cols = ci.columns ∧
      pkTrig dpk oldCol ci = false ∧ uniqTrig dun oldCol ci = true ∧
      ex (.deleteUnique tbl nm) = false := by
  intro ss
  induction ss with
  | nil =>
    intro dc0 nm cols h
    simp only [deferList] at h
    exact Or.inl h
  | cons hd rest ih =>
    intro dc0 nm cols h
    obtain ⟨q, ci⟩ := hd
    rcases hstep : deferStep ex tbl oldCol dpk dun didx dchk dc0 q ci with
      ⟨dc1, t1, e⟩
    have hun := deferStep_unique_eq ex tbl oldCol dpk dun didx dchk dc0 q ci
    rw [hstep] at hun
    simp only at hun
    have resolve : (nm, cols) ∈ dc1.uniqueD →
        (nm, cols) ∈ dc0.uniqueD ∨ ∃ ci', (nm, ci') ∈ (q, ci) :: rest ∧
          cols = ci'.columns ∧ pkTrig dpk oldCol ci' = false ∧
          uniqTrig dun oldCol ci' = true ∧
          ex (.deleteUnique tbl nm) = false := by
      intro h1
      rcases hun with he | ⟨he, hnpk, htrig, hex⟩
      · rw [he] at h1
        exact Or.inl h1
      · rw [he] at h1
        rcases List.mem_append.mp h1 with h2 | h2
        · exact Or.inl h2
        · simp only [List.mem_singleton, Prod.mk.injEq] at h2
          exact Or.inr ⟨ci, by simp [h2.1], h2.2, hnpk, htrig, by rw [h2.1]; exact hex⟩
    cases e with
    | some err =>
      simp only [deferList, hstep] at h
      exact resolve h
    | none =>
      simp only [deferList, hstep] at h
      rcases ih dc1 nm cols h with h1 | ⟨ci', hm, hc, hn, ht, he⟩
      · exact resolve h1
      · exact Or.inr ⟨ci', List.mem_cons_of_mem _ hm, hc, hn, ht, he⟩

/-- Provenance of a recorded index entry. -/
theorem deferList_index_mem (ex : Oracle) (tbl oldCol : Name)
    (dpk dun didx dchk : Bool) : ∀ (ss : Snapshot) (dc0 : DeferredSet)
    (nm : Name) (cols : List Name),
    (nm, cols) ∈ (deferList ex tbl oldCol dpk dun didx dchk ss dc0).1.indexD →
    (nm, cols) ∈ dc0.indexD ∨ ∃ ci, (nm, ci) ∈ ss ∧ cols = ci.columns ∧
      pkTrig dpk oldCol ci = false ∧ uniqTrig dun oldCol ci = false ∧
      idxTrig didx oldCol ci = true ∧ ex (.deleteIndex nm) = false := by
  intro ss
  induction ss with
  | nil =>
    intro dc0 nm cols h
    simp only [deferList] at h
    exact Or.inl h
  | cons hd rest ih =>
    intro dc0 nm cols h
    obtain ⟨q, ci⟩ := hd
    rcases hstep : deferStep ex tbl oldCol dpk dun didx dchk dc0 q ci with
      ⟨dc1, t1, e⟩
    have hix := deferStep_index_eq ex tbl oldCol dpk dun didx dchk dc0 q ci
    rw [hstep] at hix
    simp only at hix
    have resolve : (nm, cols) ∈ dc1.indexD →
        (nm, cols) ∈ dc0.indexD ∨ ∃ ci', (nm, ci') ∈ (q, ci) :: rest ∧
          cols = ci'.columns ∧ pkTrig dpk oldCol ci' = false ∧
          uniqTrig dun oldCol ci' = false ∧ idxTrig didx oldCol ci' = true ∧
          ex (.deleteIndex nm) = false := by
      intro h1
      rcases hix with he | ⟨he, hnpk, hnun, htrig, hex⟩
      · rw [he] at h1
        exact Or.inl h1
      · rw [he] at h1
        rcases List.mem_append.mp h1 with h2 | h2
        · exact Or.inl h2
        · simp only [List.mem_singleton, Prod.mk.injEq] at h2
          exact Or.inr ⟨ci, by simp [h2.1], h2.2, hnpk, hnun, htrig,
            by rw [h2.1]; exact hex⟩
    cases e with
    | some err =>
      simp only [deferList, hstep] at h
      exact resolve h
    | none =>
      simp only [deferList, hstep] at h
      rcases ih dc1 nm cols h with h1 | ⟨ci', hm, hc, hn, hu, ht, he⟩
      · exact resolve h1
      · exact Or.inr ⟨ci', List.mem_cons_of_mem _ hm, hc, hn, hu, ht, he⟩

/-- Provenance of a recorded check entry. -/
theorem deferList_check_mem (ex : Oracle) (tbl oldCol : Name)
    (dpk dun didx dchk : Bool) : ∀ (ss : Snapshot) (dc0 : DeferredSet)
    (nm : Name) (cols : List Name),
    (nm, cols) ∈ (deferList ex tbl oldCol dpk dun didx dchk ss dc0).1.checkD →
    (nm, cols) ∈ dc0.checkD ∨ ∃ ci, (nm, ci) ∈ ss ∧ cols = ci.columns ∧
      pkTrig dpk oldCol ci = false ∧ uniqTrig dun oldCol ci = false ∧
      chkTrig dchk oldCol ci = true ∧ ex (.deleteCheck tbl nm) = false := by
  intro ss
  induction ss with
  | nil =>
    intro dc0 nm cols h
    simp only [deferList] at h
    exact Or.inl h
  | cons hd rest ih =>
    intro dc0 nm cols h
    obtain ⟨q, ci⟩ := hd
    rcases hstep : deferStep ex tbl oldCol dpk dun didx dchk dc0 q ci with
      ⟨dc1, t1, e⟩
    have hch := deferStep_check_eq ex tbl oldCol dpk dun didx dchk dc0 q ci
    rw [hstep] at hch
    simp only at hch
    have resolve : (nm, cols) ∈ dc1.checkD →
        (nm, cols) ∈ dc0.checkD ∨ ∃ ci', (nm, ci') ∈ (q, ci) :: rest ∧
          cols = ci'.columns ∧ pkTrig dpk oldCol ci' = false ∧
          uniqTrig dun oldCol ci' = false ∧ chkTrig dchk oldCol ci' = true ∧
          ex (.deleteCheck tbl nm) = false := by
      intro h1
      rcases hch with he | ⟨he, hnpk, hnun, htrig, hex⟩
      · rw [he] at h1
        exact Or.inl h1
      · rw [he] at h1
        rcases List.mem_append.mp h1 with h2 | h2
        · exact Or.inl h2
        · simp only [List.mem_singleton, Prod.mk.injEq] at h2
          exact Or.inr ⟨ci, by simp [h2.1], h2.2, hnpk, hnun, htrig,
            by rw [h2.1]; exact hex⟩
    cases e with
    | some err =>
      simp only [deferList, hstep] at h
      exact resolve h
    | none =>
      simp only [deferList, hstep] at h
      rcases ih dc1 nm cols h with h1 | ⟨ci', hm, hc, hn, hu, ht, he⟩
      · exact resolve h1
      · exact Or.inr ⟨ci', List.mem_cons_of_mem _ hm, hc, hn, hu, ht, he⟩

/-- The deferral loop completes without error when no fired primary-key
drop and no reached check drop is rejected by the engine (failing unique
and index drops never propagate). -/
theorem deferList_ok (ex : Oracle) (tbl oldCol : Name)
    (dpk dun didx dchk : Bool) : ∀ (ss : Snapshot) (dc0 : DeferredSet),
    (∀ q ci, (q, ci) ∈ ss →
      (pkTrig dpk oldCol ci = true → ex (.deletePK tbl q) = false) ∧
      (pkTrig dpk oldCol ci = false → uniqTrig dun oldCol ci = false →
        chkTrig dchk oldCol ci = true → ex (.deleteCheck tbl q) = false)) →
    (deferList ex tbl oldCol dpk dun didx dchk ss dc0).2.2 = none := by
  intro ss
  induction ss with
  | nil => intro dc0 _; simp [deferList]
  | cons hd rest ih =>
    intro dc0 hok
    obtain ⟨q, ci⟩ := hd
    have hhd := hok q ci (List.mem_cons_self _ _)
    have hstepok := deferStep_ok ex tbl oldCol dpk dun didx dchk dc0 q ci
      hhd.1 hhd.2
    rcases hstep : deferStep ex tbl oldCol dpk dun didx dchk dc0 q ci with
      ⟨dc1, t1, e⟩
    rw [hstep] at hstepok
    simp only at hstepok
    subst hstepok
    simp only [deferList, hstep]
    exact ih dc1 (fun q' ci' hm => hok q' ci' (List.mem_cons_of_mem _ hm))

/-- The deferral loop propagates a database error when the snapshot holds
a constraint whose fired primary-key drop, or reached check drop, the
engine rejects. -/
theorem deferList_fail (ex : Oracle) (tbl oldCol : Name)
    (dpk dun didx dchk : Bool) : ∀ (ss : Snapshot) (dc0 : DeferredSet)
    (nm : Name) (ci : ConstraintInfo), (nm, ci) ∈ ss →
    ((pkTrig dpk oldCol ci = true ∧ ex (.deletePK tbl nm) = true) ∨
     (pkTrig dpk oldCol ci = false ∧ uniqTrig dun oldCol ci = false ∧
       chkTrig dchk oldCol ci = true ∧ ex (.deleteCheck tbl nm) = true)) →
    (deferList ex tbl oldCol dpk dun didx dchk ss dc0).2.2 =
      some .dbError := by
  intro ss
  induction ss with
  | nil => intro dc0 nm ci h; simp at h
  | cons hd rest ih =>
    intro dc0 nm ci hm hfail
    obtain ⟨q, cj⟩ := hd
    rcases hstep : deferStep ex tbl oldCol dpk dun didx dchk dc0 q cj with
      ⟨dc1, t1, e⟩
    cases e with
    | some err =>
      have hdb := deferStep_err_db ex tbl oldCol dpk dun didx dchk dc0 q cj
      rw [hstep] at hdb
      simp only at hdb
      rcases hdb with h | h
      · exact absurd h (by simp)
      · simp only [deferList, hstep]
        rw [h]
    | none =>
      rcases List.mem_cons.mp hm with heq | hrest
      · exfalso
        obtain ⟨h1, h2⟩ := Prod.mk.injEq .. ▸ heq
        subst h1
        subst h2
        rcases hfail with ⟨ht, hex⟩ | ⟨h1, h2, h3, hex⟩
        · have := deferStep_pk_fail ex tbl oldCol dpk dun didx dchk dc0 nm ci
            ht hex
          rw [hstep] at this
          simp at this
        · have := deferStep_check_fail ex tbl oldCol dpk dun didx dchk dc0 nm
            ci h1 h2 h3 hex
          rw [hstep] at this
          simp at this
      · simp only [deferList, hstep]
        exact ih dc1 nm ci hrest hfail

/-- Under the no-failure engine, a snapshot constraint that fires the
primary-key branch is recorded under the primary-key kind. -/
theorem deferList_pk_rec_noFail (tbl oldCol : Name)
    (dpk dun didx dchk : Bool) : ∀ (ss : Snapshot) (dc0 : DeferredSet)
    (nm : Name) (ci : ConstraintInfo), (nm, ci) ∈ ss →
    pkTrig dpk oldCol ci = true →
    (nm, ci.columns) ∈
      (deferList noFail tbl oldCol dpk dun didx dchk ss dc0).1.pk := by
  intro ss
  induction ss with
  | nil => intro dc0 nm ci h; simp at h
  | cons hd rest ih =>
    intro dc0 nm ci hm htrig
    obtain ⟨q, cj⟩ := hd
    rcases hstep : deferStep noFail tbl oldCol dpk dun didx dchk dc0 q cj with
      ⟨dc1, t1, e⟩
    have hok := deferStep_ok noFail tbl oldCol dpk dun didx dchk dc0 q cj
      (fun _ => rfl) (fun _ _ _ => rfl)
    rw [hstep] at hok
    simp only at hok
    subst hok
    simp only [deferList, hstep]
    rcases List.mem_cons.mp hm with heq | hrest
    · obtain ⟨h1, h2⟩ := Prod.mk.injEq .. ▸ heq
      subst h1
      subst h2
      have hrec := deferStep_pk_rec noFail tbl oldCol dpk dun didx dchk dc0 nm
        ci htrig rfl
      rw [hstep] at hrec
      simp only at hrec
      obtain ⟨p, u, i, c, hext, _, _, _, _⟩ :=
        deferList_extends noFail tbl oldCol dpk dun didx dchk rest dc1
      rw [hext]
      simp only
      rw [hrec]
      exact List.mem_append.mpr (Or.inl (List.mem_append.mpr (Or.inr
        (List.mem_singleton.mpr rfl))))
    · exact ih dc1 nm ci hrest htrig

/-- Under the no-failure engine, a snapshot constraint that reaches and
fires the unique branch is recorded under the unique kind. -/
theorem deferList_unique_rec_noFail (tbl oldCol : Name)
    (dpk dun didx dchk : Bool) : ∀ (ss : Snapshot) (dc0 : DeferredSet)
    (nm : Name) (ci : ConstraintInfo), (nm, ci) ∈ ss →
    pkTrig dpk oldCol ci = false → uniqTrig dun oldCol ci = true →
    (nm, ci.columns) ∈
      (deferList noFail tbl oldCol dpk dun didx dchk ss dc0).1.uniqueD := by
  intro ss
  induction ss with
  | nil => intro dc0 nm ci h; simp at h
  | cons hd rest ih =>
    intro dc0 nm ci hm h0 htrig
    obtain ⟨q, cj⟩ := hd
    rcases hstep : deferStep noFail tbl oldCol dpk dun didx dchk dc0 q cj with
      ⟨dc1, t1, e⟩
    have hok := deferStep_ok noFail tbl oldCol dpk dun didx dchk dc0 q cj
      (fun _ => rfl) (fun _ _ _ => rfl)
    rw [hstep] at hok
    simp only at hok
    subst hok
    simp only [deferList, hstep]
    rcases List.mem_cons.mp hm with heq | hrest
    · obtain ⟨h1, h2⟩ := Prod.mk.injEq .. ▸ heq
      subst h1
      subst h2
      have hrec := deferStep_unique_rec noFail tbl oldCol dpk dun didx dchk
        dc0 nm ci h0 htrig rfl
      rw [hstep] at hrec
      simp only at hrec
      obtain ⟨p, u, i, c, hext, _, _, _, _⟩ :=
        deferList_extends noFail tbl oldCol dpk dun didx dchk rest dc1
      rw [hext]
      simp only
      rw [hrec]
      exact List.mem_append.mpr (Or.inl (List.mem_append.mpr (Or.inr
        (List.mem_singleton.mpr rfl))))
    · exact ih dc1 nm ci hrest h0 htrig

/-- Under the no-failure engine, a snapshot constraint that reaches and
fires the index branch is recorded under the index kind. -/
theorem deferList_index_rec_noFail (tbl oldCol : Name)
    (dpk dun didx dchk : Bool) : ∀ (ss : Snapshot) (dc0 : DeferredSet)
    (nm : Name) (ci : ConstraintInfo), (nm, ci) ∈ ss →
    pkTrig dpk oldCol ci = false → uniqTrig dun oldCol ci = false →
    idxTrig didx oldCol ci = true →
    (nm, ci.columns) ∈
      (deferList noFail tbl oldCol dpk dun didx dchk ss dc0).1.indexD := by
  intro ss
  induction ss with
  | nil => intro dc0 nm ci h; simp at h
  | cons hd rest ih =>
    intro dc0 nm ci hm h0 h1 htrig
    obtain ⟨q, cj⟩ := hd
    rcases hstep : deferStep noFail tbl oldCol dpk dun didx dchk dc0 q cj with
      ⟨dc1, t1, e⟩
    have hok := deferStep_ok noFail tbl oldCol dpk dun didx dchk dc0 q cj
      (fun _ => rfl) (fun _ _ _ => rfl)
    rw [hstep] at hok
    simp only at hok
    subst hok
    simp only [deferList, hstep]
    rcases List.mem_cons.mp hm with heq | hrest
    · obtain ⟨hq1, hq2⟩ := Prod.mk.injEq .. ▸ heq
      subst hq1
      subst hq2
      have hrec := deferStep_index_rec noFail tbl oldCol dpk dun didx dchk
        dc0 nm ci h0 h1 htrig rfl
      rw [hstep] at hrec
      simp only at hrec
      obtain ⟨p, u, i, c, hext, _, _, _, _⟩ :=
        deferList_extends noFail tbl oldCol dpk dun didx dchk rest dc1
      rw [hext]
      simp only
      rw [hrec]
      exact List.mem_append.mpr (Or.inl (List.mem_append.mpr (Or.inr
        (List.mem_singleton.mpr rfl))))
    · exact ih dc1 nm ci hrest h0 h1 htrig

/-- Under the no-failure engine, a snapshot constraint that reaches and
fires the check branch is recorded under the check kind. -/
theorem deferList_check_rec_noFail (tbl oldCol : Name)
    (dpk dun didx dchk : Bool) : ∀ (ss : Snapshot) (dc0 : DeferredSet)
    (nm : Name) (ci : ConstraintInfo), (nm, ci) ∈ ss →
    pkTrig dpk oldCol ci = false → uniqTrig dun oldCol ci = false →
    chkTrig dchk oldCol ci = true →
    (nm, ci.columns) ∈
      (deferList noFail tbl oldCol dpk dun didx dchk ss dc0).1.checkD := by
  intro ss
  induction ss with
  | nil => intro dc0 nm ci h; simp at h
  | cons hd rest ih =>
    intro dc0 nm ci hm h0 h1 htrig
    obtain ⟨q, cj⟩ := hd
    rcases hstep : deferStep noFail tbl oldCol dpk dun didx dchk dc0 q cj with
      ⟨dc1, t1, e⟩
    have hok := deferStep_ok noFail tbl oldCol dpk dun didx dchk dc0 q cj
      (fun _ => rfl) (fun _ _ _ => rfl)
    rw [hstep] at hok
    simp only at hok
    subst hok
    simp only [deferList, hstep]
    rcases List.mem_cons.mp hm with heq | hrest
    · obtain ⟨hq1, hq2⟩ := Prod.mk.injEq .. ▸ heq
      subst hq1
      subst hq2
      have hrec := deferStep_check_rec noFail tbl oldCol dpk dun didx dchk
        dc0 nm ci h0 h1 htrig rfl
      rw [hstep] at hrec
      simp only at hrec
      obtain ⟨p, u, i, c, hext, _, _, _, _⟩ :=
        deferList_extends noFail tbl oldCol dpk dun didx dchk rest dc1
      rw [hext]
      simp only
      rw [hrec]
      exact List.mem_append.mpr (Or.inl (List.mem_append.mpr (Or.inr
        (List.mem_singleton.mpr rfl))))
    · exact ih dc1 nm ci hrest h0 h1 htrig

/-- Under the no-failure engine, the primary-key drop statement for a name
appears in the deferral trace exactly when a snapshot constraint of that
name fires the primary-key branch. -/
theorem deferList_trace_pk_noFail (tbl oldCol : Name)
    (dpk dun didx dchk : Bool) : ∀ (ss : Snapshot) (dc0 : DeferredSet)
    (nm : Name),
    (Stmt.deletePK tbl nm ∈
        (deferList noFail tbl oldCol dpk dun didx dchk ss dc0).2.1) ↔
      ∃ ci, (nm, ci) ∈ ss ∧ pkTrig dpk oldCol ci = true := by
  intro ss
  induction ss with
  | nil =>
    intro dc0 nm
    simp [deferList]
  | cons hd rest ih =>
    intro dc0 nm
    obtain ⟨q, cj⟩ := hd
    rcases hstep : deferStep noFail tbl oldCol dpk dun didx dchk dc0 q cj with
      ⟨dc1, t1, e⟩
    have hok := deferStep_ok noFail tbl oldCol dpk dun didx dchk dc0 q cj
      (fun _ => rfl) (fun _ _ _ => rfl)
    rw [hstep] at hok
    simp only at hok
    subst hok
    have htr := deferStep_trace_pk noFail tbl oldCol dpk dun didx dchk dc0 q cj
    have htn := deferStep_trace_names noFail tbl oldCol dpk dun didx dchk dc0 q cj
    rw [hstep] at htr htn
    simp only at htr htn
    simp only [deferList, hstep, List.mem_append]
    constructor
    · intro h
      rcases h with h | h
      · have := htn _ h
        simp only [Stmt.nameOf] at this
        have hq : nm = q := by
          injection this
        subst hq
        exact ⟨cj, List.mem_cons_self _ _, htr.mp h⟩
      · obtain ⟨ci, hm, ht⟩ := (ih dc1 nm).mp h
        exact ⟨ci, List.mem_cons_of_mem _ hm, ht⟩
    · rintro ⟨ci, hm, ht⟩
      rcases List.mem_cons.mp hm with heq | hrest
      · obtain ⟨h1, h2⟩ := Prod.mk.injEq .. ▸ heq
        subst h1
        subst h2
        exact Or.inl (htr.mpr ht)
      · exact Or.inr ((ih dc1 nm).mpr ⟨ci, hrest, ht⟩)

/-- Under the no-failure engine, the unique drop statement for a name
appears in the deferral trace exactly when a snapshot constraint of that
name reaches and fires the unique branch. -/
theorem deferList_trace_unique_noFail (tbl oldCol : Name)
    (dpk dun didx dchk : Bool) : ∀ (ss : Snapshot) (dc0 : DeferredSet)
    (nm : Name),
    (Stmt.deleteUnique tbl nm ∈
        (deferList noFail tbl oldCol dpk dun didx dchk ss dc0).2.1) ↔
      ∃ ci, (nm, ci) ∈ ss ∧ pkTrig dpk oldCol ci = false ∧
        uniqTrig dun oldCol ci = true := by
  intro ss
  induction ss with
  | nil =>
    intro dc0 nm
    simp [deferList]
  | cons hd rest ih =>
    intro dc0 nm
    obtain ⟨q, cj⟩ := hd
    rcases hstep : deferStep noFail tbl oldCol dpk dun didx dchk dc0 q cj with
      ⟨dc1, t1, e⟩
    have hok := deferStep_ok noFail tbl oldCol dpk dun didx dchk dc0 q cj
      (fun _ => rfl) (fun _ _ _ => rfl)
    rw [hstep] at hok
    simp only at hok
    subst hok
    have htr := deferStep_trace_unique noFail tbl oldCol dpk dun didx dchk dc0 q cj
    have htn := deferStep_trace_names noFail tbl oldCol dpk dun didx dchk dc0 q cj
    rw [hstep] at htr htn
    simp only at htr htn
    simp only [deferList, hstep, List.mem_append]
    constructor
    · intro h
      rcases h with h | h
      · have := htn _ h
        simp only [Stmt.nameOf] at this
        have hq : nm = q := by
          injection this
        subst hq
        obtain ⟨h1, h2⟩ := htr.mp h
        exact ⟨cj, List.mem_cons_self _ _, h1, h2⟩
      · obtain ⟨ci, hm, h1, h2⟩ := (ih dc1 nm).mp h
        exact ⟨ci, List.mem_cons_of_mem _ hm, h1, h2⟩
    · rintro ⟨ci, hm, h1, h2⟩
      rcases List.mem_cons.mp hm with heq | hrest
      · obtain ⟨hq1, hq2⟩ := Prod.mk.injEq .. ▸ heq
        subst hq1
        subst hq2
        exact Or.inl (htr.mpr ⟨h1, h2⟩)
      · exact Or.inr ((ih dc1 nm).mpr ⟨ci, hrest, h1, h2⟩)

/-- Under the no-failure engine, the index drop statement for a name
appears in the deferral trace exactly when a snapshot constraint of that
name reaches and fires the index branch. -/
theorem deferList_trace_index_noFail (tbl oldCol : Name)
    (dpk dun didx dchk : Bool) : ∀ (ss : Snapshot) (dc0 : DeferredSet)
    (nm : Name),
    (Stmt.deleteIndex nm ∈
        (deferList noFail tbl oldCol dpk dun didx dchk ss dc0).2.1) ↔
      ∃ ci, (nm, ci) ∈ ss ∧ pkTrig dpk oldCol ci = false ∧
        uniqTrig dun oldCol ci = false ∧ idxTrig didx oldCol ci = true := by
  intro ss
  induction ss with
  | nil =>
    intro dc0 nm
    simp [deferList]
  | cons hd rest ih =>
    intro dc0 nm
    obtain ⟨q, cj⟩ := hd
    rcases hstep : deferStep noFail tbl oldCol dpk dun didx dchk dc0 q cj with
      ⟨dc1, t1, e⟩
    have hok := deferStep_ok noFail tbl oldCol dpk dun didx dchk dc0 q cj
      (fun _ => rfl) (fun _ _ _ => rfl)
    rw [hstep] at hok
    simp only at hok
    subst hok
    have htr := deferStep_trace_index noFail tbl oldCol dpk dun didx dchk dc0 q cj
    have htn := deferStep_trace_names noFail tbl oldCol dpk dun didx dchk dc0 q cj
    rw [hstep] at htr htn
    simp only at htr htn
    simp only [deferList, hstep, List.mem_append]
    constructor
    · intro h
      rcases h with h | h
      · have := htn _ h
        simp only [Stmt.nameOf] at this
        have hq : nm = q := by
          injection this
        subst hq
        obtain ⟨h1, h2, h3⟩ := htr.mp h
        exact ⟨cj, List.mem_cons_self _ _, h1, h2, h3⟩
      · obtain ⟨ci, hm, h1, h2, h3⟩ := (ih dc1 nm).mp h
        exact ⟨ci, List.mem_cons_of_mem _ hm, h1, h2, h3⟩
    · rintro ⟨ci, hm, h1, h2, h3⟩
      rcases List.mem_cons.mp hm with heq | hrest
      · obtain ⟨hq1, hq2⟩ := Prod.mk.injEq .. ▸ heq
        subst hq1
        subst hq2
        exact Or.inl (htr.mpr ⟨h1, h2, h3⟩)
      · exact Or.inr ((ih dc1 nm).mpr ⟨ci, hrest, h1, h2, h3⟩)

/-- Under the no-failure engine, the check drop statement for a name
appears in the deferral trace exactly when a snapshot constraint of that
name reaches and fires the check branch. -/
theorem deferList_trace_check_noFail (tbl oldCol : Name)
    (dpk dun didx dchk : Bool) : ∀ (ss : Snapshot) (dc0 : DeferredSet)
    (nm : Name),
    (Stmt.deleteCheck tbl nm ∈
        (deferList noFail tbl oldCol dpk dun didx dchk ss dc0).2.1) ↔
      ∃ ci, (nm, ci) ∈ ss ∧ pkTrig dpk oldCol ci = false ∧
        uniqTrig dun oldCol ci = false ∧ chkTrig dchk oldCol ci = true := by
  intro ss
  induction ss with
  | nil =>
    intro dc0 nm
    simp [deferList]
  | cons hd rest ih =>
    intro dc0 nm
    obtain ⟨q, cj⟩ := hd
    rcases hstep : deferStep noFail tbl oldCol dpk dun didx dchk dc0 q cj with
      ⟨dc1, t1, e⟩
    have hok := deferStep_ok noFail tbl oldCol dpk dun didx dchk dc0 q cj
      (fun _ => rfl) (fun _ _ _ => rfl)
    rw [hstep] at hok
    simp only at hok
    subst hok
    have htr := deferStep_trace_check noFail tbl oldCol dpk dun didx dchk dc0 q cj
    have htn := deferStep_trace_names noFail tbl oldCol dpk dun didx dchk dc0 q cj
    rw [hstep] at htr htn
    simp only at htr htn
    simp only [deferList, hstep, List.mem_append]
    constructor
    · intro h
      rcases h with h | h
      · have := htn _ h
        simp only [Stmt.nameOf] at this
        have hq : nm = q := by
          injection this
        subst hq
        obtain ⟨h1, h2, h3⟩ := htr.mp h
        exact ⟨cj, List.mem_cons_self _ _, h1, h2, h3⟩
      · obtain ⟨ci, hm, h1, h2, h3⟩ := (ih dc1 nm).mp h
        exact ⟨ci, List.mem_cons_of_mem _ hm, h1, h2, h3⟩
    · rintro ⟨ci, hm, h1, h2, h3⟩
      rcases List.mem_cons.mp hm with heq | hrest
      · obtain ⟨hq1, hq2⟩ := Prod.mk.injEq .. ▸ heq
        subst hq1
        subst hq2
        exact Or.inl (htr.mpr ⟨h1, h2, h3⟩)
      · exact Or.inr ((ih dc1 nm).mpr ⟨ci, hrest, h1, h2, h3⟩)

/-- In an association list with distinct keys, a key determines its
value. -/
theorem keysNodup_inj {α : Type} : ∀ (l : List (Name × α)),
    (l.map Prod.fst).Nodup → ∀ (nm : Name) (a b : α),
    (nm, a) ∈ l → (nm, b) ∈ l → a = b := by
  intro l
  induction l with
  | nil => intro _ nm a b ha; simp at ha
  | cons hd rest ih =>
    intro hnd nm a b ha hb
    obtain ⟨q, x⟩ := hd
    rw [List.map_cons, List.nodup_cons] at hnd
    obtain ⟨hq, hnd2⟩ := hnd
    rcases List.mem_cons.mp ha with h1 | h1 <;>
      rcases List.mem_cons.mp hb with h2 | h2
    · obtain ⟨ha1, ha2⟩ := Prod.mk.injEq .. ▸ h1
      obtain ⟨hb1, hb2⟩ := Prod.mk.injEq .. ▸ h2
      rw [ha2, hb2]
    · obtain ⟨ha1, _⟩ := Prod.mk.injEq .. ▸ h1
      refine absurd (show q ∈ rest.map Prod.fst from ?_) hq
      rw [← ha1]
      exact List.mem_map_of_mem Prod.fst h2
    · obtain ⟨hb1, _⟩ := Prod.mk.injEq .. ▸ h2
      refine absurd (show q ∈ rest.map Prod.fst from ?_) hq
      rw [← hb1]
      exact List.mem_map_of_mem Prod.fst h1
    · exact ih hnd2 nm a b h1 h2

/-- The number of statements in a trace that drop or create a constraint
of the given name. -/
def countNamed (nm : Name) (tr : Trace) : Nat :=
  tr.countP fun s => decide (s.nameOf = some nm)

/-- Reorganize commands never carry a constraint name. -/
theorem countNamed_reorg (nm : Name) (pending : List (Name × Name)) :
    countNamed nm (pending.map fun x => Stmt.reorgTable x.1 x.2) = 0 := by
  rw [countNamed, List.countP_eq_zero]
  intro s hs
  obtain ⟨x, _, hx⟩ := List.mem_map.mp hs
  simp [← hx, Stmt.nameOf]

/-- The number of entries of an association list carrying the given
key. -/
def keyCount (nm : Name) (l : List (Name × List Name)) : Nat :=
  l.countP fun e => decide (e.1 = nm)

/-- A key recorded nowhere has key count zero. -/
theorem keyCount_eq_zero (nm : Name) (l : List (Name × List Name))
    (h : ∀ cols, (nm, cols) ∉ l) : keyCount nm l = 0 := by
  rw [keyCount, List.countP_eq_zero]
  intro e he hc
  simp only [decide_eq_true_eq] at hc
  exact h e.2 (by rw [← hc]; exact he)

/-- Distinct keys bound each key count by one. -/
theorem keyCount_le_one_of_nodup (nm : Name) :
    ∀ l : List (Name × List Name), (l.map Prod.fst).Nodup →
      keyCount nm l ≤ 1 := by
  intro l
  induction l with
  | nil => intro _; simp [keyCount]
  | cons hd rest ih =>
    intro hnd
    obtain ⟨q, x⟩ := hd
    rw [List.map_cons, List.nodup_cons] at hnd
    obtain ⟨hq, hnd2⟩ := hnd
    rw [keyCount, List.countP_cons]
    by_cases h : q = nm
    · have h0 : keyCount nm rest = 0 := by
        rw [keyCount, List.countP_eq_zero]
        intro e he hc
        simp only [decide_eq_true_eq] at hc
        refine hq ?_
        rw [h, ← hc]
        simpa using List.mem_map_of_mem Prod.fst he
      rw [keyCount] at h0
      simp [h, h0]
    · have := ih hnd2
      rw [keyCount] at this
      simp [h]
      omega

/-- Counting named statements over the primary-key restoration segment
counts the recorded keys. -/
theorem countNamed_pk_part (pending : List (Name × Name))
    (tbl oldCol newCol nm : Name) : ∀ l : List (Name × List Name),
    countNamed nm (l.flatMap fun e =>
      (pending.map fun x => Stmt.reorgTable x.1 x.2) ++
        [Stmt.createPK tbl e.1 (substCols e.2 oldCol newCol)]) =
      keyCount nm l := by
  intro l
  induction l with
  | nil => simp [countNamed, keyCount]
  | cons e rest ih =>
    rw [List.flatMap_cons]
    simp only [countNamed, keyCount, List.countP_append] at *
    rw [ih]
    have h0 := countNamed_reorg nm pending
    rw [countNamed] at h0
    rw [h0]
    simp only [List.countP_cons, List.countP_nil, Stmt.nameOf]
    by_cases h : e.1 = nm
    · simp [h]
      omega
    · simp [h]

/-- Counting named statements over a per-entry creation map counts the
recorded keys (shared by the unique and index restoration segments). -/
theorem countNamed_map_part (mk : (Name × List Name) → Stmt)
    (hmk : ∀ e, (mk e).nameOf = some e.1) (nm : Name) :
    ∀ l : List (Name × List Name),
    countNamed nm (l.map mk) = keyCount nm l := by
  intro l
  induction l with
  | nil => simp [countNamed, keyCount]
  | cons e rest ih =>
    simp only [List.map_cons, countNamed, keyCount, List.countP_cons,
      hmk] at *
    rw [ih]
    by_cases h : e.1 = nm
    · simp [h]
    · simp [h]

/-- The restoration trace holds, for every constraint name, exactly as
many named statements as the primary-key, unique and index maps hold
entries of that name; check records contribute nothing. -/
theorem countNamed_restore (pending : List (Name × Name)) (dc : DeferredSet)
    (oldCol newCol tbl nm : Name) :
    countNamed nm
      (restore_constraints_check noFail pending dc oldCol newCol tbl).1 =
      keyCount nm dc.pk + keyCount nm dc.uniqueD + keyCount nm dc.indexD := by
  rw [restore_noFail]
  simp only [countNamed, List.countP_append]
  have h1 := countNamed_pk_part pending tbl oldCol newCol nm dc.pk
  have h2 := countNamed_map_part
    (fun e => Stmt.createUnique tbl e.1 (substCols e.2 oldCol newCol))
    (fun e => rfl) nm dc.uniqueD
  have h3 := countNamed_map_part
    (fun e => Stmt.createIndex tbl e.1 (substCols e.2 oldCol newCol))
    (fun e => rfl) nm dc.indexD
  simp only [countNamed, keyCount] at h1 h2 h3 ⊢
  omega

/-- When no fired primary-key drop and no reached check drop fails, a
snapshot constraint that reaches and fires the unique branch has its
unique drop statement issued (even if the engine then rejects it). -/
theorem deferList_trace_unique_pos (ex : Oracle) (tbl oldCol : Name)
    (dpk dun didx dchk : Bool) : ∀ (ss : Snapshot) (dc0 : DeferredSet)
    (nm : Name) (ci : ConstraintInfo), (nm, ci) ∈ ss →
    (∀ q cj, (q, cj) ∈ ss →
      (pkTrig dpk oldCol cj = true → ex (.deletePK tbl q) = false) ∧
      (pkTrig dpk oldCol cj = false → uniqTrig dun oldCol cj = false →
        chkTrig dchk oldCol cj = true → ex (.deleteCheck tbl q) = false)) →
    pkTrig dpk oldCol ci = false → uniqTrig dun oldCol ci = true →
    Stmt.deleteUnique tbl nm ∈
      (deferList ex tbl oldCol dpk dun didx dchk ss dc0).2.1 := by
  intro ss
  induction ss with
  | nil => intro dc0 nm ci h; simp at h
  | cons hd rest ih =>
    intro dc0 nm ci hm hok h0 h1
    obtain ⟨q, cj⟩ := hd
    have hhd := hok q cj (List.mem_cons_self _ _)
    have hsok := deferStep_ok ex tbl oldCol dpk dun didx dchk dc0 q cj
      hhd.1 hhd.2
    rcases hstep : deferStep ex tbl oldCol dpk dun didx dchk dc0 q cj with
      ⟨dc1, t1, e⟩
    rw [hstep] at hsok
    simp only at hsok
    subst hsok
    simp only [deferList, hstep, List.mem_append]
    rcases List.mem_cons.mp hm with heq | hrest
    · obtain ⟨hq1, hq2⟩ := Prod.mk.injEq .. ▸ heq
      subst hq1
      subst hq2
      have htr := deferStep_trace_unique ex tbl oldCol dpk dun didx dchk dc0
        nm ci
      rw [hstep] at htr
      simp only at htr
      exact Or.inl (htr.mpr ⟨h0, h1⟩)
    · exact Or.inr (ih dc1 nm ci hrest
        (fun q' cj' hm' => hok q' cj' (List.mem_cons_of_mem _ hm')) h0 h1)

/-- When no fired primary-key drop and no reached check drop fails, a
snapshot constraint that reaches and fires the index branch has its index
drop statement issued (even if the engine then rejects it). -/
theorem deferList_trace_index_pos (ex : Oracle) (tbl oldCol : Name)
    (dpk dun didx dchk : Bool) : ∀ (ss : Snapshot) (dc0 : DeferredSet)
    (nm : Name) (ci : ConstraintInfo), (nm, ci) ∈ ss →
    (∀ q cj, (q, cj) ∈ ss →
      (pkTrig dpk oldCol cj = true → ex (.deletePK tbl q) = false) ∧
      (pkTrig dpk oldCol cj = false → uniqTrig dun oldCol cj = false →
        chkTrig dchk oldCol cj = true → ex (.deleteCheck tbl q) = false)) →
    pkTrig dpk oldCol ci = false → uniqTrig dun oldCol ci = false →
    idxTrig didx oldCol ci = true →
    Stmt.deleteIndex nm ∈
      (deferList ex tbl oldCol dpk dun didx dchk ss dc0).2.1 := by
  intro ss
  induction ss with
  | nil => intro dc0 nm ci h; simp at h
  | cons hd rest ih =>
    intro dc0 nm ci hm hok h0 h1 h2
    obtain ⟨q, cj⟩ := hd
    have hhd := hok q cj (List.mem_cons_self _ _)
    have hsok := deferStep_ok ex tbl oldCol dpk dun didx dchk dc0 q cj
      hhd.1 hhd.2
    rcases hstep : deferStep ex tbl oldCol dpk dun didx dchk dc0 q cj with
      ⟨dc1, t1, e⟩
    rw [hstep] at hsok
    simp only at hsok
    subst hsok
    simp only [deferList, hstep, List.mem_append]
    rcases List.mem_cons.mp hm with heq | hrest
    · obtain ⟨hq1, hq2⟩ := Prod.mk.injEq .. ▸ heq
      subst hq1
      subst hq2
      have htr := deferStep_trace_index ex tbl oldCol dpk dun didx dchk dc0
        nm ci
      rw [hstep] at htr
      simp only at htr
      exact Or.inl (htr.mpr ⟨h0, h1, h2⟩)
    · exact Or.inr (ih dc1 nm ci hrest
        (fun q' cj' hm' => hok q' cj' (List.mem_cons_of_mem _ hm')) h0 h1 h2)

/-- An engine that rejects exactly the statements dropping or creating the
constraint named `nm`. -/
def failNamed (nm : Name) : Oracle := fun s => decide (s.nameOf = some nm)

/-- Statements named otherwise always succeed under `failNamed`. -/
theorem failNamed_other (nm q : Name) (s : Stmt) (h : s.nameOf = some q)
    (hne : q ≠ nm) : failNamed nm s = false := by
  simp [failNamed, h]
  intro hc
  exact absurd hc hne

/-- C6: during constraint deferral, a failing drop of a unique or index
kind constraint is swallowed (the loop completes without error, the drop
statement having been issued) and that constraint is recorded under no
kind - so it is never restored - while a failing drop of a primary-key or
check kind constraint propagates the failure to the caller.  The engine
here rejects exactly the statements naming the distinguished constraint. -/
theorem claim_C6_defer_failure_semantics (ss : Snapshot)
    (oldCol newF tbl nm : Name) (ci : ConstraintInfo)
    (hnd : (ss.map Prod.fst).Nodup) (hm : (nm, ci) ∈ ss)
    (htouch : oldCol ∈ ci.columns) :
    (ci.primaryKey = false → ci.uniqueC = true →
      (defer_constraints_check (failNamed nm) ss emptyDC oldCol newF tbl
          true true true true).2.2 = none ∧
      Stmt.deleteUnique tbl nm ∈ (defer_constraints_check (failNamed nm) ss
        emptyDC oldCol newF tbl true true true true).2.1 ∧
      (∀ cols,
        (nm, cols) ∉ (defer_constraints_check (failNamed nm) ss emptyDC
          oldCol newF tbl true true true true).1.pk ∧
        (nm, cols) ∉ (defer_constraints_check (failNamed nm) ss emptyDC
          oldCol newF tbl true true true true).1.uniqueD ∧
        (nm, cols) ∉ (defer_constraints_check (failNamed nm) ss emptyDC
          oldCol newF tbl true true true true).1.indexD ∧
        (nm, cols) ∉ (defer_constraints_check (failNamed nm) ss emptyDC
          oldCol newF tbl true true true true).1.checkD)) ∧
    (ci.primaryKey = false → ci.uniqueC = false → ci.indexC = true →
      ci.checkC = false →
      (defer_constraints_check (failNamed nm) ss emptyDC oldCol newF tbl
          true true true true).2.2 = none ∧
      Stmt.deleteIndex nm ∈ (defer_constraints_check (failNamed nm) ss
        emptyDC oldCol newF tbl true true true true).2.1 ∧
      (∀ cols,
        (nm, cols) ∉ (defer_constraints_check (failNamed nm) ss emptyDC
          oldCol newF tbl true true true true).1.pk ∧
        (nm, cols) ∉ (defer_constraints_check (failNamed nm) ss emptyDC
          oldCol newF tbl true true true true).1.uniqueD ∧
        (nm, cols) ∉ (defer_constraints_check (failNamed nm) ss emptyDC
          oldCol newF tbl true true true true).1.indexD ∧
        (nm, cols) ∉ (defer_constraints_check (failNamed nm) ss emptyDC
          oldCol newF tbl true true true true).1.checkD)) ∧
    (ci.primaryKey = true →
      (defer_constraints_check (failNamed nm) ss emptyDC oldCol newF tbl
          true true true true).2.2 = some .dbError) ∧
    (ci.primaryKey = false → ci.uniqueC = false → ci.checkC = true →
      (defer_constraints_check (failNamed nm) ss emptyDC oldCol newF tbl
          true true true true).2.2 = some .dbError) := by
  have hself : ∀ s : Stmt, s.nameOf = some nm → failNamed nm s = true := by
    intro s h
    simp [failNamed, h]
  have hokOf : ∀ (h0 : ci.primaryKey = false)
      (h1 : ci.uniqueC = true ∨ ci.checkC = false),
      ∀ q cj, (q, cj) ∈ ss →
      (pkTrig true oldCol cj = true → failNamed nm (.deletePK tbl q) = false) ∧
      (pkTrig true oldCol cj = false → uniqTrig true oldCol cj = false →
        chkTrig true oldCol cj = true →
        failNamed nm (.deleteCheck tbl q) = false) := by
    intro h0 h1 q cj hmq
    by_cases hq : q = nm
    · subst hq
      have hcj : cj = ci := keysNodup_inj ss hnd q cj ci hmq hm
      subst hcj
      constructor
      · intro ht
        exfalso
        rw [pkTrig, h0] at ht
        simp at ht
      · intro _ hun hchk
        exfalso
        rcases h1 with h1 | h1
        · rw [uniqTrig, h1] at hun
          simp [htouch] at hun
        · rw [chkTrig, h1] at hchk
          simp at hchk
    · exact ⟨fun _ => failNamed_other nm q _ rfl hq,
        fun _ _ _ => failNamed_other nm q _ rfl hq⟩
  refine ⟨?_, ?_, ?_, ?_⟩
  · intro h0 h1
    have hok := hokOf h0 (Or.inl h1)
    have hpkF : pkTrig true oldCol ci = false := by
      rw [pkTrig, h0]
      simp
    have hunT : uniqTrig true oldCol ci = true := by
      rw [uniqTrig, h1]
      simp [htouch]
    refine ⟨deferList_ok _ tbl oldCol true true true true ss emptyDC hok, ?_, ?_⟩
    · exact deferList_trace_unique_pos _ tbl oldCol true true true true ss
        emptyDC nm ci hm hok hpkF hunT
    · intro cols
      refine ⟨?_, ?_, ?_, ?_⟩
      · intro hc
        rcases deferList_pk_mem _ tbl oldCol true true true true ss emptyDC
          nm cols hc with h | ⟨ci', hm', _, ht', _⟩
        · simp [emptyDC] at h
        · have : ci' = ci := keysNodup_inj ss hnd nm ci' ci hm' hm
          rw [this, hpkF] at ht'
          exact absurd ht' (by simp)
      · intro hc
        rcases deferList_unique_mem _ tbl oldCol true true true true ss
          emptyDC nm cols hc with h | ⟨ci', _, _, _, _, hex'⟩
        · simp [emptyDC] at h
        · rw [hself (Stmt.deleteUnique tbl nm) rfl] at hex'
          exact absurd hex' (by simp)
      · intro hc
        rcases deferList_index_mem _ tbl oldCol true true true true ss
          emptyDC nm cols hc with h | ⟨ci', hm', _, _, hu', _, _⟩
        · simp [emptyDC] at h
        · have : ci' = ci := keysNodup_inj ss hnd nm ci' ci hm' hm
          rw [this, hunT] at hu'
          exact absurd hu' (by simp)
      · intro hc
        rcases deferList_check_mem _ tbl oldCol true true true true ss
          emptyDC nm cols hc with h | ⟨ci', hm', _, _, hu', _, _⟩
        · simp [emptyDC] at h
        · have : ci' = ci := keysNodup_inj ss hnd nm ci' ci hm' hm
          rw [this, hunT] at hu'
          exact absurd hu' (by simp)
  · intro h0 h1 h2 h3
    have hok := hokOf h0 (Or.inr h3)
    have hpkF : pkTrig true oldCol ci = false := by
      rw [pkTrig, h0]
      simp
    have hunF : uniqTrig true oldCol ci = false := by
      rw [uniqTrig, h1]
      simp
    have hixT : idxTrig true oldCol ci = true := by
      rw [idxTrig, h2]
      simp [htouch]
    refine ⟨deferList_ok _ tbl oldCol true true true true ss emptyDC hok, ?_, ?_⟩
    · exact deferList_trace_index_pos _ tbl oldCol true true true true ss
        emptyDC nm ci hm hok hpkF hunF hixT
    · intro cols
      refine ⟨?_, ?_, ?_, ?_⟩
      · intro hc
        rcases deferList_pk_mem _ tbl oldCol true true true true ss emptyDC
          nm cols hc with h | ⟨ci', hm', _, ht', _⟩
        · simp [emptyDC] at h
        · have : ci' = ci := keysNodup_inj ss hnd nm ci' ci hm' hm
          rw [this, hpkF] at ht'
          exact absurd ht' (by simp)
      · intro hc
        rcases deferList_unique_mem _ tbl oldCol true true true true ss
          emptyDC nm cols hc with h | ⟨ci', hm', _, _, hu', _⟩
        · simp [emptyDC] at h
        · have : ci' = ci := keysNodup_inj ss hnd nm ci' ci hm' hm
          rw [this, hunF] at hu'
          exact absurd hu' (by simp)
      · intro hc
        rcases deferList_index_mem _ tbl oldCol true true true true ss
          emptyDC nm cols hc with h | ⟨ci', _, _, _, _, _, hex'⟩
        · simp [emptyDC] at h
        · rw [hself (Stmt.deleteIndex nm) rfl] at hex'
          exact absurd hex' (by simp)
      · intro hc
        rcases deferList_check_mem _ tbl oldCol true true true true ss
          emptyDC nm cols hc with h | ⟨ci', hm', _, _, _, hk', _⟩
        · simp [emptyDC] at h
        · have : ci' = ci := keysNodup_inj ss hnd nm ci' ci hm' hm
          rw [this, chkTrig, h3] at hk'
          simp at hk'
  · intro h0
    refine deferList_fail _ tbl oldCol true true true true ss emptyDC nm ci
      hm (Or.inl ⟨?_, hself (Stmt.deletePK tbl nm) rfl⟩)
    rw [pkTrig, h0]
    simp [htouch]
  · intro h0 h1 h2
    refine deferList_fail _ tbl oldCol true true true true ss emptyDC nm ci
      hm (Or.inr ⟨?_, ?_, ?_, hself (Stmt.deleteCheck tbl nm) rfl⟩)
    · rw [pkTrig, h0]
      simp
    · rw [uniqTrig, h1]
      simp
    · rw [chkTrig, h2]
      simp [htouch]

/-- Witness for C6: a unique constraint `u0` on column `c` whose drop the
engine rejects is swallowed - deferral completes without error and `u0` is
not recorded under the unique kind. -/
theorem claim_C6_defer_failure_semantics_witness :
    (defer_constraints_check (failNamed (("u0").data))
        [((("u0").data), ⟨false, true, false, false, false, [("c").data]⟩)]
        emptyDC (("c").data) (("c").data) (("T").data)
        true true true true).2.2 = none ∧
    (∀ cols, ((("u0").data), cols) ∉
      (defer_constraints_check (failNamed (("u0").data))
        [((("u0").data), ⟨false, true, false, false, false, [("c").data]⟩)]
        emptyDC (("c").data) (("c").data) (("T").data)
        true true true true).1.uniqueD) := by
  have h := claim_C6_defer_failure_semantics
    [((("u0").data), ⟨false, true, false, false, false, [("c").data]⟩)]
    (("c").data) (("c").data) (("T").data) (("u0").data)
    ⟨false, true, false, false, false, [("c").data]⟩
    (by decide) (by decide) (by decide)
  have ha := h.1 rfl rfl
  exact ⟨ha.1, fun cols => (ha.2.2 cols).2.1⟩

/-- Counterexample for C9: a constraint flagged as both an index and a
check constraint and touching the column is recorded under two kinds -
the index branch records it and then falls through to the check branch,
which records it again. -/
theorem claim_C9_counterexample :
    (defer_constraints_check noFail
        [((("c0").data), ⟨false, false, true, true, false, [("c").data]⟩)]
        emptyDC (("c").data) (("c").data) (("T").data)
        true true true true).1.indexD =
      [((("c0").data), [("c").data])] ∧
    (defer_constraints_check noFail
        [((("c0").data), ⟨false, false, true, true, false, [("c").data]⟩)]
        emptyDC (("c").data) (("c").data) (("T").data)
        true true true true).1.checkD =
      [((("c0").data), [("c").data])] := by
  constructor <;> rfl

/-- C9 (amended): during constraint deferral every constraint is recorded
under at most one of the primary-key, unique and index kinds - a
primary-key-flagged constraint touching the column only under pk, a
successfully dropped unique constraint only under unique - and therefore
no deferred constraint receives more than one restoration attempt.  (A
constraint flagged both index and check can additionally be recorded
under the check kind, which the restoration step never replays, so the
restoration bound still holds.) -/
theorem claim_C9_at_most_one_kind_amended (ex : Oracle) (ss : Snapshot)
    (oldCol newF tbl : Name) (dun didx dchk : Bool) (dc : DeferredSet)
    (hnd : (ss.map Prod.fst).Nodup)
    (hdc : dc = (defer_constraints_check ex ss emptyDC oldCol newF tbl
      true dun didx dchk).1) :
    (∀ nm ci, (nm, ci) ∈ ss → ci.primaryKey = true → oldCol ∈ ci.columns →
      ∀ cols, (nm, cols) ∉ dc.uniqueD ∧ (nm, cols) ∉ dc.indexD) ∧
    (∀ nm colsP colsU, (nm, colsP) ∈ dc.pk → (nm, colsU) ∈ dc.uniqueD →
      False) ∧
    (∀ nm colsP colsI, (nm, colsP) ∈ dc.pk → (nm, colsI) ∈ dc.indexD →
      False) ∧
    (∀ nm colsU colsI, (nm, colsU) ∈ dc.uniqueD → (nm, colsI) ∈ dc.indexD →
      False) ∧
    (∀ nm (pending : List (Name × Name)) (newCol : Name),
      countNamed nm (restore_constraints_check noFail pending dc oldCol
        newCol tbl).1 ≤ 1) := by
  have hprovP : ∀ nm cols, (nm, cols) ∈ dc.pk → ∃ ci, (nm, ci) ∈ ss ∧
      pkTrig true oldCol ci = true := by
    intro nm cols hmem
    rw [hdc] at hmem
    rcases deferList_pk_mem ex tbl oldCol true dun didx dchk ss emptyDC nm
      cols hmem with h | ⟨ci, hm, _, ht, _⟩
    · simp [emptyDC] at h
    · exact ⟨ci, hm, ht⟩
  have hprovU : ∀ nm cols, (nm, cols) ∈ dc.uniqueD → ∃ ci, (nm, ci) ∈ ss ∧
      pkTrig true oldCol ci = false ∧ uniqTrig dun oldCol ci = true := by
    intro nm cols hmem
    rw [hdc] at hmem
    rcases deferList_unique_mem ex tbl oldCol true dun didx dchk ss emptyDC
      nm cols hmem with h | ⟨ci, hm, _, h1, h2, _⟩
    · simp [emptyDC] at h
    · exact ⟨ci, hm, h1, h2⟩
  have hprovI : ∀ nm cols, (nm, cols) ∈ dc.indexD → ∃ ci, (nm, ci) ∈ ss ∧
      pkTrig true oldCol ci = false ∧ uniqTrig dun oldCol ci = false := by
    intro nm cols hmem
    rw [hdc] at hmem
    rcases deferList_index_mem ex tbl oldCol true dun didx dchk ss emptyDC
      nm cols hmem with h | ⟨ci, hm, _, h1, h2, _, _⟩
    · simp [emptyDC] at h
    · exact ⟨ci, hm, h1, h2⟩
  have hPU : ∀ nm colsP colsU, (nm, colsP) ∈ dc.pk →
      (nm, colsU) ∈ dc.uniqueD → False := by
    intro nm colsP colsU hp hu
    obtain ⟨ci1, hm1, ht1⟩ := hprovP nm colsP hp
    obtain ⟨ci2, hm2, ht2, _⟩ := hprovU nm colsU hu
    have : ci1 = ci2 := keysNodup_inj ss hnd nm ci1 ci2 hm1 hm2
    rw [this, ht2] at ht1
    exact absurd ht1 (by simp)
  have hPI : ∀ nm colsP colsI, (nm, colsP) ∈ dc.pk →
      (nm, colsI) ∈ dc.indexD → False := by
    intro nm colsP colsI hp hi
    obtain ⟨ci1, hm1, ht1⟩ := hprovP nm colsP hp
    obtain ⟨ci2, hm2, ht2, _⟩ := hprovI nm colsI hi
    have : ci1 = ci2 := keysNodup_inj ss hnd nm ci1 ci2 hm1 hm2
    rw [this, ht2] at ht1
    exact absurd ht1 (by simp)
  have hUI : ∀ nm colsU colsI, (nm, colsU) ∈ dc.uniqueD →
      (nm, colsI) ∈ dc.indexD → False := by
    intro nm colsU colsI hu hi
    obtain ⟨ci1, hm1, _, ht1⟩ := hprovU nm colsU hu
    obtain ⟨ci2, hm2, _, ht2⟩ := hprovI nm colsI hi
    have : ci1 = ci2 := keysNodup_inj ss hnd nm ci1 ci2 hm1 hm2
    rw [this, ht2] at ht1
    exact absurd ht1 (by simp)
  refine ⟨?_, hPU, hPI, hUI, ?_⟩
  · intro nm ci hm hpk htouch cols
    have htrig : pkTrig true oldCol ci = true := by
      rw [pkTrig, hpk]
      simp [htouch]
    constructor
    · intro hu
      obtain ⟨ci2, hm2, ht2, _⟩ := hprovU nm cols hu
      have : ci2 = ci := keysNodup_inj ss hnd nm ci2 ci hm2 hm
      rw [this, htrig] at ht2
      exact absurd ht2 (by simp)
    · intro hi
      obtain ⟨ci2, hm2, ht2, _⟩ := hprovI nm cols hi
      have : ci2 = ci := keysNodup_inj ss hnd nm ci2 ci hm2 hm
      rw [this, htrig] at ht2
      exact absurd ht2 (by simp)
  · intro nm pending newCol
    rw [countNamed_restore]
    obtain ⟨p, u, i, c, hext, hsp, hsu, hsi, _⟩ :=
      deferList_extends ex tbl oldCol true dun didx dchk ss emptyDC
    have hdcpk : dc.pk = p := by
      rw [hdc, defer_constraints_check, hext]
      simp [emptyDC]
    have hdcun : dc.uniqueD = u := by
      rw [hdc, defer_constraints_check, hext]
      simp [emptyDC]
    have hdcix : dc.indexD = i := by
      rw [hdc, defer_constraints_check, hext]
      simp [emptyDC]
    have hndp : (dc.pk.map Prod.fst).Nodup := by
      rw [hdcpk]
      exact hnd.sublist hsp
    have hndu : (dc.uniqueD.map Prod.fst).Nodup := by
      rw [hdcun]
      exact hnd.sublist hsu
    have hndi : (dc.indexD.map Prod.fst).Nodup := by
      rw [hdcix]
      exact hnd.sublist hsi
    by_cases h1 : ∃ colsP, (nm, colsP) ∈ dc.pk
    · obtain ⟨colsP, hcp⟩ := h1
      have z2 : keyCount nm dc.uniqueD = 0 :=
        keyCount_eq_zero nm _ (fun cols hc => hPU nm colsP cols hcp hc)
      have z3 : keyCount nm dc.indexD = 0 :=
        keyCount_eq_zero nm _ (fun cols hc => hPI nm colsP cols hcp hc)
      have b1 := keyCount_le_one_of_nodup nm dc.pk hndp
      omega
    · have z1 : keyCount nm dc.pk = 0 :=
        keyCount_eq_zero nm _ (fun cols hc => h1 ⟨cols, hc⟩)
      by_cases h2 : ∃ colsU, (nm, colsU) ∈ dc.uniqueD
      · obtain ⟨colsU, hcu⟩ := h2
        have z3 : keyCount nm dc.indexD = 0 :=
          keyCount_eq_zero nm _ (fun cols hc => hUI nm colsU cols hcu hc)
        have b2 := keyCount_le_one_of_nodup nm dc.uniqueD hndu
        omega
      · have z2 : keyCount nm dc.uniqueD = 0 :=
          keyCount_eq_zero nm _ (fun cols hc => h2 ⟨cols, hc⟩)
        have b3 := keyCount_le_one_of_nodup nm dc.indexD hndi
        omega

/-- Witness for the amended C9: a primary-key-flagged unique constraint
`p0` touching column `c` is not recorded under the unique kind. -/
theorem claim_C9_at_most_one_kind_amended_witness :
    ((("p0").data), [("c").data]) ∉
      (defer_constraints_check noFail
        [((("p0").data), ⟨true, true, false, false, false, [("c").data]⟩)]
        emptyDC (("c").data) (("c").data) (("T").data)
        true true true true).1.uniqueD ∧
    ((("p0").data), [("c").data]) ∉
      (defer_constraints_check noFail
        [((("p0").data), ⟨true, true, false, false, false, [("c").data]⟩)]
        emptyDC (("c").data) (("c").data) (("T").data)
        true true true true).1.indexD := by
  have h := claim_C9_at_most_one_kind_amended noFail
    [((("p0").data), ⟨true, true, false, false, false, [("c").data]⟩)]
    (("c").data) (("c").data) (("T").data) true true true
    (defer_constraints_check noFail
      [((("p0").data), ⟨true, true, false, false, false, [("c").data]⟩)]
      emptyDC (("c").data) (("c").data) (("T").data) true true true true).1
    (by decide) rfl
  exact h.1 (("p0").data) ⟨true, true, false, false, false, [("c").data]⟩
    (by decide) rfl (by decide) [("c").data]

/-- A recorded key has positive key count. -/
theorem keyCount_pos (nm : Name) (cols : List Name)
    (l : List (Name × List Name)) (h : (nm, cols) ∈ l) :
    1 ≤ keyCount nm l := by
  rw [keyCount]
  refine Nat.succ_le_of_lt (List.countP_pos_iff.mpr ⟨(nm, cols), h, by simp⟩)

/-- Counterexample for C1: a check constraint `c0` on column `c` is
removed from the live engine during deferral (its drop statement is
issued and it is recorded under the check kind), yet the restoration step
issues no statement at all - zero restoration attempts instead of exactly
one. -/
theorem claim_C1_counterexample :
    (Stmt.deleteCheck (("T").data) (("c0").data) ∈
      (defer_constraints_check noFail
        [((("c0").data), ⟨false, false, false, true, false, [("c").data]⟩)]
        emptyDC (("c").data) (("d").data) (("T").data)
        true true true true).2.1) ∧
    (defer_constraints_check noFail
        [((("c0").data), ⟨false, false, false, true, false, [("c").data]⟩)]
        emptyDC (("c").data) (("d").data) (("T").data)
        true true true true).1.checkD =
      [((("c0").data), [("c").data])] ∧
    (restore_constraints_check noFail []
      (defer_constraints_check noFail
        [((("c0").data), ⟨false, false, false, true, false, [("c").data]⟩)]
        emptyDC (("c").data) (("d").data) (("T").data)
        true true true true).1
      (("c").data) (("d").data) (("T").data)).1 = [] := by
  exact ⟨by decide, by decide, by decide⟩

/-- C1 (amended): for a deferral that completes without drop failures,
removal and recording coincide kind by kind, and every constraint
recorded under the primary-key, unique or index kind receives exactly one
restoration attempt, recreated under its original name with the old
column name replaced by the new one throughout its recorded column list;
a constraint recorded under the check kind receives no restoration
attempt of its own (none at all, unless the same constraint was also
recorded under the index kind). -/
theorem claim_C1_defer_restore_amended (ss : Snapshot)
    (oldCol newCol tbl : Name) (pending : List (Name × Name))
    (dc : DeferredSet) (tr rt : Trace)
    (hnd : (ss.map Prod.fst).Nodup)
    (hdc : dc = (defer_constraints_check noFail ss emptyDC oldCol newCol tbl
      true true true true).1)
    (htr : tr = (defer_constraints_check noFail ss emptyDC oldCol newCol tbl
      true true true true).2.1)
    (hrt : rt = (restore_constraints_check noFail pending dc oldCol newCol
      tbl).1) :
    (∀ nm, (Stmt.deletePK tbl nm ∈ tr) ↔ ∃ cols, (nm, cols) ∈ dc.pk) ∧
    (∀ nm, (Stmt.deleteUnique tbl nm ∈ tr) ↔
      ∃ cols, (nm, cols) ∈ dc.uniqueD) ∧
    (∀ nm, (Stmt.deleteIndex nm ∈ tr) ↔ ∃ cols, (nm, cols) ∈ dc.indexD) ∧
    (∀ nm, (Stmt.deleteCheck tbl nm ∈ tr) ↔
      ∃ cols, (nm, cols) ∈ dc.checkD) ∧
    (∀ nm cols, (nm, cols) ∈ dc.pk → countNamed nm rt = 1 ∧
      Stmt.createPK tbl nm (substCols cols oldCol newCol) ∈ rt) ∧
    (∀ nm cols, (nm, cols) ∈ dc.uniqueD → countNamed nm rt = 1 ∧
      Stmt.createUnique tbl nm (substCols cols oldCol newCol) ∈ rt) ∧
    (∀ nm cols, (nm, cols) ∈ dc.indexD → countNamed nm rt = 1 ∧
      Stmt.createIndex tbl nm (substCols cols oldCol newCol) ∈ rt) ∧
    (∀ nm cols, (nm, cols) ∈ dc.checkD →
      (∀ cols2, (nm, cols2) ∉ dc.indexD) → countNamed nm rt = 0) := by
  have hprovP : ∀ nm cols, (nm, cols) ∈ dc.pk → ∃ ci, (nm, ci) ∈ ss ∧
      cols = ci.columns ∧ pkTrig true oldCol ci = true := by
    intro nm cols hmem
    rw [hdc] at hmem
    rcases deferList_pk_mem noFail tbl oldCol true true true true ss emptyDC
      nm cols hmem with h | ⟨ci, hm, hc, ht, _⟩
    · simp [emptyDC] at h
    · exact ⟨ci, hm, hc, ht⟩
  have hprovU : ∀ nm cols, (nm, cols) ∈ dc.uniqueD → ∃ ci, (nm, ci) ∈ ss ∧
      cols = ci.columns ∧ pkTrig true oldCol ci = false ∧
      uniqTrig true oldCol ci = true := by
    intro nm cols hmem
    rw [hdc] at hmem
    rcases deferList_unique_mem noFail tbl oldCol true true true true ss
      emptyDC nm cols hmem with h | ⟨ci, hm, hc, h1, h2, _⟩
    · simp [emptyDC] at h
    · exact ⟨ci, hm, hc, h1, h2⟩
  have hprovI : ∀ nm cols, (nm, cols) ∈ dc.indexD → ∃ ci, (nm, ci) ∈ ss ∧
      cols = ci.columns ∧ pkTrig true oldCol ci = false ∧
      uniqTrig true oldCol ci = false ∧ idxTrig true oldCol ci = true := by
    intro nm cols hmem
    rw [hdc] at hmem
    rcases deferList_index_mem noFail tbl oldCol true true true true ss
      emptyDC nm cols hmem with h | ⟨ci, hm, hc, h1, h2, h3, _⟩
    · simp [emptyDC] at h
    · exact ⟨ci, hm, hc, h1, h2, h3⟩
  have hprovC : ∀ nm cols, (nm, cols) ∈ dc.checkD → ∃ ci, (nm, ci) ∈ ss ∧
      cols = ci.columns ∧ pkTrig true oldCol ci = false ∧
      uniqTrig true oldCol ci = false ∧ chkTrig true oldCol ci = true := by
    intro nm cols hmem
    rw [hdc] at hmem
    rcases deferList_check_mem noFail tbl oldCol true true true true ss
      emptyDC nm cols hmem with h | ⟨ci, hm, hc, h1, h2, h3, _⟩
    · simp [emptyDC] at h
    · exact ⟨ci, hm, hc, h1, h2, h3⟩
  have hPU : ∀ nm colsP colsU, (nm, colsP) ∈ dc.pk →
      (nm, colsU) ∈ dc.uniqueD → False := by
    intro nm colsP colsU hp hu
    obtain ⟨ci1, hm1, _, ht1⟩ := hprovP nm colsP hp
    obtain ⟨ci2, hm2, _, ht2, _⟩ := hprovU nm colsU hu
    have : ci1 = ci2 := keysNodup_inj ss hnd nm ci1 ci2 hm1 hm2
    rw [this, ht2] at ht1
    exact absurd ht1 (by simp)
  have hPI : ∀ nm colsP colsI, (nm, colsP) ∈ dc.pk →
      (nm, colsI) ∈ dc.indexD → False := by
    intro nm colsP colsI hp hi
    obtain ⟨ci1, hm1, _, ht1⟩ := hprovP nm colsP hp
    obtain ⟨ci2, hm2, _, ht2, _, _⟩ := hprovI nm colsI hi
    have : ci1 = ci2 := keysNodup_inj ss hnd nm ci1 ci2 hm1 hm2
    rw [this, ht2] at ht1
    exact absurd ht1 (by simp)
  have hUI : ∀ nm colsU colsI, (nm, colsU) ∈ dc.uniqueD →
      (nm, colsI) ∈ dc.indexD → False := by
    intro nm colsU colsI hu hi
    obtain ⟨ci1, hm1, _, _, ht1⟩ := hprovU nm colsU hu
    obtain ⟨ci2, hm2, _, _, ht2, _⟩ := hprovI nm colsI hi
    have : ci1 = ci2 := keysNodup_inj ss hnd nm ci1 ci2 hm1 hm2
    rw [this, ht2] at ht1
    exact absurd ht1 (by simp)
  have hPC : ∀ nm colsP colsC, (nm, colsP) ∈ dc.pk →
      (nm, colsC) ∈ dc.checkD → False := by
    intro nm colsP colsC hp hc
    obtain ⟨ci1, hm1, _, ht1⟩ := hprovP nm colsP hp
    obtain ⟨ci2, hm2, _, ht2, _, _⟩ := hprovC nm colsC hc
    have : ci1 = ci2 := keysNodup_inj ss hnd nm ci1 ci2 hm1 hm2
    rw [this, ht2] at ht1
    exact absurd ht1 (by simp)
  have hUC : ∀ nm colsU colsC, (nm, colsU) ∈ dc.uniqueD →
      (nm, colsC) ∈ dc.checkD → False := by
    intro nm colsU colsC hu hc
    obtain ⟨ci1, hm1, _, _, ht1⟩ := hprovU nm colsU hu
    obtain ⟨ci2, hm2, _, _, ht2, _⟩ := hprovC nm colsC hc
    have : ci1 = ci2 := keysNodup_inj ss hnd nm ci1 ci2 hm1 hm2
    rw [this, ht2] at ht1
    exact absurd ht1 (by simp)
  obtain ⟨p, u, i, c, hext, hsp, hsu, hsi, _⟩ :=
    deferList_extends noFail tbl oldCol true true true true ss emptyDC
  have hdcpk : dc.pk = p := by
    rw [hdc, defer_constraints_check, hext]
    simp [emptyDC]
  have hdcun : dc.uniqueD = u := by
    rw [hdc, defer_constraints_check, hext]
    simp [emptyDC]
  have hdcix : dc.indexD = i := by
    rw [hdc, defer_constraints_check, hext]
    simp [emptyDC]
  have hndp : (dc.pk.map Prod.fst).Nodup := by
    rw [hdcpk]
    exact hnd.sublist hsp
  have hndu : (dc.uniqueD.map Prod.fst).Nodup := by
    rw [hdcun]
    exact hnd.sublist hsu
  have hndi : (dc.indexD.map Prod.fst).Nodup := by
    rw [hdcix]
    exact hnd.sublist hsi
  refine ⟨?_, ?_, ?_, ?_, ?_, ?_, ?_, ?_⟩
  · intro nm
    rw [htr]
    rw [defer_constraints_check,
      deferList_trace_pk_noFail tbl oldCol true true true true ss emptyDC nm]
    constructor
    · rintro ⟨ci, hm, ht⟩
      refine ⟨ci.columns, ?_⟩
      rw [hdc]
      exact deferList_pk_rec_noFail tbl oldCol true true true true ss emptyDC
        nm ci hm ht
    · rintro ⟨cols, hmem⟩
      obtain ⟨ci, hm, _, ht⟩ := hprovP nm cols hmem
      exact ⟨ci, hm, ht⟩
  · intro nm
    rw [htr]
    rw [defer_constraints_check,
      deferList_trace_unique_noFail tbl oldCol true true true true ss
        emptyDC nm]
    constructor
    · rintro ⟨ci, hm, h1, h2⟩
      refine ⟨ci.columns, ?_⟩
      rw [hdc]
      exact deferList_unique_rec_noFail tbl oldCol true true true true ss
        emptyDC nm ci hm h1 h2
    · rintro ⟨cols, hmem⟩
      obtain ⟨ci, hm, _, h1, h2⟩ := hprovU nm cols hmem
      exact ⟨ci, hm, h1, h2⟩
  · intro nm
    rw [htr]
    rw [defer_constraints_check,
      deferList_trace_index_noFail tbl oldCol true true true true ss
        emptyDC nm]
    constructor
    · rintro ⟨ci, hm, h1, h2, h3⟩
      refine ⟨ci.columns, ?_⟩
      rw [hdc]
      exact deferList_index_rec_noFail tbl oldCol true true true true ss
        emptyDC nm ci hm h1 h2 h3
    · rintro ⟨cols, hmem⟩
      obtain ⟨ci, hm, _, h1, h2, h3⟩ := hprovI nm cols hmem
      exact ⟨ci, hm, h1, h2, h3⟩
  · intro nm
    rw [htr]
    rw [defer_constraints_check,
      deferList_trace_check_noFail tbl oldCol true true true true ss
        emptyDC nm]
    constructor
    · rintro ⟨ci, hm, h1, h2, h3⟩
      refine ⟨ci.columns, ?_⟩
      rw [hdc]
      exact deferList_check_rec_noFail tbl oldCol true true true true ss
        emptyDC nm ci hm h1 h2 h3
    · rintro ⟨cols, hmem⟩
      obtain ⟨ci, hm, _, h1, h2, h3⟩ := hprovC nm cols hmem
      exact ⟨ci, hm, h1, h2, h3⟩
  · intro nm cols hmem
    constructor
    · rw [hrt, countNamed_restore]
      have z2 : keyCount nm dc.uniqueD = 0 :=
        keyCount_eq_zero nm _ (fun cols2 hc => hPU nm cols cols2 hmem hc)
      have z3 : keyCount nm dc.indexD = 0 :=
        keyCount_eq_zero nm _ (fun cols2 hc => hPI nm cols cols2 hmem hc)
      have b1 := keyCount_le_one_of_nodup nm dc.pk hndp
      have b0 := keyCount_pos nm cols dc.pk hmem
      omega
    · rw [hrt, restore_noFail]
      simp only [List.mem_append, List.mem_flatMap]
      exact Or.inl ⟨(nm, cols), hmem, by simp⟩
  · intro nm cols hmem
    constructor
    · rw [hrt, countNamed_restore]
      have z1 : keyCount nm dc.pk = 0 :=
        keyCount_eq_zero nm _ (fun cols2 hc => hPU nm cols2 cols hc hmem)
      have z3 : keyCount nm dc.indexD = 0 :=
        keyCount_eq_zero nm _ (fun cols2 hc => hUI nm cols cols2 hmem hc)
      have b1 := keyCount_le_one_of_nodup nm dc.uniqueD hndu
      have b0 := keyCount_pos nm cols dc.uniqueD hmem
      omega
    · rw [hrt, restore_noFail]
      simp only [List.mem_append, List.mem_map]
      exact Or.inr (Or.inl ⟨(nm, cols), hmem, by simp [substCols]⟩)
  · intro nm cols hmem
    constructor
    · rw [hrt, countNamed_restore]
      have z1 : keyCount nm dc.pk = 0 :=
        keyCount_eq_zero nm _ (fun cols2 hc => hPI nm cols2 cols hc hmem)
      have z2 : keyCount nm dc.uniqueD = 0 :=
        keyCount_eq_zero nm _ (fun cols2 hc => hUI nm cols2 cols hc hmem)
      have b1 := keyCount_le_one_of_nodup nm dc.indexD hndi
      have b0 := keyCount_pos nm cols dc.indexD hmem
      omega
    · rw [hrt, restore_noFail]
      simp only [List.mem_append, List.mem_map]
      exact Or.inr (Or.inr ⟨(nm, cols), hmem, by simp [substCols]⟩)
  · intro nm cols hmem hnoidx
    rw [hrt, countNamed_restore]
    have z1 : keyCount nm dc.pk = 0 :=
      keyCount_eq_zero nm _ (fun cols2 hc => hPC nm cols2 cols hc hmem)
    have z2 : keyCount nm dc.uniqueD = 0 :=
      keyCount_eq_zero nm _ (fun cols2 hc => hUC nm cols2 cols hc hmem)
    have z3 : keyCount nm dc.indexD = 0 :=
      keyCount_eq_zero nm _ hnoidx
    omega

/-- Witness for the amended C1: a deferred primary key `p0` on `(id)`,
restored across the rename `id → key`, gets exactly one restoration
attempt, recreated as a primary key on `(key)`. -/
theorem claim_C1_defer_restore_amended_witness :
    countNamed (("p0").data)
      (restore_constraints_check noFail []
        (defer_constraints_check noFail
          [((("p0").data), ⟨true, false, false, false, false,
            [("id").data]⟩)]
          emptyDC (("id").data) (("key").data) (("T").data)
          true true true true).1
        (("id").data) (("key").data) (("T").data)).1 = 1 ∧
    Stmt.createPK (("T").data) (("p0").data) [("key").data] ∈
      (restore_constraints_check noFail []
        (defer_constraints_check noFail
          [((("p0").data), ⟨true, false, false, false, false,
            [("id").data]⟩)]
          emptyDC (("id").data) (("key").data) (("T").data)
          true true true true).1
        (("id").data) (("key").data) (("T").data)).1 := by
  have h := claim_C1_defer_restore_amended
    [((("p0").data), ⟨true, false, false, false, false, [("id").data]⟩)]
    (("id").data) (("key").data) (("T").data) []
    (defer_constraints_check noFail
      [((("p0").data), ⟨true, false, false, false, false, [("id").data]⟩)]
      emptyDC (("id").data) (("key").data) (("T").data) true true true
      true).1
    (defer_constraints_check noFail
      [((("p0").data), ⟨true, false, false, false, false, [("id").data]⟩)]
      emptyDC (("id").data) (("key").data) (("T").data) true true true
      true).2.1
    (restore_constraints_check noFail []
      (defer_constraints_check noFail
        [((("p0").data), ⟨true, false, false, false, false, [("id").data]⟩)]
        emptyDC (("id").data) (("key").data) (("T").data) true true true
        true).1
      (("id").data) (("key").data) (("T").data)).1
    (by decide) rfl rfl rfl
  have hrec := h.2.2.2.2.1 (("p0").data) [("id").data] (by decide)
  refine ⟨hrec.1, ?_⟩
  have hsub : substCols [("id").data] (("id").data) (("key").data) =
      [("key").data] := by decide
  rw [hsub] at hrec
  exact hrec.2

/-- Executing statements the engine accepts issues exactly the list. -/
theorem execAll_ok (ex : Oracle) : ∀ l : List Stmt,
    (∀ s ∈ l, ex s = false) → execAll ex l = (l, Except.ok ()) := by
  intro l
  induction l with
  | nil => intro _; rfl
  | cons s rest ih =>
    intro h
    rw [execAll, execS, h s (List.mem_cons_self _ _)]
    simp only [Bool.false_eq_true, if_false]
    rw [bindR_ok_eq, ih (fun s' hs' => h s' (List.mem_cons_of_mem _ hs'))]
    rfl

/-- The primary-key drop step under the no-failure engine without strict
checking. -/
theorem dropPKStep_nf (env : Env) (fPK : Bool) (old : DjField) :
    dropPKStep noFail env false fPK old =
      ((if fPK && old.primaryKey then [Stmt.dropPK env.table] else []),
       Except.ok ()) := by
  unfold dropPKStep
  split_ifs <;> simp_all [execS, noFail, pureR]

/-- The unique drop step under the no-failure engine without strict
checking: every matching constraint is dropped whenever the (corrected)
condition fires. -/
theorem dropUniqueStep_nf (env : Env) (fUniq fPK : Bool) (old : DjField) :
    dropUniqueStep noFail env false fUniq fPK old =
      ((if (fUniq && old.unique) || (old.unique && fPK && !old.primaryKey)
        then (env.constraintNames env.table old.column .uniq).map fun n =>
          Stmt.deleteUnique env.table n
        else []),
       Except.ok ()) := by
  unfold dropUniqueStep
  split_ifs <;> simp_all [execAll_noFail, pureR]

/-- The index drop step under the no-failure engine without strict
checking. -/
theorem dropIndexStep_nf (env : Env) (fIdx : Bool) (old : DjField) :
    dropIndexStep noFail env false fIdx old =
      ((if fIdx && old.dbIndex
        then (env.constraintNames env.table old.column .idx).map fun n =>
          Stmt.deleteIndex n
        else []),
       Except.ok ()) := by
  unfold dropIndexStep
  split_ifs <;> simp_all [execAll_noFail, pureR]

/-- The check drop step under the no-failure engine without strict
checking. -/
theorem dropCheckStep_nf (env : Env) (fChk : Bool) (old : DjField) :
    dropCheckStep noFail env false fChk old =
      ((if fChk && old.dbCheck.isSome
        then (env.constraintNames env.table old.column .chk).map fun n =>
          Stmt.deleteCheck env.table n
        else []),
       Except.ok ()) := by
  unfold dropCheckStep
  split_ifs <;> simp_all [execAll_noFail, pureR]

/-- The nullability-removal step under the no-failure engine. -/
theorem dropNotNullStep_nf (env : Env) (fNull : Bool) (old : DjField) :
    dropNotNullStep noFail env fNull old =
      ((if fNull && old.null then [Stmt.setNotNull env.table old.column]
        else []),
       Except.ok ()) := by
  unfold dropNotNullStep
  split_ifs <;> simp_all [execS, noFail, pureR]

/-- The drop phase under the no-failure engine without strict checking:
the five step traces in order - primary key, unique, index, check, NOT
NULL. -/
theorem dropPhase_nf (env : Env) (fPK fUniq fIdx fChk fNull : Bool)
    (old : DjField) :
    dropPhase noFail env false fPK fUniq fIdx fChk fNull old =
      ((dropPKStep noFail env false fPK old).1 ++
        ((dropUniqueStep noFail env false fUniq fPK old).1 ++
          ((dropIndexStep noFail env false fIdx old).1 ++
            ((dropCheckStep noFail env false fChk old).1 ++
              (dropNotNullStep noFail env fNull old).1))),
       Except.ok ()) := by
  rw [dropPhase, dropPKStep_nf, bindR_ok_eq, dropUniqueStep_nf, bindR_ok_eq,
    dropIndexStep_nf, bindR_ok_eq, dropCheckStep_nf, bindR_ok_eq,
    dropNotNullStep_nf]

/-- The direct foreign-key drop step under the no-failure engine. -/
theorem dropFKStep_nf (env : Env) (old : DjField) :
    dropFKStep noFail env old =
      ((if old.remote.isSome
        then (env.constraintNames env.table old.column .fk).map fun n =>
          Stmt.deleteFK env.table n
        else []),
       Except.ok ()) := by
  unfold dropFKStep
  split_ifs <;> simp_all [execAll_noFail, pureR]

/-- The incoming foreign-key drops under the no-failure engine. -/
theorem incomingFKDrops_nf (env : Env) :
    incomingFKDrops noFail env =
      (env.incomingFields.flatMap fun tc =>
        (env.constraintNames tc.1 tc.2 .fk).map fun n => Stmt.deleteFK tc.1 n,
       Except.ok ()) := by
  rw [incomingFKDrops, execAll_noFail]

/-- The deferral adapter under the no-failure engine: the deferral trace
with the deferred set as value. -/
theorem deferR_nf (env : Env) (old new : DjField) :
    deferR noFail env old new =
      ((defer_constraints_check noFail env.constraints emptyDC old.column
          new.column env.table true true true true).2.1,
       Except.ok (defer_constraints_check noFail env.constraints emptyDC
          old.column new.column env.table true true true true).1) := by
  have h : (defer_constraints_check noFail env.constraints emptyDC
      old.column new.column env.table true true true true).2.2 = none :=
    deferList_ok noFail env.table old.column true true true true
      env.constraints emptyDC (fun q ci _ => ⟨fun _ => rfl, fun _ _ _ => rfl⟩)
  rw [deferR]
  rcases hr : defer_constraints_check noFail env.constraints emptyDC
      old.column new.column env.table true true true true with ⟨dc, tr, e⟩
  rw [hr] at h
  simp only at h
  subst h
  rfl

/-- The datatype-change step under the no-failure engine: optional
default drop, then for an auto-increment target the optional widening to
a plain integer type followed by the identity conversion started at
max + 1, otherwise the direct type alteration; the returned flag requests
incoming foreign-key retyping except for the plain
integer-to-auto-increment primary-key pair. -/
theorem retypeStep_nf (env : Env) (old new : DjField) (fDT : Bool) :
    retypeStep noFail env old new fDT =
      (if fDT then
        ((if (!old.rawDefaultIsNone) && old.hasDefault &&
            old.effDefault.isSome
          then [Stmt.dropDefault env.table new.column] else []) ++
         (if new.isAuto then
            (if !old.isInteger then
              [Stmt.alterType env.table new.column (("Integer").data)]
             else []) ++
            [Stmt.alterToIdentity env.table new.column
              ((env.maxVal).getD 0 + 1)]
          else [Stmt.alterType env.table new.column (new.dbType.getD [])]),
         Except.ok (old.primaryKey && new.primaryKey &&
           !(new.isAuto && old.isInteger)))
      else ([], Except.ok false)) := by
  unfold retypeStep
  split_ifs <;> simp_all [execS, noFail, pureR, bindR]

/-- A result with a known successful outcome is its trace paired with it. -/
theorem resEta {α : Type} (r : Res α) (a : α) (h : r.2 = Except.ok a) :
    r = (r.1, Except.ok a) := by
  obtain ⟨t, e⟩ := r
  simp only at h
  rw [h]

/-- The flag pair returned by the rename-and-retype block. -/
def rrFlags (old new : DjField) (fName fDT rb0 inc0 : Bool) : Bool × Bool :=
  if fName || fDT then
    (rb0 || (old.primaryKey && new.primaryKey),
     inc0 || (if fDT then
       old.primaryKey && new.primaryKey && !(new.isAuto && old.isInteger)
      else false))
  else (rb0, inc0)

/-- The rename-and-retype block under the no-failure engine returns its
trace with the computed flags. -/
theorem renameRetypePhase_nf (env : Env) (old new : DjField)
    (fName fDT rb0 inc0 : Bool) :
    renameRetypePhase noFail env old new fName fDT rb0 inc0 =
      ((renameRetypePhase noFail env old new fName fDT rb0 inc0).1,
       Except.ok (rrFlags old new fName fDT rb0 inc0)) := by
  unfold renameRetypePhase rrFlags
  by_cases h1 : (fName || fDT) = true
  · simp only [h1, if_true]
    by_cases h2 : (old.primaryKey && new.primaryKey) = true <;>
      by_cases h3 : fName = true <;>
      by_cases h4 : fDT = true <;>
      simp [h2, h3, h4, incomingFKDrops_nf, deferR_nf, retypeStep_nf,
        restore_noFail, bindR, pureR, execS, noFail]
  · simp only [Bool.not_eq_true] at h1
    simp [h1, pureR]

/-- The default-change step under the no-failure engine. -/
theorem defaultPhase_nf (env : Env) (new : DjField)
    (fDef fDT fNull : Bool) :
    defaultPhase noFail env new fDef fDT fNull =
      ((if fDef then
          match new.effDefault with
          | none => if fDT || fNull then []
              else [Stmt.dropDefault env.table new.column]
          | some v => [Stmt.setDefault env.table new.column (quote_value v)]
        else []),
       Except.ok ()) := by
  unfold defaultPhase
  by_cases h : fDef = true
  · cases hd : new.effDefault <;> split_ifs <;>
      simp_all [execS, noFail, pureR]
  · simp only [Bool.not_eq_true] at h
    simp [h, pureR]

/-- The nullability step under the no-failure engine. -/
theorem nullabilityPhase_nf (env : Env) (new : DjField) (fNull : Bool) :
    nullabilityPhase noFail env new fNull =
      ((if fNull then
          if new.null then [Stmt.setNull env.table new.column]
          else [Stmt.setNotNull env.table new.column]
        else []),
       Except.ok ()) := by
  unfold nullabilityPhase
  split_ifs <;> simp_all [execS, noFail, pureR]

/-- The check-creation step under the no-failure engine. -/
theorem checkPhase_nf (env : Env) (new : DjField) (fChk : Bool) :
    checkPhase noFail env new fChk =
      ((if fChk && new.dbCheck.isSome then
          [Stmt.createCheck env.table
            (env.createIndexName [new.column] checkSuffix) new.column
            (new.dbCheck.getD [])]
        else []),
       Except.ok ()) := by
  unfold checkPhase
  split_ifs <;> simp_all [execS, noFail, pureR]

/-- The constraint-creation block under the no-failure engine. -/
theorem constraintCreatePhase_nf (env : Env) (new : DjField)
    (fPK fUniq fIdx incFlag : Bool) :
    constraintCreatePhase noFail env new fPK fUniq fIdx incFlag =
      ((if fPK && new.primaryKey then
          Stmt.dropPK env.table ::
            ((env.reorgPending.map fun x => Stmt.reorgTable x.1 x.2) ++
              [Stmt.createPK env.table
                (env.createIndexName [new.column] pkSuffix) [new.column]])
        else if fUniq && new.unique then
          [Stmt.createUnique env.table
            (env.createIndexName [new.column] uniqSuffix) [new.column]]
        else if fIdx && new.dbIndex then
          [Stmt.createIndex env.table
            (env.createIndexName [new.column] indexSuffix) [new.column]]
        else []) ++
       (((if incFlag then env.relatedObjects else []) ++
          (if fPK && new.primaryKey then env.relatedObjects else [])).map
            fun r => Stmt.alterType r.table r.column r.dbType) ++
       (if 0 < ((if incFlag then env.relatedObjects else []) ++
          (if fPK && new.primaryKey then env.relatedObjects else [])).length
        then env.reorgPending.map fun x => Stmt.reorgTable x.1 x.2
        else []),
       Except.ok ()) := by
  unfold constraintCreatePhase
  split_ifs <;>
    simp_all [tryIgnore, execS, noFail, pureR, bindR, reorgTables_noFail,
      execAll_noFail]

/-- The foreign-key recreation step under the no-failure engine. -/
theorem fkPhase_nf (env : Env) (new : DjField) :
    fkPhase noFail env new =
      ((match new.remote with
        | some r => [Stmt.createFK env.table
            (env.createIndexName [new.column] fkSuffix) new.column
            r.targetTable r.targetColumn]
        | none => []),
       Except.ok ()) := by
  unfold fkPhase
  cases new.remote <;> simp [execS, noFail, pureR]

/-- The incoming foreign-key rebuild under the no-failure engine. -/
theorem rebuildIncomingPhase_nf (env : Env) (new : DjField)
    (rebuild : Bool) :
    rebuildIncomingPhase noFail env new rebuild =
      ((if rebuild then
          env.relatedObjects.map fun ro =>
            Stmt.createFK ro.table (env.createIndexName [ro.column] fkSuffix)
              ro.column env.table new.column
        else []),
       Except.ok ()) := by
  unfold rebuildIncomingPhase
  split_ifs <;> simp_all [execAll_noFail, pureR]

/-- The full `alter_field` body after the remake decision, under the
no-failure engine without strict checking: the nine phase traces in source
order, with the flag pair produced by the rename-and-retype block feeding
the constraint-creation and incoming-rebuild phases. -/
theorem alterFieldCore_nf (env : Env) (old new : DjField) (rb0 inc0 : Bool) :
    alterFieldCore noFail env false old new rb0 inc0 =
      ((dropPhase noFail env false (decide (old.primaryKey ≠ new.primaryKey))
          (decide (old.unique ≠ new.unique)) (decide (old.dbIndex ≠ new.dbIndex))
          (decide (old.dbCheck ≠ new.dbCheck)) (decide (old.null ≠ new.null))
          old).1 ++
       ((dropFKStep noFail env old).1 ++
        ((renameRetypePhase noFail env old new (decide (old.column ≠ new.column))
           (decide (old.dbType ≠ new.dbType)) rb0 inc0).1 ++
         ((defaultPhase noFail env new
             ((!old.rawDefaultIsNone) && old.hasDefault &&
               decide (old.effDefault ≠ new.effDefault))
             (decide (old.dbType ≠ new.dbType)) (decide (old.null ≠ new.null))).1 ++
          ((nullabilityPhase noFail env new (decide (old.null ≠ new.null))).1 ++
           ((checkPhase noFail env new (decide (old.dbCheck ≠ new.dbCheck))).1 ++
            ((constraintCreatePhase noFail env new
                (decide (old.primaryKey ≠ new.primaryKey))
                (decide (old.unique ≠ new.unique))
                (decide (old.dbIndex ≠ new.dbIndex))
                (rrFlags old new (decide (old.column ≠ new.column))
                  (decide (old.dbType ≠ new.dbType)) rb0 inc0).2).1 ++
             ((fkPhase noFail env new).1 ++
              (rebuildIncomingPhase noFail env new
                (rrFlags old new (decide (old.column ≠ new.column))
                  (decide (old.dbType ≠ new.dbType)) rb0 inc0).1).1))))))),
       Except.ok ()) := by
  simp only [alterFieldCore]
  rw [renameRetypePhase_nf]
  simp only [dropPhase_nf, dropFKStep_nf, defaultPhase_nf, nullabilityPhase_nf,
    checkPhase_nf, constraintCreatePhase_nf, fkPhase_nf, rebuildIncomingPhase_nf,
    bindR_ok_eq]

/-- When both sides have a storage type and the remake condition does not
hold, `alter_field` is exactly the core body with cleared flags. -/
theorem alter_field_no_remake (ex : Oracle) (env : Env) (old new : DjField)
    (strict : Bool) (h1 : old.dbType ≠ none) (h2 : new.dbType ≠ none)
    (h3 : (decide (old.dbType ≠ new.dbType) &&
      (old.isAuto || old.isText || new.isText)) = false) :
    alter_field ex env old new strict =
      alterFieldCore ex env strict old new false false := by
  simp only [alter_field]
  rw [if_neg (by simp [h1]), if_neg (by simp [h1, h2]),
    if_neg (by intro hc; rw [hc] at h3; simp at h3)]

/-- The trace of the rename-and-retype block under the no-failure engine,
when it is entered: incoming foreign-key drops (for a kept primary key),
then the deferral drops, the rename, the retype and the restoration. -/
theorem renameRetypePhase_trace (env : Env) (old new : DjField)
    (fName fDT rb0 inc0 : Bool) (h : (fName || fDT) = true) :
    (renameRetypePhase noFail env old new fName fDT rb0 inc0).1 =
      (if old.primaryKey && new.primaryKey then (incomingFKDrops noFail env).1
       else []) ++
      ((deferR noFail env old new).1 ++
       ((if fName then [Stmt.renameColumn env.table old.column new.column]
         else []) ++
        ((retypeStep noFail env old new fDT).1 ++
         (restore_constraints_check noFail env.reorgPending
            (defer_constraints_check noFail env.constraints emptyDC old.column
              new.column env.table true true true true).1
            old.column new.column env.table).1))) := by
  unfold renameRetypePhase
  by_cases hp : old.primaryKey = true <;>
    by_cases hq : new.primaryKey = true <;>
    by_cases h3 : fName = true <;>
    by_cases h4 : fDT = true <;>
    simp_all [incomingFKDrops_nf, deferR_nf, retypeStep_nf, restore_noFail,
      bindR, pureR, execS, noFail]

/-- A column-creation follow-up step under the no-failure engine: the
wrapped statement, then the reorganization pass. -/
theorem tryStep_noFail (pending : List (Name × Name)) (del s : Stmt) :
    tryStep noFail pending del s =
      (s :: pending.map fun x => Stmt.reorgTable x.1 x.2, Except.ok ()) := by
  unfold tryStep
  rw [execS_noFail, bindR_ok_eq, reorgTables_noFail]
  simp

/-- `add_field` succeeds under the no-failure engine. -/
theorem add_field_noFail_ok (env : Env) (f0 : DjField) :
    (add_field noFail env f0).2.2 = Except.ok () := by
  simp only [add_field]
  split_ifs <;>
    simp_all [noFail, reorgTables_noFail, tryStep_noFail, execAll_noFail,
      pureR, baseAddColumn]

/-- The field object returned by `add_field` keeps the column name it was
handed (only nullability, primary-key and uniqueness flags are mutated). -/
theorem add_field_col (ex : Oracle) (env : Env) (f0 : DjField) :
    (add_field ex env f0).1.column = f0.column := by
  simp only [add_field]
  repeat' split <;> try simp_all

/-- The first statement issued by `add_field`, whatever the engine does, is
the column creation with nullability forced on and the primary-key and
uniqueness flags cleared. -/
theorem add_field_head (ex : Oracle) (env : Env) (f0 : DjField) :
    ∃ rest, (add_field ex env f0).2.1 =
      Stmt.addColumn env.table f0.column true false false :: rest := by
  simp only [add_field, baseAddColumn]
  repeat' split <;> try simp_all

/-- When both sides have a storage type and the remake condition holds,
`alter_field` under the no-failure engine is the remake prelude - the
pseudo-column creation, the bulk copy, the old-column drop - followed by
the core body run on the pseudo column, with the incoming-foreign-key
flags pre-set from the original pair. -/
theorem alter_field_remake (env : Env) (old new : DjField) (strict : Bool)
    (h1 : old.dbType ≠ none) (h2 : new.dbType ≠ none)
    (h3 : (decide (old.dbType ≠ new.dbType) &&
      (old.isAuto || old.isText || new.isText)) = true) :
    alter_field noFail env old new strict =
      ((add_field noFail env
          {new with column := env.truncName (psudoColumnPref ++ new.column)}).2.1 ++
        (Stmt.updateCopy env.table
            (add_field noFail env
              {new with column := env.truncName (psudoColumnPref ++ new.column)}).1.column
            old.column ::
          (Stmt.deleteColumn env.table old.column ::
            (alterFieldCore noFail env strict
              (add_field noFail env
                {new with column := env.truncName (psudoColumnPref ++ new.column)}).1
              new (old.primaryKey && new.primaryKey)
              (old.primaryKey && new.primaryKey &&
                !(old.isAuto && new.isInteger))).1)),
       (alterFieldCore noFail env strict
          (add_field noFail env
            {new with column := env.truncName (psudoColumnPref ++ new.column)}).1
          new (old.primaryKey && new.primaryKey)
          (old.primaryKey && new.primaryKey && !(old.isAuto && new.isInteger))).2) := by
  have har := resEta _ _ (add_field_noFail_ok env
    {new with column := env.truncName (psudoColumnPref ++ new.column)})
  simp only [alter_field]
  rw [if_neg (by simp [h1]), if_neg (by simp [h1, h2]), if_pos h3]
  simp only [alterFieldDataTypeByRemaking]
  rw [har]
  simp [bindR, pureR, execS, noFail, remove_field]

/-- Concrete environment for the auto-increment-narrowing scenario: table
`T`, empty catalog, no relations, identity naming collaborators. -/
def envC2 : Env :=
  ⟨("T").data, fun _ _ _ => [], [], none, [], [], [], [],
   fun _ _ => ("N").data, fun n => n⟩

/-- An auto-increment integer column `c` of storage type `A`. -/
def oldC2 : DjField :=
  ⟨("c").data, some (("A").data), none, false, false, false, false,
   true, true, false, false, false, true, none, none⟩

/-- A plain (non-auto) integer column `c` of storage type `B`. -/
def newC2 : DjField :=
  ⟨("c").data, some (("B").data), none, false, false, false, false,
   false, true, false, false, false, true, none, none⟩

/-- C2 counterexample: converting an auto-increment column to a plain
integer column of a different storage type does take the remake path - a
`psudo_`-named temporary column is created, the rows are bulk-copied into
it and the old column is dropped - contradicting the claim that this
narrowing never remakes (the source's `pass` branch only skips the
incoming-foreign-key retype flag, not the remake). -/
theorem claim_C2_counterexample :
    oldC2.isAuto = true ∧ newC2.isAuto = false ∧ newC2.isInteger = true ∧
    oldC2.dbType ≠ newC2.dbType ∧
    Stmt.addColumn (("T").data) (psudoColumnPref ++ ("c").data)
        true false false ∈ (alter_field noFail envC2 oldC2 newC2 false).1 ∧
    Stmt.updateCopy (("T").data) (psudoColumnPref ++ ("c").data) (("c").data) ∈
      (alter_field noFail envC2 oldC2 newC2 false).1 ∧
    Stmt.deleteColumn (("T").data) (("c").data) ∈
      (alter_field noFail envC2 oldC2 newC2 false).1 := by
  decide

/-- C2 (amended): for storage-typed sides, `alter_field` takes the remake
path exactly when the types differ and the old field is auto-increment or
large-text or the new field is large-text - so the auto-increment to
plain-integer narrowing also remakes; when the path is taken, a
`psudo_`-prefixed temporary column is created first, one bulk UPDATE
copies the old column into it, the old column is dropped, and the rest of
the plan runs with the temporary column as the old side; otherwise the
plan is the direct core body and no temporary column appears. -/
theorem claim_C2_remake_amended (env : Env) (old new : DjField)
    (strict : Bool) (h1 : old.dbType ≠ none) (h2 : new.dbType ≠ none) :
    ((decide (old.dbType ≠ new.dbType) &&
        (old.isAuto || old.isText || new.isText)) = false →
      alter_field noFail env old new strict =
        alterFieldCore noFail env strict old new false false) ∧
    ((decide (old.dbType ≠ new.dbType) &&
        (old.isAuto || old.isText || new.isText)) = true →
      ∃ tmpF tAdd core,
        add_field noFail env
            {new with column := env.truncName (psudoColumnPref ++ new.column)} =
          (tmpF, (tAdd, Except.ok ())) ∧
        tmpF.column = env.truncName (psudoColumnPref ++ new.column) ∧
        core = alterFieldCore noFail env strict tmpF new
          (old.primaryKey && new.primaryKey)
          (old.primaryKey && new.primaryKey && !(old.isAuto && new.isInteger)) ∧
        alter_field noFail env old new strict =
          (tAdd ++ (Stmt.updateCopy env.table tmpF.column old.column ::
            (Stmt.deleteColumn env.table old.column :: core.1)), core.2)) := by
  refine ⟨fun h3 => alter_field_no_remake noFail env old new strict h1 h2 h3,
    fun h3 => ?_⟩
  refine ⟨(add_field noFail env
      {new with column := env.truncName (psudoColumnPref ++ new.column)}).1,
    (add_field noFail env
      {new with column := env.truncName (psudoColumnPref ++ new.column)}).2.1,
    _, ?_, ?_, rfl, ?_⟩
  · rw [← resEta _ _ (add_field_noFail_ok env
      {new with column := env.truncName (psudoColumnPref ++ new.column)})]
  · rw [add_field_col]
  · exact alter_field_remake env old new strict h1 h2 h3

/-- C2 witness: the amended theorem at the concrete auto-increment
narrowing scenario. -/
theorem claim_C2_remake_amended_witness :
    ((decide (oldC2.dbType ≠ newC2.dbType) &&
        (oldC2.isAuto || oldC2.isText || newC2.isText)) = false →
      alter_field noFail envC2 oldC2 newC2 false =
        alterFieldCore noFail envC2 false oldC2 newC2 false false) ∧
    ((decide (oldC2.dbType ≠ newC2.dbType) &&
        (oldC2.isAuto || oldC2.isText || newC2.isText)) = true →
      ∃ tmpF tAdd core,
        add_field noFail envC2
            {newC2 with column := envC2.truncName (psudoColumnPref ++ newC2.column)} =
          (tmpF, (tAdd, Except.ok ())) ∧
        tmpF.column = envC2.truncName (psudoColumnPref ++ newC2.column) ∧
        core = alterFieldCore noFail envC2 false tmpF newC2
          (oldC2.primaryKey && newC2.primaryKey)
          (oldC2.primaryKey && newC2.primaryKey &&
            !(oldC2.isAuto && newC2.isInteger)) ∧
        alter_field noFail envC2 oldC2 newC2 false =
          (tAdd ++ (Stmt.updateCopy envC2.table tmpF.column oldC2.column ::
            (Stmt.deleteColumn envC2.table oldC2.column :: core.1)), core.2)) :=
  claim_C2_remake_amended envC2 oldC2 newC2 false (by decide) (by decide)

/-- C4: for a datatype change converting a plain (non-auto, non-text)
column to an auto-increment column, the plan contains the identity
conversion parametrized with start value `max(existing values) + 1` - the
introspected maximum being absent for an empty table, contributing `0`,
hence start value `1` - immediately preceded by a widening of the column
to the plain `Integer` type exactly when the old column was not already
integer-typed. -/
theorem claim_C4_identity_conversion (env : Env) (old new : DjField)
    (h1 : old.dbType ≠ none) (h2 : new.dbType ≠ none)
    (hDT : old.dbType ≠ new.dbType) (hAuto : new.isAuto = true)
    (hOldA : old.isAuto = false) (hOldT : old.isText = false)
    (hNewT : new.isText = false) :
    ∃ pre post,
      (alter_field noFail env old new false).1 =
        pre ++ ((if !old.isInteger then
            [Stmt.alterType env.table new.column (("Integer").data)]
          else []) ++
          (Stmt.alterToIdentity env.table new.column ((env.maxVal).getD 0 + 1) ::
            post)) := by
  have hfdt : decide (old.dbType ≠ new.dbType) = true := by simp [hDT]
  have h3 : (decide (old.dbType ≠ new.dbType) &&
      (old.isAuto || old.isText || new.isText)) = false := by
    simp [hOldA, hOldT, hNewT]
  have hor : (decide (old.column ≠ new.column) ||
      decide (old.dbType ≠ new.dbType)) = true := by simp [hfdt]
  refine ⟨(dropPhase noFail env false (decide (old.primaryKey ≠ new.primaryKey))
      (decide (old.unique ≠ new.unique)) (decide (old.dbIndex ≠ new.dbIndex))
      (decide (old.dbCheck ≠ new.dbCheck)) (decide (old.null ≠ new.null))
      old).1 ++
    ((dropFKStep noFail env old).1 ++
     ((if old.primaryKey && new.primaryKey then (incomingFKDrops noFail env).1
       else []) ++
      ((deferR noFail env old new).1 ++
       ((if decide (old.column ≠ new.column) then
           [Stmt.renameColumn env.table old.column new.column]
         else []) ++
        (if (!old.rawDefaultIsNone) && old.hasDefault && old.effDefault.isSome
         then [Stmt.dropDefault env.table new.column] else []))))),
    (restore_constraints_check noFail env.reorgPending
       (defer_constraints_check noFail env.constraints emptyDC old.column
         new.column env.table true true true true).1
       old.column new.column env.table).1 ++
    ((defaultPhase noFail env new
        ((!old.rawDefaultIsNone) && old.hasDefault &&
          decide (old.effDefault ≠ new.effDefault))
        (decide (old.dbType ≠ new.dbType)) (decide (old.null ≠ new.null))).1 ++
     ((nullabilityPhase noFail env new (decide (old.null ≠ new.null))).1 ++
      ((checkPhase noFail env new (decide (old.dbCheck ≠ new.dbCheck))).1 ++
       ((constraintCreatePhase noFail env new
           (decide (old.primaryKey ≠ new.primaryKey))
           (decide (old.unique ≠ new.unique))
           (decide (old.dbIndex ≠ new.dbIndex))
           (rrFlags old new (decide (old.column ≠ new.column))
             (decide (old.dbType ≠ new.dbType)) false false).2).1 ++
        ((fkPhase noFail env new).1 ++
         (rebuildIncomingPhase noFail env new
           (rrFlags old new (decide (old.column ≠ new.column))
             (decide (old.dbType ≠ new.dbType)) false false).1).1))))), ?_⟩
  rw [alter_field_no_remake noFail env old new false h1 h2 h3, alterFieldCore_nf,
    renameRetypePhase_trace env old new _ _ false false hor, retypeStep_nf]
  rw [hfdt, hAuto]
  simp [List.append_assoc]

/-- Concrete environment for the identity-conversion scenario: table `T`
whose column holds maximum value `41`. -/
def envC4 : Env :=
  ⟨("T").data, fun _ _ _ => [], [], some 41, [], [], [], [],
   fun _ _ => ("N").data, fun n => n⟩

/-- A plain integer column `c` of storage type `A`. -/
def oldC4 : DjField :=
  ⟨("c").data, some (("A").data), none, false, false, false, false,
   false, true, false, false, false, true, none, none⟩

/-- An auto-increment column `c` of storage type `B`. -/
def newC4 : DjField :=
  ⟨("c").data, some (("B").data), none, false, false, false, false,
   true, true, false, false, false, true, none, none⟩

/-- C4 witness: converting the integer column with maximum value 41 to
auto-increment plans the identity conversion with start value 42, with no
widening since the old column is already integer-typed. -/
theorem claim_C4_identity_conversion_witness :
    ∃ pre post,
      (alter_field noFail envC4 oldC4 newC4 false).1 =
        pre ++ ((if !oldC4.isInteger then
            [Stmt.alterType envC4.table newC4.column (("Integer").data)]
          else []) ++
          (Stmt.alterToIdentity envC4.table newC4.column
              ((envC4.maxVal).getD 0 + 1) ::
            post)) :=
  claim_C4_identity_conversion envC4 oldC4 newC4 (by decide) (by decide)
    (by decide) (by decide) (by decide) (by decide) (by decide)

/-- Concrete environment for the unique-drop scenario: table `T` with one
catalog unique constraint `u0` on the column. -/
def envC3 : Env :=
  ⟨("T").data, fun _ _ k => if k = CKind.uniq then [("u0").data] else [],
   [], none, [], [], [], [], fun _ _ => ("N").data, fun n => n⟩

/-- A unique non-primary-key column `c`. -/
def oldC3 : DjField :=
  ⟨("c").data, some (("A").data), none, false, false, true, false,
   false, true, false, false, false, true, none, none⟩

/-- The same column promoted to unique primary key (uniqueness flag
unchanged). -/
def newC3 : DjField :=
  ⟨("c").data, some (("A").data), none, false, true, true, false,
   false, true, false, false, false, true, none, none⟩

/-- C3 counterexample: promoting a unique non-primary-key column to
primary key - with the uniqueness flag unchanged - still issues a unique
constraint drop, contradicting the claim that each drop step runs only
when its own change flag is set (the source condition is
`alter_field_unique and old_field.unique or (old_field.unique and
alter_field_primary_key and not old_field.primary_key)`). -/
theorem claim_C3_counterexample :
    decide (oldC3.unique ≠ newC3.unique) = false ∧
    decide (oldC3.primaryKey ≠ newC3.primaryKey) = true ∧
    Stmt.deleteUnique (("T").data) (("u0").data) ∈
      (alter_field noFail envC3 oldC3 newC3 false).1 := by
  decide

/-- C3 (amended): the drop steps run in the order primary key, unique,
index, check, NOT NULL; the primary-key, index, check and NOT NULL steps
fire exactly when their change flag is set and the old definition had the
property, while the unique step additionally fires when the old definition
was unique and the primary-key flag changed on a non-primary-key old
definition; under non-strict mode zero or multiple catalog matches are
tolerated and every match is dropped; under strict mode each step raises a
`ValueError` before issuing any statement of its own when the catalog
count is wrong (zero for primary key, any count other than one for
unique, index and check). -/
theorem claim_C3_drop_steps_amended (ex : Oracle) (env : Env)
    (fPK fUniq fIdx fChk fNull : Bool) (old : DjField) :
    (dropPhase noFail env false fPK fUniq fIdx fChk fNull old =
      ((if fPK && old.primaryKey then [Stmt.dropPK env.table] else []) ++
       ((if (fUniq && old.unique) || (old.unique && fPK && !old.primaryKey)
         then (env.constraintNames env.table old.column .uniq).map fun n =>
           Stmt.deleteUnique env.table n
         else []) ++
        ((if fIdx && old.dbIndex
          then (env.constraintNames env.table old.column .idx).map fun n =>
            Stmt.deleteIndex n
          else []) ++
         ((if fChk && old.dbCheck.isSome
           then (env.constraintNames env.table old.column .chk).map fun n =>
             Stmt.deleteCheck env.table n
           else []) ++
          (if fNull && old.null then [Stmt.setNotNull env.table old.column]
           else [])))),
       Except.ok ())) ∧
    ((fPK && old.primaryKey) = true →
      (env.constraintNames env.table old.column .pk).length = 0 →
      dropPKStep ex env true fPK old = ([], Except.error .valueError)) ∧
    (((fUniq && old.unique) || (old.unique && fPK && !old.primaryKey)) = true →
      (env.constraintNames env.table old.column .uniq).length ≠ 1 →
      dropUniqueStep ex env true fUniq fPK old = ([], Except.error .valueError)) ∧
    ((fIdx && old.dbIndex) = true →
      (env.constraintNames env.table old.column .idx).length ≠ 1 →
      dropIndexStep ex env true fIdx old = ([], Except.error .valueError)) ∧
    ((fChk && old.dbCheck.isSome) = true →
      (env.constraintNames env.table old.column .chk).length ≠ 1 →
      dropCheckStep ex env true fChk old = ([], Except.error .valueError)) := by
  refine ⟨?_, ?_, ?_, ?_, ?_⟩
  · rw [dropPhase_nf]
    simp [dropPKStep_nf, dropUniqueStep_nf, dropIndexStep_nf, dropCheckStep_nf,
      dropNotNullStep_nf]
  · intro hc hl
    simp [dropPKStep, hc, hl]
  · intro hc hl
    simp [dropUniqueStep, hc, hl]
  · intro hc hl
    simp [dropIndexStep, hc, hl]
  · intro hc hl
    simp [dropCheckStep, hc, hl]

/-- Environment for the strict-mode scenario: no catalog primary-key,
unique or check constraint, two catalog indexes. -/
def envC3w : Env :=
  ⟨("T").data,
   fun _ _ k => if k = CKind.idx then [("i1").data, ("i2").data] else [],
   [], none, [], [], [], [], fun _ _ => ("N").data, fun n => n⟩

/-- A nullable unique indexed checked primary-key column `c`. -/
def oldC3w : DjField :=
  ⟨("c").data, some (("A").data), some (("CK").data), true, true, true,
   true, false, true, false, false, false, true, none, none⟩

/-- C3 witness: the amended theorem at the strict-mode scenario - the
non-strict drop phase issues every match and each strict step fails with
an empty trace on its wrong count. -/
theorem claim_C3_drop_steps_amended_witness :
    (dropPhase noFail envC3w false true true true true true oldC3w =
      ((if true && oldC3w.primaryKey then [Stmt.dropPK envC3w.table] else []) ++
       ((if (true && oldC3w.unique) ||
            (oldC3w.unique && true && !oldC3w.primaryKey)
         then (envC3w.constraintNames envC3w.table oldC3w.column .uniq).map
           fun n => Stmt.deleteUnique envC3w.table n
         else []) ++
        ((if true && oldC3w.dbIndex
          then (envC3w.constraintNames envC3w.table oldC3w.column .idx).map
            fun n => Stmt.deleteIndex n
          else []) ++
         ((if true && oldC3w.dbCheck.isSome
           then (envC3w.constraintNames envC3w.table oldC3w.column .chk).map
             fun n => Stmt.deleteCheck envC3w.table n
           else []) ++
          (if true && oldC3w.null then
            [Stmt.setNotNull envC3w.table oldC3w.column]
           else [])))),
       Except.ok ())) ∧
    dropPKStep noFail envC3w true true oldC3w = ([], Except.error .valueError) ∧
    dropUniqueStep noFail envC3w true true true oldC3w =
      ([], Except.error .valueError) ∧
    dropIndexStep noFail envC3w true true oldC3w =
      ([], Except.error .valueError) ∧
    dropCheckStep noFail envC3w true true oldC3w =
      ([], Except.error .valueError) := by
  have h := claim_C3_drop_steps_amended noFail envC3w true true true true true
    oldC3w
  exact ⟨h.1, h.2.1 (by decide) (by decide), h.2.2.1 (by decide) (by decide),
    h.2.2.2.1 (by decide) (by decide), h.2.2.2.2 (by decide) (by decide)⟩

/-- Concrete environment for the default-change scenario. -/
def envC7 : Env :=
  ⟨("T").data, fun _ _ _ => [], [], none, [], [], [], [],
   fun _ _ => ("N").data, fun n => n⟩

/-- A column `c` without any default. -/
def oldC7 : DjField :=
  ⟨("c").data, some (("A").data), none, false, false, false, false,
   false, true, false, false, false, true, none, none⟩

/-- The same column with a new effective default `x`. -/
def newC7 : DjField :=
  ⟨("c").data, some (("A").data), none, false, false, false, false,
   false, true, false, false, true, false, some (.vtext (("x").data)), none⟩

/-- C7 counterexample: introducing a default on a column that had none -
the effective defaults differ and the new one is present - yields an
empty plan: no set-default statement is issued, because the source guards
the default step on the old field carrying a concrete default
(`old_field.default is not None and old_field.has_default()`). -/
theorem claim_C7_counterexample :
    oldC7.effDefault ≠ newC7.effDefault ∧ newC7.effDefault.isSome = true ∧
    (alter_field noFail envC7 oldC7 newC7 false).1 = [] := by
  decide

/-- C7 (amended): the default-change block runs only when the old field
carries a concrete default (`default is not None` and `has_default()`)
and the effective defaults differ; then an absent new default drops the
stored default unless a datatype or nullability change is applied in the
same call, and a present new default is set, formatted through
`quote_value`. -/
theorem claim_C7_default_amended (env : Env) (old new : DjField)
    (h1 : old.dbType ≠ none) (h2 : new.dbType ≠ none)
    (h3 : (decide (old.dbType ≠ new.dbType) &&
      (old.isAuto || old.isText || new.isText)) = false) :
    ∃ pre post,
      (alter_field noFail env old new false).1 = pre ++
        ((if (!old.rawDefaultIsNone) && old.hasDefault &&
            decide (old.effDefault ≠ new.effDefault) then
          match new.effDefault with
          | none =>
            if decide (old.dbType ≠ new.dbType) || decide (old.null ≠ new.null)
            then [] else [Stmt.dropDefault env.table new.column]
          | some v => [Stmt.setDefault env.table new.column (quote_value v)]
         else []) ++ post) := by
  refine ⟨(dropPhase noFail env false (decide (old.primaryKey ≠ new.primaryKey))
      (decide (old.unique ≠ new.unique)) (decide (old.dbIndex ≠ new.dbIndex))
      (decide (old.dbCheck ≠ new.dbCheck)) (decide (old.null ≠ new.null))
      old).1 ++
    ((dropFKStep noFail env old).1 ++
     (renameRetypePhase noFail env old new (decide (old.column ≠ new.column))
       (decide (old.dbType ≠ new.dbType)) false false).1),
    (nullabilityPhase noFail env new (decide (old.null ≠ new.null))).1 ++
    ((checkPhase noFail env new (decide (old.dbCheck ≠ new.dbCheck))).1 ++
     ((constraintCreatePhase noFail env new
         (decide (old.primaryKey ≠ new.primaryKey))
         (decide (old.unique ≠ new.unique))
         (decide (old.dbIndex ≠ new.dbIndex))
         (rrFlags old new (decide (old.column ≠ new.column))
           (decide (old.dbType ≠ new.dbType)) false false).2).1 ++
      ((fkPhase noFail env new).1 ++
       (rebuildIncomingPhase noFail env new
         (rrFlags old new (decide (old.column ≠ new.column))
           (decide (old.dbType ≠ new.dbType)) false false).1).1))), ?_⟩
  rw [alter_field_no_remake noFail env old new false h1 h2 h3, alterFieldCore_nf,
    defaultPhase_nf]
  simp [List.append_assoc]

/-- A column `c` with stored default `a`. -/
def oldC7w : DjField :=
  ⟨("c").data, some (("A").data), none, false, false, false, false,
   false, true, false, false, true, false, some (.vtext (("a").data)), none⟩

/-- The same column with new effective default `b`. -/
def newC7w : DjField :=
  ⟨("c").data, some (("A").data), none, false, false, false, false,
   false, true, false, false, true, false, some (.vtext (("b").data)), none⟩

/-- C7 witness: the amended theorem at the concrete stored-default change
scenario. -/
theorem claim_C7_default_amended_witness :
    ∃ pre post,
      (alter_field noFail envC7 oldC7w newC7w false).1 = pre ++
        ((if (!oldC7w.rawDefaultIsNone) && oldC7w.hasDefault &&
            decide (oldC7w.effDefault ≠ newC7w.effDefault) then
          match newC7w.effDefault with
          | none =>
            if decide (oldC7w.dbType ≠ newC7w.dbType) ||
               decide (oldC7w.null ≠ newC7w.null)
            then [] else [Stmt.dropDefault envC7.table newC7w.column]
          | some v =>
            [Stmt.setDefault envC7.table newC7w.column (quote_value v)]
         else []) ++ post) :=
  claim_C7_default_amended envC7 oldC7w newC7w (by decide) (by decide)
    (by decide)

/-- The reorganization pass succeeds whenever the engine accepts every
reorganize command. -/
theorem reorgTables_ok (ex : Oracle) (p : List (Name × Name))
    (h : ∀ a b, ex (Stmt.reorgTable a b) = false) :
    reorgTables ex p = (p.map fun x => Stmt.reorgTable x.1 x.2, Except.ok ()) := by
  rw [reorgTables]
  refine execAll_ok ex _ ?_
  intro s hs
  obtain ⟨a, _, rfl⟩ := List.mem_map.mp hs
  exact h _ _

/-- A failing follow-up statement inside a compensated step: the
compensating drop is issued (and succeeds here) and the original database
error is re-raised. -/
theorem tryStep_fail (ex : Oracle) (pending : List (Name × Name))
    (del s : Stmt) (hs : ex s = true) (hdel : ex del = false) :
    tryStep ex pending del s = ([s, del], Except.error Err.dbError) := by
  unfold tryStep
  simp [execS, hs, hdel, bindR]

/-- A compensated step whose statement and reorganization pass succeed. -/
theorem tryStep_ok (ex : Oracle) (pending : List (Name × Name))
    (del s : Stmt) (hs : ex s = false)
    (hr : ∀ a b, ex (Stmt.reorgTable a b) = false) :
    tryStep ex pending del s =
      (s :: pending.map fun x => Stmt.reorgTable x.1 x.2, Except.ok ()) := by
  unfold tryStep
  simp [execS, hs, bindR, reorgTables_ok ex pending hr]

/-- An engine that rejects exactly the SET NOT NULL statements. -/
def failSetNotNull : Oracle := fun s =>
  match s with
  | .setNotNull _ _ => true
  | _ => false

/-- An engine that rejects exactly the primary-key creations. -/
def failCreatePK : Oracle := fun s =>
  match s with
  | .createPK _ _ _ => true
  | _ => false

/-- An engine that rejects exactly the unique-constraint creations. -/
def failCreateUnique : Oracle := fun s =>
  match s with
  | .createUnique _ _ _ => true
  | _ => false

/-- An engine that rejects exactly the pre-existing primary-key drops. -/
def failDeletePK : Oracle := fun s =>
  match s with
  | .deletePK _ _ => true
  | _ => false

/-- Concrete environment for the compensating-drop scenario: table `T`
with one pre-existing primary key `p0`. -/
def envC5 : Env :=
  ⟨("T").data, fun _ _ _ => [], [], none, [], [], [("p0").data], [],
   fun _ _ => ("N").data, fun n => n⟩

/-- A nullable primary-key column `c` to add. -/
def fC5 : DjField :=
  ⟨("c").data, some (("A").data), none, true, true, false, false,
   false, true, false, false, false, true, none, none⟩

/-- C5 counterexample: when the drop of a pre-existing primary key fails
during the follow-up steps of `add_field`, the error is re-raised but the
newly added column is NOT dropped - the pre-existing-key drops sit
outside the compensated block - contradicting the claim that every
follow-up failure removes the new column. -/
theorem claim_C5_counterexample :
    (add_field failDeletePK envC5 fC5).2.2 = Except.error Err.dbError ∧
    Stmt.deleteColumn (("T").data) (("c").data) ∉
      (add_field failDeletePK envC5 fC5).2.1 :=
  ⟨rfl, by decide⟩

/-- C5 (amended): `add_field` always creates the column first as nullable
with the primary-key and uniqueness flags cleared, whatever the engine
does; and a failure of the SET NOT NULL statement, of the new primary-key
creation or of the new unique-constraint creation triggers the
compensating drop of the new column before the database error is
re-raised (failures of the pre-existing primary-key drops, which sit
outside the compensated block, do not). -/
theorem claim_C5_add_field_amended (ex : Oracle) (env : Env) (f0 : DjField)
    (hm : (f0.isM2M && relThroughAuto f0.remote) = false) :
    (∃ rest, (add_field ex env f0).2.1 =
      Stmt.addColumn env.table f0.column true false false :: rest) ∧
    (Stmt.deleteColumn env.table f0.column ∈
        (add_field failSetNotNull env {f0 with null := false}).2.1 ∧
      (add_field failSetNotNull env {f0 with null := false}).2.2 =
        Except.error Err.dbError) ∧
    (Stmt.deleteColumn env.table f0.column ∈
        (add_field failCreatePK env {f0 with primaryKey := true}).2.1 ∧
      (add_field failCreatePK env {f0 with primaryKey := true}).2.2 =
        Except.error Err.dbError) ∧
    (Stmt.deleteColumn env.table f0.column ∈
        (add_field failCreateUnique env
          {f0 with primaryKey := false, unique := true}).2.1 ∧
      (add_field failCreateUnique env
        {f0 with primaryKey := false, unique := true}).2.2 =
        Except.error Err.dbError) := by
  refine ⟨add_field_head ex env f0, ?_, ?_, ?_⟩
  · have hreorg := reorgTables_ok failSetNotNull env.reorgPending
      (fun a b => rfl)
    have htry := tryStep_fail failSetNotNull env.reorgPending
      (Stmt.deleteColumn env.table f0.column)
      (Stmt.setNotNull env.table f0.column) rfl rfl
    simp only [add_field, baseAddColumn]
    by_cases hM : f0.isM2M = true <;> simp_all [relThroughAuto, failSetNotNull]
  · have hreorg := reorgTables_ok failCreatePK env.reorgPending
      (fun a b => rfl)
    have hdel := execAll_ok failCreatePK
      (env.existingPKs.map fun n => Stmt.deletePK env.table n)
      (by intro s hs; obtain ⟨a, _, rfl⟩ := List.mem_map.mp hs; rfl)
    have htryNN := tryStep_ok failCreatePK env.reorgPending
      (Stmt.deleteColumn env.table f0.column)
      (Stmt.setNotNull env.table f0.column) rfl (fun a b => rfl)
    have htryPK := tryStep_fail failCreatePK env.reorgPending
      (Stmt.deleteColumn env.table f0.column)
      (Stmt.createPK env.table (env.createIndexName [f0.column] pkSuffix)
        [f0.column]) rfl rfl
    by_cases hM : f0.isM2M = true <;> by_cases hnull : f0.null = true <;>
      simp_all [add_field, baseAddColumn, relThroughAuto, failCreatePK, pureR]
  · have hreorg := reorgTables_ok failCreateUnique env.reorgPending
      (fun a b => rfl)
    have htryNN := tryStep_ok failCreateUnique env.reorgPending
      (Stmt.deleteColumn env.table f0.column)
      (Stmt.setNotNull env.table f0.column) rfl (fun a b => rfl)
    have htryU := tryStep_fail failCreateUnique env.reorgPending
      (Stmt.deleteColumn env.table f0.column)
      (Stmt.createUnique env.table (env.createIndexName [f0.column] uniqSuffix)
        [f0.column]) rfl rfl
    by_cases hM : f0.isM2M = true <;> by_cases hnull : f0.null = true <;>
      simp_all [add_field, baseAddColumn, relThroughAuto, failCreateUnique, pureR]

/-- C5 witness: the amended theorem at the concrete column `c` of table
`T`. -/
theorem claim_C5_add_field_amended_witness :
    (∃ rest, (add_field noFail envC5 fC5).2.1 =
      Stmt.addColumn envC5.table fC5.column true false false :: rest) ∧
    (Stmt.deleteColumn envC5.table fC5.column ∈
        (add_field failSetNotNull envC5 {fC5 with null := false}).2.1 ∧
      (add_field failSetNotNull envC5 {fC5 with null := false}).2.2 =
        Except.error Err.dbError) ∧
    (Stmt.deleteColumn envC5.table fC5.column ∈
        (add_field failCreatePK envC5 {fC5 with primaryKey := true}).2.1 ∧
      (add_field failCreatePK envC5 {fC5 with primaryKey := true}).2.2 =
        Except.error Err.dbError) ∧
    (Stmt.deleteColumn envC5.table fC5.column ∈
        (add_field failCreateUnique envC5
          {fC5 with primaryKey := false, unique := true}).2.1 ∧
      (add_field failCreateUnique envC5
        {fC5 with primaryKey := false, unique := true}).2.2 =
        Except.error Err.dbError) :=
  claim_C5_add_field_amended noFail envC5 fC5 (by decide)
